import Mathlib

/-!
# IAM policy splitter: the packing engine and its `Read` caller

A shallow embedding of `internal/provider/iam_policy_splitter_data_source.go`.

* Go strings are modelled by Lean `String`s (valid UTF-8, which is what
  `json.Unmarshal` produces) and `len(s)` by `String.utf8ByteSize`.
* Go `int` is taken to be 64 bits wide, so `int(maxChars)` is the identity on
  `int64`; sizes and limits are unbounded `Nat`/`Int` (no arithmetic is done
  on them, only comparisons).
* Values held in `interface{}` fields are the values `json.Unmarshal` stores
  there: `nil`, `bool`, `float64`, `string`, `[]interface{}` and
  `map[string]interface{}`.  All of them are serializable, so `json.Marshal`
  never returns an error on the documents of this development; the error
  branches of the source are kept all the same.
* `encoding/json` and `sort` are those of the Go releases the provider builds
  with (Go 1.22 and later): `json.Marshal` escapes HTML characters and writes
  `\b` and `\f` in their short form, `sort.Slice` is pattern-defeating
  quicksort.
* The logger (`tflog`) and the `ctx` argument have no effect on results and
  are left out.
-/

namespace IamPolicySplitter

/-! ## JSON values and `encoding/json` -/

/-- A value stored in an `interface{}` field by `json.Unmarshal`.  A `float64`
is carried as the text the encoder emits for it (floating-point formatting is
not modelled); an object lists its entries in the order the encoder emits
them, which is sorted by key. -/
inductive JSONValue where
  | null
  | bool (b : Bool)
  | number (text : String)
  | string (s : String)
  | array (xs : List JSONValue)
  | object (kvs : List (String × JSONValue))

/-- The digit `hex[n]` of `encoding/json`, with `hex = "0123456789abcdef"`. -/
def hexDigit (n : Nat) : Char :=
  if n < 10 then Char.ofNat (48 + n) else Char.ofNat (87 + n)

/-- What `appendString` (with `escapeHTML = true`) emits for one rune of a
valid UTF-8 string. -/
def escapeRune (c : Char) : List Char :=
  let n := c.toNat
  if n = 92 ∨ n = 34 then [Char.ofNat 92, c]
  else if n = 8 then [Char.ofNat 92, Char.ofNat 98]
  else if n = 12 then [Char.ofNat 92, Char.ofNat 102]
  else if n = 10 then [Char.ofNat 92, Char.ofNat 110]
  else if n = 13 then [Char.ofNat 92, Char.ofNat 114]
  else if n = 9 then [Char.ofNat 92, Char.ofNat 116]
  else if n < 32 ∨ n = 60 ∨ n = 62 ∨ n = 38 then
    [Char.ofNat 92, Char.ofNat 117, Char.ofNat 48, Char.ofNat 48, hexDigit (n / 16), hexDigit (n % 16)]
  else if n = 8232 ∨ n = 8233 then
    [Char.ofNat 92, Char.ofNat 117, Char.ofNat 50, Char.ofNat 48, Char.ofNat 50, hexDigit (n % 16)]
  else [c]

/-- The runes of a string, each escaped. -/
def escapeRunes : List Char → List Char
  | [] => []
  | c :: cs => escapeRune c ++ escapeRunes cs

/-- A Go string as a JSON string literal (`appendString`). -/
def encodeString (s : String) : String :=
  "\"" ++ String.mk (escapeRunes s.data) ++ "\""

/-- Rendered items separated by commas. -/
def joinComma : List String → String
  | [] => ""
  | [x] => x
  | x :: y :: rest => x ++ "," ++ joinComma (y :: rest)

mutual
/-- The encoding of an `interface{}` value. -/
def encodeValue : JSONValue → String
  | .null => "null"
  | .bool b => if b then "true" else "false"
  | .number text => text
  | .string s => encodeString s
  | .array xs => "[" ++ encodeItems xs ++ "]"
  | .object kvs => "\x7b" ++ encodeEntries kvs ++ "\x7d"
/-- The elements of an array, comma separated. -/
def encodeItems : List JSONValue → String
  | [] => ""
  | [x] => encodeValue x
  | x :: y :: rest => encodeValue x ++ "," ++ encodeItems (y :: rest)
/-- The entries of a map, comma separated. -/
def encodeEntries : List (String × JSONValue) → String
  | [] => ""
  | [(k, v)] => encodeString k ++ ":" ++ encodeValue v
  | (k, v) :: e :: rest => encodeString k ++ ":" ++ encodeValue v ++ "," ++ encodeEntries (e :: rest)
end

/-! ## The data model of the provider -/

/-- `IAMPolicyStatement`: a single IAM policy statement.  A `nil` interface
is `JSONValue.null`, a `nil` or empty `Condition` map is `[]`. -/
structure IAMPolicyStatement where
  Sid : Option String
  Effect : String
  Principal : JSONValue
  NotPrincipal : JSONValue
  Action : JSONValue
  NotAction : JSONValue
  Resource : JSONValue
  NotResource : JSONValue
  Condition : List (String × JSONValue)

/-- `IAMPolicy`: an AWS IAM policy structure. -/
structure IAMPolicy where
  Version : String
  Statement : List IAMPolicyStatement
  Id : Option String

/-- `StatementWithSize` wraps a statement with its character count. -/
structure StatementWithSize where
  Statement : IAMPolicyStatement
  Size : Int

/-- A struct field tagged `omitempty` whose Go type is `interface{}`: left out
when the interface is `nil`. -/
def fieldInterface (name : String) (v : JSONValue) : Option String :=
  match v with
  | .null => none
  | v => some (encodeString name ++ ":" ++ encodeValue v)

/-- A struct field tagged `omitempty` whose Go type is `*string`: left out
when the pointer is `nil`. -/
def fieldPointer (name : String) (v : Option String) : Option String :=
  v.map fun s => encodeString name ++ ":" ++ encodeString s

/-- The encoding of one statement: the fields in declaration order. -/
def encodeStatement (s : IAMPolicyStatement) : String :=
  "\x7b" ++ joinComma (List.filterMap id
    [ fieldPointer "Sid" s.Sid,
      some (encodeString "Effect" ++ ":" ++ encodeString s.Effect),
      fieldInterface "Principal" s.Principal,
      fieldInterface "NotPrincipal" s.NotPrincipal,
      fieldInterface "Action" s.Action,
      fieldInterface "NotAction" s.NotAction,
      fieldInterface "Resource" s.Resource,
      fieldInterface "NotResource" s.NotResource,
      (match s.Condition with
        | [] => none
        | kvs => some (encodeString "Condition" ++ ":" ++ encodeValue (.object kvs))) ]) ++ "\x7d"

/-- The encoding of the `Statement` slice; the empty list stands for the
`nil` slice, which Go encodes as `null`. -/
def encodeStatements : List IAMPolicyStatement → String
  | [] => "null"
  | ss => "[" ++ joinComma (ss.map encodeStatement) ++ "]"

/-- The encoding of a policy document. -/
def encodePolicy (p : IAMPolicy) : String :=
  "\x7b" ++ joinComma (List.filterMap id
    [ some (encodeString "Version" ++ ":" ++ encodeString p.Version),
      some (encodeString "Statement" ++ ":" ++ encodeStatements p.Statement),
      fieldPointer "Id" p.Id ]) ++ "\x7d"

/-- `json.Marshal` on an `IAMPolicy`.  Every value of the model is
serializable, so the error result never occurs. -/
def jsonMarshal (p : IAMPolicy) : Except String String :=
  .ok (encodePolicy p)

/-- `len(string(b))` for the first result `b` of `json.Marshal` when the error
is discarded: on an error `b` is `nil`, of length zero. -/
def marshalLen (p : IAMPolicy) : Nat :=
  match jsonMarshal p with
  | .ok s => s.utf8ByteSize
  | .error _ => 0

/-! ## `sort.Slice`

The standard library sorts with pattern-defeating quicksort (`pdqsort_func` of
`sort/zsortfunc.go`), working on the slice only through `Less(i, j)` and
`Swap(i, j)`.  The slice is a list here, the loops are recursions on the
distance still to go. -/

section GoSort

variable {α : Type} (lt : α → α → Bool)

/-- `data.Swap(i, j)`. -/
def swapAt (data : List α) (i j : Nat) : List α :=
  match data[i]?, data[j]? with
  | some x, some y => (data.set i y).set j x
  | _, _ => data

/-- `data.Less(i, j)`: the caller's closure applied to the current contents. -/
def lessAt (data : List α) (i j : Nat) : Bool :=
  match data[i]?, data[j]? with
  | some x, some y => lt x y
  | _, _ => false

/-- The inner loop of insertion sort: `for j := i; j > a && Less(j, j-1); j--`. -/
def insertionInner (a : Nat) : Nat → List α → List α
  | 0, data => data
  | j + 1, data =>
    if a < j + 1 ∧ lessAt lt data (j + 1) j = true then
      insertionInner a j (swapAt data (j + 1) j)
    else data

/-- The outer loop of insertion sort, `n` iterations from index `i`. -/
def insertionOuter (a : Nat) : Nat → Nat → List α → List α
  | 0, _, data => data
  | n + 1, i, data => insertionOuter a n (i + 1) (insertionInner lt a i data)

/-- `insertionSort_func` sorts `data[a:b]` using insertion sort. -/
def insertionSort_func (data : List α) (a b : Nat) : List α :=
  insertionOuter lt a (b - (a + 1)) (a + 1) data

/-- The loop of `siftDown_func`. -/
def siftDownLoop (hi first : Nat) : Nat → Nat → List α → List α
  | 0, _, data => data
  | fuel + 1, root, data =>
    let child := 2 * root + 1
    if hi ≤ child then data
    else
      let child :=
        if child + 1 < hi ∧ lessAt lt data (first + child) (first + child + 1) = true then child + 1
        else child
      if lessAt lt data (first + root) (first + child) = true then
        siftDownLoop hi first fuel child (swapAt data (first + root) (first + child))
      else data

/-- `siftDown_func` implements the heap property on `data[lo:hi]`. -/
def siftDown_func (data : List α) (lo hi first : Nat) : List α :=
  siftDownLoop lt hi first (hi + 1) lo data

/-- Build the heap: `for i := (hi - 1) / 2; i >= 0; i--`. -/
def heapBuild (hi first : Nat) : Nat → List α → List α
  | 0, data => siftDown_func lt data 0 hi first
  | i + 1, data => heapBuild hi first i (siftDown_func lt data (i + 1) hi first)

/-- Pop the elements: `for i := hi - 1; i >= 0; i--`. -/
def heapPop (first : Nat) : Nat → List α → List α
  | 0, data => siftDown_func lt (swapAt data first first) 0 0 first
  | i + 1, data =>
    heapPop first i (siftDown_func lt (swapAt data first (first + (i + 1))) 0 (i + 1) first)

/-- `heapSort_func` sorts `data[a:b]`; it is only called on a non-empty range. -/
def heapSort_func (data : List α) (a b : Nat) : List α :=
  let hi := b - a
  heapPop lt a (hi - 1) (heapBuild lt hi a ((hi - 1) / 2) data)

/-- The loop `for i <= j && p(i) \x7b i++ \x7d`; returns the final `i`. -/
def scanUp (p : Nat → Bool) (j : Nat) : Nat → Nat → Nat
  | 0, i => i
  | fuel + 1, i => if i ≤ j ∧ p i = true then scanUp p j fuel (i + 1) else i

/-- The loop `for i <= j && p(j) \x7b j-- \x7d`; returns the final `j`.  The
callers have `1 <= i`, so `j` stays non-negative. -/
def scanDown (p : Nat → Bool) (i : Nat) : Nat → Nat
  | 0 => 0
  | j + 1 => if i ≤ j + 1 ∧ p (j + 1) = true then scanDown p i j else j + 1

/-- The main loop of `partition_func`; returns the data and the final `j`. -/
def partitionLoop (a : Nat) : Nat → List α → Nat → Nat → List α × Nat
  | 0, data, _, j => (data, j)
  | fuel + 1, data, i, j =>
    let i := scanUp (fun i => lessAt lt data i a) j (j + 1 - i) i
    let j := scanDown (fun j => !lessAt lt data j a) i j
    if j < i then (data, j)
    else partitionLoop a fuel (swapAt data i j) (i + 1) (j - 1)

/-- `partition_func` does one quicksort partition: the data, the new index of
the pivot, and whether the range was already partitioned. -/
def partition_func (data : List α) (a b pivot : Nat) : List α × Nat × Bool :=
  let data := swapAt data a pivot
  let i := a + 1
  let j := b - 1
  let i := scanUp (fun i => lessAt lt data i a) j (j + 1 - i) i
  let j := scanDown (fun j => !lessAt lt data j a) i j
  if j < i then (swapAt data j a, j, true)
  else
    let data := swapAt data i j
    let r := partitionLoop lt a (b - a) data (i + 1) (j - 1)
    (swapAt r.1 r.2 a, r.2, false)

/-- The loop of `partitionEqual_func`; returns the data and the final `i`. -/
def partitionEqualLoop (a : Nat) : Nat → List α → Nat → Nat → List α × Nat
  | 0, data, i, _ => (data, i)
  | fuel + 1, data, i, j =>
    let i := scanUp (fun i => !lessAt lt data a i) j (j + 1 - i) i
    let j := scanDown (fun j => lessAt lt data a j) i j
    if j < i then (data, i)
    else partitionEqualLoop a fuel (swapAt data i j) (i + 1) (j - 1)

/-- `partitionEqual_func` partitions `data[a:b]` into elements equal to the
pivot followed by elements greater than it. -/
def partitionEqual_func (data : List α) (a b pivot : Nat) : List α × Nat :=
  partitionEqualLoop lt a (b - a) (swapAt data a pivot) (a + 1) (b - 1)

/-- Shift the smaller one to the left: `for j := i - 1; j >= 1; j--`. -/
def shiftLeft : Nat → List α → List α
  | 0, data => data
  | j + 1, data =>
    if lessAt lt data (j + 1) j = true then shiftLeft j (swapAt data (j + 1) j) else data

/-- Shift the greater one to the right: `for j := i + 1; j < b; j++`. -/
def shiftRight : Nat → Nat → List α → List α
  | 0, _, data => data
  | fuel + 1, j, data =>
    if lessAt lt data j (j - 1) = true then shiftRight fuel (j + 1) (swapAt data j (j - 1)) else data

/-- The loop of `partialInsertionSort_func`, `steps` iterations left. -/
def partialInsertionLoop (a b : Nat) : Nat → Nat → List α → List α × Bool
  | 0, _, data => (data, false)
  | steps + 1, i, data =>
    let i := scanUp (fun i => !lessAt lt data i (i - 1)) (b - 1) (b - i) i
    if i = b then (data, true)
    else if b - a < 50 then (data, false)
    else
      let data := swapAt data i (i - 1)
      let data := if 2 ≤ i - a then shiftLeft lt (i - 1) data else data
      let data := if 2 ≤ b - i then shiftRight lt (b - (i + 1)) (i + 1) data else data
      partialInsertionLoop a b steps i data

/-- `partialInsertionSort_func` partially sorts a slice, returns true if the
slice is sorted at the end. -/
def partialInsertionSort_func (data : List α) (a b : Nat) : List α × Bool :=
  partialInsertionLoop lt a b 5 (a + 1) data

/-- One step of the generator `xorshift`, on `uint64`.  Its values only choose
which elements `breakPatterns_func` swaps. -/
def xorshiftNext (r : Nat) : Nat :=
  let r := r ^^^ ((r <<< 13) % 2 ^ 64)
  let r := r ^^^ (r >>> 7)
  r ^^^ ((r <<< 17) % 2 ^ 64)

/-- `bits.Len`: the number of bits needed to represent `n`. -/
def bitsLen (n : Nat) : Nat :=
  if n = 0 then 0 else Nat.log2 n + 1

/-- The three swaps of `breakPatterns_func`. -/
def breakPatternsLoop (a length idx modulus : Nat) : Nat → Nat → Nat → List α → List α
  | 0, _, _, data => data
  | n + 1, i, random, data =>
    let random := xorshiftNext random
    let other := random &&& (modulus - 1)
    let other := if length ≤ other then other - length else other
    breakPatternsLoop a length idx modulus n (i + 1) random (swapAt data (idx + i) (a + other))

/-- `breakPatterns_func` scatters three elements around the middle: a pattern
in the input would otherwise cause imbalanced partitions. -/
def breakPatterns_func (data : List α) (a b : Nat) : List α :=
  let length := b - a
  if 8 ≤ length then
    breakPatternsLoop a length (a + (length / 4) * 2 - 1) (2 ^ bitsLen length) 3 0 length data
  else data

/-- `sortedHint`: what `choosePivot_func` noticed about the range. -/
inductive sortedHint where
  | unknownHint
  | increasingHint
  | decreasingHint
  deriving DecidableEq

/-- `order2_func` returns `x, y` with `data[x] <= data[y]` and counts a swap. -/
def order2_func (data : List α) (a b swaps : Nat) : Nat × Nat × Nat :=
  if lessAt lt data b a = true then (b, a, swaps + 1) else (a, b, swaps)

/-- `median_func` returns the index of the median of three elements. -/
def median_func (data : List α) (a b c swaps : Nat) : Nat × Nat :=
  let r1 := order2_func lt data a b swaps
  let r2 := order2_func lt data r1.2.1 c r1.2.2
  let r3 := order2_func lt data r1.1 r2.1 r2.2.2
  (r3.2.1, r3.2.2)

/-- `medianAdjacent_func` finds the median of `data[a-1], data[a], data[a+1]`. -/
def medianAdjacent_func (data : List α) (a swaps : Nat) : Nat × Nat :=
  median_func lt data (a - 1) a (a + 1) swaps

/-- `choosePivot_func` chooses a pivot in `data[a:b]`; it does not move data. -/
def choosePivot_func (data : List α) (a b : Nat) : Nat × sortedHint :=
  let l := b - a
  let i := a + l / 4 * 1
  let j := a + l / 4 * 2
  let k := a + l / 4 * 3
  let r :=
    if 8 ≤ l then
      if 50 ≤ l then
        let ri := medianAdjacent_func lt data i 0
        let rj := medianAdjacent_func lt data j ri.2
        let rk := medianAdjacent_func lt data k rj.2
        median_func lt data ri.1 rj.1 rk.1 rk.2
      else median_func lt data i j k 0
    else (j, 0)
  if r.2 = 0 then (r.1, .increasingHint)
  else if r.2 = 12 then (r.1, .decreasingHint)
  else (r.1, .unknownHint)

/-- The loop of `reverseRange_func`. -/
def reverseLoop : Nat → Nat → Nat → List α → List α
  | 0, _, _, data => data
  | fuel + 1, i, j, data =>
    if i < j then reverseLoop fuel (i + 1) (j - 1) (swapAt data i j) else data

/-- `reverseRange_func` reverses `data[a:b]`. -/
def reverseRange_func (data : List α) (a b : Nat) : List α :=
  reverseLoop (b - a) a (b - 1) data

/-- What one pass of the loop of `pdqsort_func` has in hand when it reaches
the partitioning: the data, the remaining `limit`, the pivot, and whether
`partialInsertionSort_func` found the range sorted. -/
structure PassState (α : Type) where
  data : List α
  limit : Nat
  pivot : Nat
  sorted : Bool

/-- The first half of a pass of `pdqsort_func`, for a range longer than
`maxInsertion` and a non-zero `limit`: break patterns after an unbalanced
partition, choose the pivot, reverse a decreasing range, and try the partial
insertion sort on a range that is likely sorted. -/
def pdqPass (data : List α) (a b limit : Nat) (wasBalanced wasPartitioned : Bool) :
    PassState α :=
  let data := if wasBalanced then data else breakPatterns_func data a b
  let limit := if wasBalanced then limit else limit - 1
  let ph := choosePivot_func lt data a b
  let data := if ph.2 = .decreasingHint then reverseRange_func data a b else data
  let pivot := if ph.2 = .decreasingHint then (b - 1) - (ph.1 - a) else ph.1
  let hint := if ph.2 = .decreasingHint then sortedHint.increasingHint else ph.2
  let pis :=
    if wasBalanced ∧ wasPartitioned ∧ hint = .increasingHint then
      partialInsertionSort_func lt data a b
    else (data, false)
  { data := pis.1, limit := limit, pivot := pivot, sorted := pis.2 }

/-- `pdqsort_func` sorts `data[a:b]`.  One unit of fuel is one pass of the
loop; every pass either returns or goes on with a strictly shorter range, so
`b - a + 1` passes are enough.  The two flags are the loop's `wasBalanced` and
`wasPartitioned`. -/
def pdqsort_func : Nat → List α → Nat → Nat → Nat → Bool → Bool → List α
  | 0, data, _, _, _, _, _ => data
  | fuel + 1, data, a, b, limit, wasBalanced, wasPartitioned =>
    if b - a ≤ 12 then insertionSort_func lt data a b
    else if limit = 0 then heapSort_func lt data a b
    else
      let s := pdqPass lt data a b limit wasBalanced wasPartitioned
      if s.sorted = true then s.data
      else if 0 < a ∧ lessAt lt s.data (a - 1) s.pivot = false then
        let r := partitionEqual_func lt s.data a b s.pivot
        pdqsort_func fuel r.1 r.2 b s.limit wasBalanced wasPartitioned
      else
        let r := partition_func lt s.data a b s.pivot
        if r.2.1 - a < b - r.2.1 then
          pdqsort_func fuel (pdqsort_func fuel r.1 a r.2.1 s.limit true true)
            (r.2.1 + 1) b s.limit (decide ((b - a) / 8 ≤ r.2.1 - a)) r.2.2
        else
          pdqsort_func fuel (pdqsort_func fuel r.1 (r.2.1 + 1) b s.limit true true)
            a r.2.1 s.limit (decide ((b - a) / 8 ≤ b - r.2.1)) r.2.2

/-- `sort.Slice(x, less)`: sorts the slice given the provided less function.
The sort is not guaranteed to be stable. -/
def sortSlice (data : List α) : List α :=
  pdqsort_func lt (data.length + 1) data 0 data.length (bitsLen data.length) true true

end GoSort

/-! ## `packStatements` -/

/-- `policyBin`: which statements are in which policy. -/
structure policyBin where
  statements : List IAMPolicyStatement
  currentSize : Nat

/-- The less function handed to `sort.Slice`: by `Size`, descending. -/
def sizeGreater (x y : StatementWithSize) : Bool :=
  decide (x.Size > y.Size)

/-- `sortedStatements`: the order in which `packStatements` processes the
statements. -/
def sortedStatements (statements : List StatementWithSize) : List StatementWithSize :=
  sortSlice sizeGreater statements

/-- The inner loop of `packStatements`: try to place the statement in an
existing bin, the bins taken in order; `none` when `placed` stays false. -/
def tryBins (originalPolicy : IAMPolicy) (maxChars : Int) (stmt : IAMPolicyStatement) :
    List policyBin → Option (List policyBin)
  | [] => none
  | bin :: rest =>
    let testPolicy : IAMPolicy :=
      { Version := originalPolicy.Version
        Statement := bin.statements ++ [stmt]
        Id := originalPolicy.Id }
    let testSize := marshalLen testPolicy
    if (testSize : Int) ≤ maxChars then
      some ({ statements := bin.statements ++ [stmt], currentSize := testSize } :: rest)
    else
      (tryBins originalPolicy maxChars stmt rest).map fun placed => bin :: placed

/-- The body of the outer loop of `packStatements`: place the statement in the
first bin that takes it, or create a new bin. -/
def placeStatement (originalPolicy : IAMPolicy) (maxChars : Int) (bins : List policyBin)
    (stmtWithSize : StatementWithSize) : List policyBin :=
  match tryBins originalPolicy maxChars stmtWithSize.Statement bins with
  | some placed => placed
  | none =>
    let newPolicy : IAMPolicy :=
      { Version := originalPolicy.Version
        Statement := [stmtWithSize.Statement]
        Id := originalPolicy.Id }
    bins ++ [{ statements := [stmtWithSize.Statement], currentSize := marshalLen newPolicy }]

/-- The bins after the first-fit decreasing loop over the sorted statements. -/
def packBins (originalPolicy : IAMPolicy) (sorted : List StatementWithSize) (maxChars : Int) :
    List policyBin :=
  sorted.foldl (placeStatement originalPolicy maxChars) []

/-- `packStatements` uses a bin-packing algorithm to group statements into
policies that fit within the character limit (first-fit decreasing).  The
`ctx` argument only feeds the logger and is left out. -/
def packStatements (originalPolicy : IAMPolicy) (statements : List StatementWithSize)
    (maxChars : Int) : List IAMPolicy :=
  (packBins originalPolicy (sortedStatements statements) maxChars).map fun bin =>
    { Version := originalPolicy.Version
      Statement := bin.statements
      Id := originalPolicy.Id }

/-! ## `Read` -/

/-- A `types.Int64` attribute of the configuration. -/
inductive TfInt64 where
  | null
  | unknown
  | value (v : Int)

/-- The configuration `Read` decodes from the request: `policy_json` (through
`ValueString()`) and `max_chars`. -/
structure IamPolicySplitterDataSourceModel where
  PolicyJson : String
  MaxChars : TfInt64

/-- The error diagnostics `Read` adds, with the values they are formatted from. -/
inductive ReadError where
  | invalidConfiguration
  | invalidPolicyJSON (err : String)
  | missingVersion
  | missingStatement
  | marshalStatement (index : Nat) (err : String)
  | statementTooLarge (index : Nat) (size : Int) (limit : Int)
  | marshalSplitPolicy (index : Nat) (err : String)

/-- The summary of an error diagnostic. -/
def ReadError.summary : ReadError → String
  | .invalidConfiguration => "Invalid Configuration"
  | .invalidPolicyJSON _ => "Invalid Policy JSON"
  | .missingVersion => "Invalid Policy"
  | .missingStatement => "Invalid Policy"
  | .marshalStatement _ _ => "Internal Error"
  | .statementTooLarge _ _ _ => "Statement Too Large"
  | .marshalSplitPolicy _ _ => "Internal Error"

/-- The detail of an error diagnostic. -/
def ReadError.detail : ReadError → String
  | .invalidConfiguration => "max_chars must be greater than 0"
  | .invalidPolicyJSON err => "Failed to parse policy JSON: " ++ err
  | .missingVersion => "Policy must have a Version field"
  | .missingStatement => "Policy must have at least one Statement"
  | .marshalStatement index err =>
    "Failed to marshal statement " ++ toString index ++ ": " ++ err
  | .statementTooLarge index size limit =>
    "Statement " ++ toString index ++ " (" ++ toString size ++
      " characters) exceeds the maximum character limit (" ++ toString limit ++
      "). Individual statements cannot be split further."
  | .marshalSplitPolicy index err =>
    "Failed to marshal split policy " ++ toString index ++ ": " ++ err

/-- The work `Read` hands to others, in the order it does so: parsing the
document, measuring statement `i` alone, packing, serializing split policy `i`. -/
inductive Call where
  | unmarshal
  | marshalStatement (i : Nat)
  | packStatements
  | marshalSplitPolicy (i : Nat)
  deriving DecidableEq

/-- The computed attributes `Read` saves into the state. -/
structure ReadState where
  SplitPolicies : List String
  Id : String

/-- What `Read` leaves behind: the error diagnostics, the state when it was
set, and the calls it made. -/
structure ReadResponse where
  Diagnostics : List ReadError
  State : Option ReadState
  Calls : List Call

/-- The effective limit: `max_chars`, or 6144 when it is null or unknown. -/
def effectiveMaxChars (data : IamPolicySplitterDataSourceModel) : Int :=
  match data.MaxChars with
  | .value v => v
  | _ => 6144

/-- The first loop of `Read`, from index `i` on: the size of each statement
serialized alone with the envelope.  An error stops it at its index. -/
def measureStatements (policy : IAMPolicy) :
    Nat → List IAMPolicyStatement → Except (Nat × String) (List StatementWithSize)
  | _, [] => .ok []
  | i, stmt :: rest =>
    let stmtPolicy : IAMPolicy :=
      { Version := policy.Version, Statement := [stmt], Id := policy.Id }
    match jsonMarshal stmtPolicy with
    | .error err => .error (i, err)
    | .ok stmtJSON =>
      match measureStatements policy (i + 1) rest with
      | .error e => .error e
      | .ok sized => .ok ({ Statement := stmt, Size := (stmtJSON.utf8ByteSize : Int) } :: sized)

/-- The second loop of `Read`, from index `i` on: the first statement whose
size exceeds the limit, with its index. -/
def findTooLarge (maxChars : Int) : Nat → List StatementWithSize → Option (Nat × Int)
  | _, [] => none
  | i, stmt :: rest =>
    if stmt.Size > maxChars then some (i, stmt.Size) else findTooLarge maxChars (i + 1) rest

/-- The last loop of `Read`, from index `i` on: each split policy serialized. -/
def marshalSplitPolicies : Nat → List IAMPolicy → Except (Nat × String) (List String)
  | _, [] => .ok []
  | i, p :: rest =>
    match jsonMarshal p with
    | .error err => .error (i, err)
    | .ok policyJSON =>
      match marshalSplitPolicies (i + 1) rest with
      | .error e => .error e
      | .ok strings => .ok (policyJSON :: strings)

/-- The calls `Call.marshalStatement 0`, ..., `Call.marshalStatement (n - 1)`. -/
def measureCalls (n : Nat) : List Call :=
  (List.range n).map Call.marshalStatement

/-- The calls `Call.marshalSplitPolicy 0`, ..., `Call.marshalSplitPolicy (n - 1)`. -/
def splitCalls (n : Nat) : List Call :=
  (List.range n).map Call.marshalSplitPolicy

/-- `Read`, from the decoded configuration on.  `unmarshal` is `json.Unmarshal`
into an `IAMPolicy`.  Every error path returns before the state is set. -/
def Read (unmarshal : String → Except String IAMPolicy)
    (data : IamPolicySplitterDataSourceModel) : ReadResponse :=
  let maxChars := effectiveMaxChars data
  if maxChars ≤ 0 then
    { Diagnostics := [.invalidConfiguration], State := none, Calls := [] }
  else
    match unmarshal data.PolicyJson with
    | .error err =>
      { Diagnostics := [.invalidPolicyJSON err], State := none, Calls := [.unmarshal] }
    | .ok policy =>
      if policy.Version = "" then
        { Diagnostics := [.missingVersion], State := none, Calls := [.unmarshal] }
      else if policy.Statement.length = 0 then
        { Diagnostics := [.missingStatement], State := none, Calls := [.unmarshal] }
      else
        match measureStatements policy 0 policy.Statement with
        | .error e =>
          { Diagnostics := [.marshalStatement e.1 e.2], State := none
            Calls := .unmarshal :: measureCalls (e.1 + 1) }
        | .ok statementsWithSize =>
          let measured := .unmarshal :: measureCalls policy.Statement.length
          match findTooLarge maxChars 0 statementsWithSize with
          | some (i, size) =>
            { Diagnostics := [.statementTooLarge i size maxChars], State := none
              Calls := measured }
          | none =>
            let splitPolicies := packStatements policy statementsWithSize maxChars
            match marshalSplitPolicies 0 splitPolicies with
            | .error e =>
              { Diagnostics := [.marshalSplitPolicy e.1 e.2], State := none
                Calls := measured ++ .packStatements :: splitCalls (e.1 + 1) }
            | .ok splitPolicyStrings =>
              { Diagnostics := []
                State := some
                  { SplitPolicies := splitPolicyStrings
                    Id := "split-" ++ toString policy.Statement.length ++ "-" ++ toString maxChars }
                Calls := measured ++ .packStatements :: splitCalls splitPolicies.length }

/-! ## Measures used to state the properties -/

/-- The length of one encoded statement. -/
def statementLen (s : IAMPolicyStatement) : Nat :=
  (encodeStatement s).utf8ByteSize

/-- The characters of an encoded policy that belong to the envelope: the
braces, the `Version` field, the `Statement` key with the brackets of its
array, and the `Id` field when there is one. -/
def envelopeLen (version : String) (id : Option String) : Nat :=
  29 + (String.mk (escapeRunes version.data)).utf8ByteSize +
    (match id with
      | none => 0
      | some i => 8 + (String.mk (escapeRunes i.data)).utf8ByteSize)

/-- The serialized size of the document made of the envelope of
`originalPolicy` and the given statements. -/
def policySize (originalPolicy : IAMPolicy) (statements : List IAMPolicyStatement) : Nat :=
  marshalLen
    { Version := originalPolicy.Version, Statement := statements, Id := originalPolicy.Id }

/-! ## The documents of the tests -/

/-- A statement with `Effect`, `Action` and `Resource` only. -/
def allowStatement (sid : Option String) (action resource : JSONValue) : IAMPolicyStatement :=
  { Sid := sid, Effect := "Allow", Principal := .null, NotPrincipal := .null, Action := action,
    NotAction := .null, Resource := resource, NotResource := .null, Condition := [] }

/-- The three-statement policy of `TestPackStatements`. -/
def unitTestPolicy : IAMPolicy :=
  { Version := "2012-10-17"
    Statement :=
      [ allowStatement none (.array [.string "s3:GetObject"]) (.string "arn:aws:s3:::bucket1/*"),
        allowStatement none (.array [.string "s3:PutObject"]) (.string "arn:aws:s3:::bucket2/*"),
        allowStatement none (.array [.string "s3:DeleteObject"]) (.string "arn:aws:s3:::bucket3/*") ]
    Id := none }

/-- The sizes `TestPackStatements` attaches: each statement alone with the
version (the test leaves the `Id` out, the policy has none). -/
def withSoloSizes (policy : IAMPolicy) : List StatementWithSize :=
  policy.Statement.map fun stmt =>
    { Statement := stmt, Size := (policySize policy [stmt] : Int) }

/-- The one-statement policy of `TestPackStatementsWithLargeLimit`. -/
def largeLimitPolicy : IAMPolicy :=
  { Version := "2012-10-17"
    Statement :=
      [ allowStatement none (.array [.string "s3:GetObject"]) (.string "arn:aws:s3:::bucket1/*") ]
    Id := none }

/-- The one-statement policy of `testAccIamPolicySplitterDataSourceConfig`. -/
def acceptancePolicy : IAMPolicy :=
  { Version := "2012-10-17"
    Statement :=
      [ allowStatement none (.array [.string "s3:GetObject"])
          (.string "arn:aws:s3:::example-bucket/*") ]
    Id := none }

/-- The six object actions of the first three statements of the large
acceptance configuration. -/
def objectActions : JSONValue :=
  .array [.string "s3:GetObject", .string "s3:PutObject", .string "s3:DeleteObject",
    .string "s3:GetObjectVersion", .string "s3:PutObjectAcl", .string "s3:GetObjectAcl"]

/-- The five-statement policy of `testAccIamPolicySplitterDataSourceConfigLarge`. -/
def acceptanceLargePolicy : IAMPolicy :=
  { Version := "2012-10-17"
    Statement :=
      [ allowStatement (some "S3BucketAccess1") objectActions
          (.array [.string "arn:aws:s3:::production-data-bucket-1/*",
            .string "arn:aws:s3:::staging-data-bucket-1/*",
            .string "arn:aws:s3:::development-data-bucket-1/*"]),
        allowStatement (some "S3BucketAccess2") objectActions
          (.array [.string "arn:aws:s3:::production-data-bucket-2/*",
            .string "arn:aws:s3:::staging-data-bucket-2/*",
            .string "arn:aws:s3:::development-data-bucket-2/*"]),
        allowStatement (some "S3BucketAccess3") objectActions
          (.array [.string "arn:aws:s3:::production-data-bucket-3/*",
            .string "arn:aws:s3:::staging-data-bucket-3/*",
            .string "arn:aws:s3:::development-data-bucket-3/*"]),
        allowStatement (some "S3BucketList")
          (.array [.string "s3:ListBucket", .string "s3:ListBucketVersions",
            .string "s3:GetBucketLocation", .string "s3:GetBucketAcl",
            .string "s3:GetBucketVersioning"])
          (.array [.string "arn:aws:s3:::production-data-bucket-1",
            .string "arn:aws:s3:::staging-data-bucket-1",
            .string "arn:aws:s3:::development-data-bucket-1",
            .string "arn:aws:s3:::production-data-bucket-2",
            .string "arn:aws:s3:::staging-data-bucket-2",
            .string "arn:aws:s3:::development-data-bucket-2"]),
        { Sid := some "EC2InstanceManagement", Effect := "Allow", Principal := .null,
          NotPrincipal := .null,
          Action := .array [.string "ec2:DescribeInstances", .string "ec2:DescribeInstanceStatus",
            .string "ec2:DescribeInstanceAttribute", .string "ec2:StartInstances",
            .string "ec2:StopInstances", .string "ec2:RebootInstances",
            .string "ec2:TerminateInstances", .string "ec2:RunInstances",
            .string "ec2:ModifyInstanceAttribute"],
          NotAction := .null, Resource := .string "*", NotResource := .null,
          Condition :=
            [("StringEquals",
              .object [("ec2:Region",
                .array [.string "us-east-1", .string "us-west-2", .string "eu-west-1"])])] } ]
    Id := none }

/-- A stand-in for `json.Unmarshal` on the text of a given document: it
returns the document. -/
def unmarshalTo (policy : IAMPolicy) (_text : String) : Except String IAMPolicy :=
  .ok policy

/-- A stand-in for `json.Unmarshal` on a text that is not JSON. -/
def unmarshalFails (_text : String) : Except String IAMPolicy :=
  .error "invalid character"

/-- The configuration of `testAccIamPolicySplitterDataSourceConfig`. -/
def acceptanceConfig : IamPolicySplitterDataSourceModel :=
  { PolicyJson := encodePolicy acceptancePolicy, MaxChars := .value 6144 }

/-- The configuration of `testAccIamPolicySplitterDataSourceConfigLarge`. -/
def acceptanceLargeConfig : IamPolicySplitterDataSourceModel :=
  { PolicyJson := encodePolicy acceptanceLargePolicy, MaxChars := .value 500 }

/-- A statement allowing one action on every resource, under the given `Sid`. -/
def sidStatement (sid action : String) : IAMPolicyStatement :=
  allowStatement (some sid) (.string action) (.string "*")

/-- A policy of thirteen statements: the first one is one character shorter
than the twelve after it, which all have the same length. -/
def thirteenPolicy : IAMPolicy :=
  { Version := "2012-10-17"
    Statement :=
      [ sidStatement "S00" "s3:Get*", sidStatement "S01" "s3:List*",
        sidStatement "S02" "s3:List*", sidStatement "S03" "s3:List*",
        sidStatement "S04" "s3:List*", sidStatement "S05" "s3:List*",
        sidStatement "S06" "s3:List*", sidStatement "S07" "s3:List*",
        sidStatement "S08" "s3:List*", sidStatement "S09" "s3:List*",
        sidStatement "S10" "s3:List*", sidStatement "S11" "s3:List*",
        sidStatement "S12" "s3:List*" ]
    Id := none }

/-- A policy of fourteen statements: the sixth one is one character shorter
than the thirteen others, which all have the same length.  Sorting it takes
`pdqsort_func` through `breakPatterns_func`. -/
def fourteenPolicy : IAMPolicy :=
  { Version := "2012-10-17"
    Statement :=
      [ sidStatement "S00" "s3:List*", sidStatement "S01" "s3:List*",
        sidStatement "S02" "s3:List*", sidStatement "S03" "s3:List*",
        sidStatement "S04" "s3:List*", sidStatement "S05" "s3:Get*",
        sidStatement "S06" "s3:List*", sidStatement "S07" "s3:List*",
        sidStatement "S08" "s3:List*", sidStatement "S09" "s3:List*",
        sidStatement "S10" "s3:List*", sidStatement "S11" "s3:List*",
        sidStatement "S12" "s3:List*", sidStatement "S13" "s3:List*" ]
    Id := none }

/-! ## Reading a slice by its sort keys -/

section KeyView

variable {α : Type} (k : α → Int)

/-- The sort key at index `i` of the slice (zero beyond its end). -/
def keyAt (data : List α) (i : Nat) : Int :=
  match data[i]? with
  | some x => k x
  | none => 0

/-- The keys of `data[a:b]` are in non-increasing order. -/
def SortedRange (data : List α) (a b : Nat) : Prop :=
  ∀ i j, a ≤ i → i < j → j < b → keyAt k data j ≤ keyAt k data i

/-- The slice `after` differs from `before` inside `[a, b)` only, and every
key it has there is a key `before` has there. -/
def RangeEq (a b : Nat) (before after : List α) : Prop :=
  after.length = before.length ∧
    (∀ i, i < a ∨ b ≤ i → keyAt k after i = keyAt k before i) ∧
    ∀ i, a ≤ i → i < b → ∃ j, a ≤ j ∧ j < b ∧ keyAt k after i = keyAt k before j

end KeyView

section HeapView

variable {α : Type} (k : α → Int)

/-- In `data[first : first + hi]`, read as a binary heap, every node from `lo`
on has a key at most the keys of its children. -/
def HeapFrom (data : List α) (first lo hi : Nat) : Prop :=
  ∀ r c, lo ≤ r → (c = 2 * r + 1 ∨ c = 2 * r + 2) → c < hi →
    keyAt k data (first + r) ≤ keyAt k data (first + c)

end HeapView

/-- The policy of `TestPackStatements` with `max_chars = 120`: its third
statement measures 122 characters alone, the first two 119. -/
def tooLargeConfig : IamPolicySplitterDataSourceModel :=
  { PolicyJson := encodePolicy unitTestPolicy, MaxChars := .value 120 }

/-- The statements of `TestPackStatements` that are processed first: the
third one (122 characters alone), then the first one (119). -/
def unitTestProcessedFirst : List StatementWithSize :=
  [ { Statement := allowStatement none (.array [.string "s3:DeleteObject"])
        (.string "arn:aws:s3:::bucket3/*")
      Size := 122 },
    { Statement := allowStatement none (.array [.string "s3:GetObject"])
        (.string "arn:aws:s3:::bucket1/*")
      Size := 119 } ]

/-- The statement of `TestPackStatements` that is processed last: the second one. -/
def unitTestProcessedLast : StatementWithSize :=
  { Statement := allowStatement none (.array [.string "s3:PutObject"])
      (.string "arn:aws:s3:::bucket2/*")
    Size := 119 }

/-! ## The sort only swaps

Every mutation the sort makes is a `Swap`, so whatever a swap preserves the
whole sort preserves. -/

section SwapInvariant

variable {α : Type} (lt : α → α → Bool) (P : List α → Prop)

theorem insertionInner_inv (hP : ∀ d i j, P d → P (swapAt d i j)) (a : Nat) :
    ∀ (j : Nat) (d : List α), P d → P (insertionInner lt a j d) := by
  intro j
  induction j with
  | zero => intro d h; simpa [insertionInner] using h
  | succ j ih =>
    intro d h
    unfold insertionInner
    split
    · exact ih _ (hP _ _ _ h)
    · exact h

theorem insertionOuter_inv (hP : ∀ d i j, P d → P (swapAt d i j)) (a : Nat) :
    ∀ (n i : Nat) (d : List α), P d → P (insertionOuter lt a n i d) := by
  intro n
  induction n with
  | zero => intro i d h; simpa [insertionOuter] using h
  | succ n ih =>
    intro i d h
    unfold insertionOuter
    exact ih _ _ (insertionInner_inv lt P hP a i d h)

theorem insertionSort_func_inv (hP : ∀ d i j, P d → P (swapAt d i j)) (d : List α) (a b : Nat)
    (h : P d) : P (insertionSort_func lt d a b) :=
  insertionOuter_inv lt P hP a _ _ d h

theorem siftDownLoop_inv (hP : ∀ d i j, P d → P (swapAt d i j)) (hi first : Nat) :
    ∀ (fuel root : Nat) (d : List α), P d → P (siftDownLoop lt hi first fuel root d) := by
  intro fuel
  induction fuel with
  | zero => intro root d h; simpa [siftDownLoop] using h
  | succ fuel ih =>
    intro root d h
    unfold siftDownLoop
    dsimp only
    split_ifs <;> first | exact h | exact ih _ _ (hP _ _ _ h)

theorem siftDown_func_inv (hP : ∀ d i j, P d → P (swapAt d i j)) (d : List α) (lo hi first : Nat)
    (h : P d) : P (siftDown_func lt d lo hi first) :=
  siftDownLoop_inv lt P hP hi first _ _ d h

theorem heapBuild_inv (hP : ∀ d i j, P d → P (swapAt d i j)) (hi first : Nat) :
    ∀ (i : Nat) (d : List α), P d → P (heapBuild lt hi first i d) := by
  intro i
  induction i with
  | zero => intro d h; exact siftDown_func_inv lt P hP d 0 hi first h
  | succ i ih =>
    intro d h
    unfold heapBuild
    exact ih _ (siftDown_func_inv lt P hP d _ hi first h)

theorem heapPop_inv (hP : ∀ d i j, P d → P (swapAt d i j)) (first : Nat) :
    ∀ (i : Nat) (d : List α), P d → P (heapPop lt first i d) := by
  intro i
  induction i with
  | zero => intro d h; exact siftDown_func_inv lt P hP _ 0 0 first (hP _ _ _ h)
  | succ i ih =>
    intro d h
    unfold heapPop
    exact ih _ (siftDown_func_inv lt P hP _ _ _ first (hP _ _ _ h))

theorem heapSort_func_inv (hP : ∀ d i j, P d → P (swapAt d i j)) (d : List α) (a b : Nat)
    (h : P d) : P (heapSort_func lt d a b) :=
  heapPop_inv lt P hP a _ _ (heapBuild_inv lt P hP _ a _ d h)

theorem partitionLoop_inv (hP : ∀ d i j, P d → P (swapAt d i j)) (a : Nat) :
    ∀ (fuel : Nat) (d : List α) (i j : Nat), P d → P (partitionLoop lt a fuel d i j).1 := by
  intro fuel
  induction fuel with
  | zero => intro d i j h; simpa [partitionLoop] using h
  | succ fuel ih =>
    intro d i j h
    unfold partitionLoop
    dsimp only
    split
    · exact h
    · exact ih _ _ _ (hP _ _ _ h)

theorem partition_func_inv (hP : ∀ d i j, P d → P (swapAt d i j)) (d : List α) (a b pivot : Nat)
    (h : P d) : P (partition_func lt d a b pivot).1 := by
  unfold partition_func
  dsimp only
  split
  · exact hP _ _ _ (hP _ _ _ h)
  · exact hP _ _ _ (partitionLoop_inv lt P hP a _ _ _ _ (hP _ _ _ (hP _ _ _ h)))

theorem partitionEqualLoop_inv (hP : ∀ d i j, P d → P (swapAt d i j)) (a : Nat) :
    ∀ (fuel : Nat) (d : List α) (i j : Nat), P d → P (partitionEqualLoop lt a fuel d i j).1 := by
  intro fuel
  induction fuel with
  | zero => intro d i j h; simpa [partitionEqualLoop] using h
  | succ fuel ih =>
    intro d i j h
    unfold partitionEqualLoop
    dsimp only
    split
    · exact h
    · exact ih _ _ _ (hP _ _ _ h)

theorem partitionEqual_func_inv (hP : ∀ d i j, P d → P (swapAt d i j)) (d : List α)
    (a b pivot : Nat) (h : P d) : P (partitionEqual_func lt d a b pivot).1 :=
  partitionEqualLoop_inv lt P hP a _ _ _ _ (hP _ _ _ h)

theorem shiftLeft_inv (hP : ∀ d i j, P d → P (swapAt d i j)) :
    ∀ (j : Nat) (d : List α), P d → P (shiftLeft lt j d) := by
  intro j
  induction j with
  | zero => intro d h; simpa [shiftLeft] using h
  | succ j ih =>
    intro d h
    unfold shiftLeft
    split
    · exact ih _ (hP _ _ _ h)
    · exact h

theorem shiftRight_inv (hP : ∀ d i j, P d → P (swapAt d i j)) :
    ∀ (fuel j : Nat) (d : List α), P d → P (shiftRight lt fuel j d) := by
  intro fuel
  induction fuel with
  | zero => intro j d h; simpa [shiftRight] using h
  | succ fuel ih =>
    intro j d h
    unfold shiftRight
    split
    · exact ih _ _ (hP _ _ _ h)
    · exact h

theorem partialInsertionLoop_inv (hP : ∀ d i j, P d → P (swapAt d i j)) (a b : Nat) :
    ∀ (steps i : Nat) (d : List α), P d → P (partialInsertionLoop lt a b steps i d).1 := by
  intro steps
  induction steps with
  | zero => intro i d h; simpa [partialInsertionLoop] using h
  | succ steps ih =>
    intro i d h
    unfold partialInsertionLoop
    dsimp only
    split
    · exact h
    · split
      · exact h
      · apply ih
        have h1 := hP _ (scanUp (fun i => !lessAt lt d i (i - 1)) (b - 1) (b - i) i)
          (scanUp (fun i => !lessAt lt d i (i - 1)) (b - 1) (b - i) i - 1) h
        split_ifs
        · exact shiftRight_inv lt P hP _ _ _ (shiftLeft_inv lt P hP _ _ h1)
        · exact shiftRight_inv lt P hP _ _ _ h1
        · exact shiftLeft_inv lt P hP _ _ h1
        · exact h1

theorem partialInsertionSort_func_inv (hP : ∀ d i j, P d → P (swapAt d i j)) (d : List α)
    (a b : Nat) (h : P d) : P (partialInsertionSort_func lt d a b).1 :=
  partialInsertionLoop_inv lt P hP a b _ _ d h

theorem breakPatternsLoop_inv (hP : ∀ d i j, P d → P (swapAt d i j)) (a length idx modulus : Nat) :
    ∀ (n i random : Nat) (d : List α), P d →
      P (breakPatternsLoop a length idx modulus n i random d) := by
  intro n
  induction n with
  | zero => intro i random d h; simpa [breakPatternsLoop] using h
  | succ n ih =>
    intro i random d h
    unfold breakPatternsLoop
    exact ih _ _ _ (hP _ _ _ h)

theorem breakPatterns_func_inv (hP : ∀ d i j, P d → P (swapAt d i j)) (d : List α) (a b : Nat)
    (h : P d) : P (breakPatterns_func d a b) := by
  unfold breakPatterns_func
  dsimp only
  split
  · exact breakPatternsLoop_inv P hP _ _ _ _ _ _ _ d h
  · exact h

theorem reverseLoop_inv (hP : ∀ d i j, P d → P (swapAt d i j)) :
    ∀ (fuel i j : Nat) (d : List α), P d → P (reverseLoop fuel i j d) := by
  intro fuel
  induction fuel with
  | zero => intro i j d h; simpa [reverseLoop] using h
  | succ fuel ih =>
    intro i j d h
    unfold reverseLoop
    split
    · exact ih _ _ _ (hP _ _ _ h)
    · exact h

theorem reverseRange_func_inv (hP : ∀ d i j, P d → P (swapAt d i j)) (d : List α) (a b : Nat)
    (h : P d) : P (reverseRange_func d a b) :=
  reverseLoop_inv P hP _ _ _ d h

theorem pdqPass_inv (hP : ∀ d i j, P d → P (swapAt d i j)) (d : List α) (a b limit : Nat)
    (wb wp : Bool) (h : P d) : P (pdqPass lt d a b limit wb wp).data := by
  unfold pdqPass
  dsimp only
  have h1 : P (if wb = true then d else breakPatterns_func d a b) := by
    split
    · exact h
    · exact breakPatterns_func_inv P hP d a b h
  generalize (if wb = true then d else breakPatterns_func d a b) = d1 at h1 ⊢
  generalize choosePivot_func lt d1 a b = ph
  have h2 : P (if ph.2 = sortedHint.decreasingHint then reverseRange_func d1 a b else d1) := by
    split
    · exact reverseRange_func_inv P hP d1 a b h1
    · exact h1
  generalize (if ph.2 = sortedHint.decreasingHint then reverseRange_func d1 a b else d1) = d2
    at h2 ⊢
  generalize (if ph.2 = sortedHint.decreasingHint then sortedHint.increasingHint else ph.2) = hint
  split
  · exact partialInsertionSort_func_inv lt P hP d2 a b h2
  · exact h2

theorem pdqsort_func_inv (hP : ∀ d i j, P d → P (swapAt d i j)) :
    ∀ (fuel : Nat) (d : List α) (a b limit : Nat) (wb wp : Bool), P d →
      P (pdqsort_func lt fuel d a b limit wb wp) := by
  intro fuel
  induction fuel with
  | zero => intro d a b limit wb wp h; exact h
  | succ fuel ih =>
    intro d a b limit wb wp h
    unfold pdqsort_func
    have hs := pdqPass_inv lt P hP d a b limit wb wp h
    generalize pdqPass lt d a b limit wb wp = s at hs ⊢
    dsimp only
    split_ifs
    · exact insertionSort_func_inv lt P hP d a b h
    · exact heapSort_func_inv lt P hP d a b h
    · exact hs
    · exact ih _ _ _ _ _ _ (partitionEqual_func_inv lt P hP _ _ _ _ hs)
    · exact ih _ _ _ _ _ _ (ih _ _ _ _ _ _ (partition_func_inv lt P hP _ _ _ _ hs))
    · exact ih _ _ _ _ _ _ (ih _ _ _ _ _ _ (partition_func_inv lt P hP _ _ _ _ hs))

/-- Whatever every `Swap` preserves, `sort.Slice` preserves. -/
theorem sortSlice_inv (hP : ∀ d i j, P d → P (swapAt d i j)) (d : List α) (h : P d) :
    P (sortSlice lt d) :=
  pdqsort_func_inv lt P hP _ d _ _ _ _ _ h

end SwapInvariant


section SwapPerm

variable {α : Type}

theorem cons_set_perm : ∀ (t : List α) (j : Nat) (x y : α), t[j]? = some y →
    (y :: t.set j x).Perm (x :: t) := by
  intro t
  induction t with
  | nil => intro j x y h; simp at h
  | cons z t ih =>
    intro j x y h
    cases j with
    | zero =>
      simp only [List.getElem?_cons_zero, Option.some.injEq] at h
      subst h
      simpa using List.Perm.swap x z t
    | succ j =>
      simp only [List.getElem?_cons_succ] at h
      simp only [List.set_cons_succ]
      exact ((List.Perm.swap z y _).trans ((ih j x y h).cons z)).trans (List.Perm.swap x z t)

theorem swapAt_perm : ∀ (d : List α) (i j : Nat), (swapAt d i j).Perm d := by
  intro d
  induction d with
  | nil => intro i j; simp [swapAt]
  | cons h t ih =>
    intro i j
    cases i with
    | zero =>
      cases j with
      | zero => simp [swapAt]
      | succ j =>
        unfold swapAt
        simp only [List.getElem?_cons_zero, List.getElem?_cons_succ]
        cases hy : t[j]? with
        | none => simp
        | some y => simpa using cons_set_perm t j h y hy
    | succ i =>
      cases j with
      | zero =>
        unfold swapAt
        simp only [List.getElem?_cons_zero, List.getElem?_cons_succ]
        cases hx : t[i]? with
        | none => simp
        | some x => simpa using cons_set_perm t i h x hx
      | succ j =>
        have := ih i j
        unfold swapAt at this ⊢
        simp only [List.getElem?_cons_succ]
        cases hx : t[i]? with
        | none => simp
        | some x =>
          cases hy : t[j]? with
          | none => simp
          | some y =>
            simp only [hx, hy] at this
            simpa using this

/-- The result of `sort.Slice` is a permutation of its input. -/
theorem sortSlice_perm (lt : α → α → Bool) (d : List α) : (sortSlice lt d).Perm d :=
  sortSlice_inv lt (fun l => l.Perm d) (fun l i j h => (swapAt_perm l i j).trans h) d
    (List.Perm.refl d)

end SwapPerm

/-! ## `sort.Slice` sorts -/

section KeyLemmas

variable {α : Type} (k : α → Int) (lt : α → α → Bool)

theorem length_swapAt (d : List α) (i j : Nat) : (swapAt d i j).length = d.length := by
  unfold swapAt
  split <;> simp

theorem getElem?_swapAt (d : List α) (i j m : Nat) (hi : i < d.length) (hj : j < d.length) :
    (swapAt d i j)[m]? = if m = j then d[i]? else if m = i then d[j]? else d[m]? := by
  unfold swapAt
  rw [List.getElem?_eq_getElem hi, List.getElem?_eq_getElem hj]
  simp only [List.getElem?_set, List.length_set]
  by_cases h1 : m = j
  · subst h1
    rw [if_pos rfl, if_pos hj, if_pos rfl]
  · rw [if_neg (Ne.symm h1), if_neg h1]
    by_cases h2 : m = i
    · subst h2
      rw [if_pos rfl, if_pos hi, if_pos rfl]
    · rw [if_neg (Ne.symm h2), if_neg h2]

theorem keyAt_swapAt (d : List α) (i j m : Nat) (hi : i < d.length) (hj : j < d.length) :
    keyAt k (swapAt d i j) m =
      if m = j then keyAt k d i else if m = i then keyAt k d j else keyAt k d m := by
  unfold keyAt
  rw [getElem?_swapAt d i j m hi hj]
  split_ifs <;> rfl

theorem lessAt_iff (hlt : ∀ x y, lt x y = decide (k y < k x)) (d : List α) (i j : Nat)
    (hi : i < d.length) (hj : j < d.length) :
    lessAt lt d i j = true ↔ keyAt k d j < keyAt k d i := by
  unfold lessAt keyAt
  rw [List.getElem?_eq_getElem hi, List.getElem?_eq_getElem hj]
  simp [hlt]

theorem lessAt_false_iff (hlt : ∀ x y, lt x y = decide (k y < k x)) (d : List α) (i j : Nat)
    (hi : i < d.length) (hj : j < d.length) :
    lessAt lt d i j = false ↔ keyAt k d i ≤ keyAt k d j := by
  rw [← Bool.not_eq_true, lessAt_iff k lt hlt d i j hi hj]
  omega

theorem RangeEq.refl (a b : Nat) (d : List α) : RangeEq k a b d d :=
  ⟨rfl, fun _ _ => rfl, fun i h1 h2 => ⟨i, h1, h2, rfl⟩⟩

theorem RangeEq.trans {a b : Nat} {d1 d2 d3 : List α} (h12 : RangeEq k a b d1 d2)
    (h23 : RangeEq k a b d2 d3) : RangeEq k a b d1 d3 := by
  obtain ⟨l12, o12, i12⟩ := h12
  obtain ⟨l23, o23, i23⟩ := h23
  refine ⟨l23.trans l12, fun i hi => (o23 i hi).trans (o12 i hi), fun i h1 h2 => ?_⟩
  obtain ⟨j, hj1, hj2, e⟩ := i23 i h1 h2
  obtain ⟨j', hj1', hj2', e'⟩ := i12 j hj1 hj2
  exact ⟨j', hj1', hj2', e.trans e'⟩

theorem RangeEq.mono {a b a' b' : Nat} {d1 d2 : List α} (h : RangeEq k a b d1 d2)
    (ha : a' ≤ a) (hb : b ≤ b') : RangeEq k a' b' d1 d2 := by
  obtain ⟨l, o, i⟩ := h
  refine ⟨l, fun m hm => o m (by omega), fun m h1 h2 => ?_⟩
  by_cases hm : a ≤ m ∧ m < b
  · obtain ⟨j, hj1, hj2, e⟩ := i m hm.1 hm.2
    exact ⟨j, by omega, by omega, e⟩
  · exact ⟨m, h1, h2, o m (by omega)⟩

theorem RangeEq.swap (a b : Nat) (d : List α) (i j : Nat) (hia : a ≤ i) (hib : i < b)
    (hja : a ≤ j) (hjb : j < b) (hb : b ≤ d.length) : RangeEq k a b d (swapAt d i j) := by
  refine ⟨length_swapAt d i j, fun m hm => ?_, fun m h1 h2 => ?_⟩
  · rw [keyAt_swapAt k d i j m (by omega) (by omega)]
    split_ifs <;> first | rfl | omega
  · rw [keyAt_swapAt k d i j m (by omega) (by omega)]
    split_ifs
    · exact ⟨i, hia, hib, rfl⟩
    · exact ⟨j, hja, hjb, rfl⟩
    · exact ⟨m, h1, h2, rfl⟩

end KeyLemmas

section InsertionSort

variable {α : Type} (k : α → Int) (lt : α → α → Bool)

/-- The inner loop of insertion sort moves the element at `m` up to its place:
with `[a, m)` and `[m, hi]` sorted and everything after `m` below everything
before it, the whole of `[a, hi]` ends up sorted. -/
theorem insertionInner_spec (hlt : ∀ x y, lt x y = decide (k y < k x)) (a hi : Nat) :
    ∀ (m : Nat) (d : List α), a ≤ m → m ≤ hi → hi < d.length →
      SortedRange k d a m → SortedRange k d m (hi + 1) →
      (∀ p q, a ≤ p → p < m → m < q → q ≤ hi → keyAt k d q ≤ keyAt k d p) →
      RangeEq k a (hi + 1) d (insertionInner lt a m d) ∧
        SortedRange k (insertionInner lt a m d) a (hi + 1) := by
  intro m
  induction m with
  | zero =>
    intro d ha _ _ _ hs2 _
    have ha0 : a = 0 := by omega
    subst ha0
    exact ⟨RangeEq.refl k _ _ d, hs2⟩
  | succ m ih =>
    intro d ha hm hlen hs1 hs2 hcross
    unfold insertionInner
    by_cases hc : a < m + 1 ∧ lessAt lt d (m + 1) m = true
    · rw [if_pos hc]
      have hless := (lessAt_iff k lt hlt d (m + 1) m (by omega) (by omega)).mp hc.2
      have hkey : ∀ x, keyAt k (swapAt d (m + 1) m) x =
          if x = m then keyAt k d (m + 1) else if x = m + 1 then keyAt k d m else keyAt k d x :=
        fun x => keyAt_swapAt k d (m + 1) m x (by omega) (by omega)
      have hrec := ih (swapAt d (m + 1) m) (by omega) (by omega)
        (by rw [length_swapAt]; exact hlen) ?_ ?_ ?_
      · exact ⟨(RangeEq.swap k a (hi + 1) d (m + 1) m (by omega) (by omega) (by omega)
          (by omega) (by omega)).trans k hrec.1, hrec.2⟩
      · intro i j h1 h2 h3
        rw [hkey i, hkey j]
        have e1 := hs1 i j
        split_ifs <;> omega
      · intro i j h1 h2 h3
        rw [hkey i, hkey j]
        have e1 := hs2 i j
        have e2 := hs2 (m + 1) j
        have e3 := hcross m j
        split_ifs <;> omega
      · intro p q h1 h2 h3 h4
        rw [hkey p, hkey q]
        have e1 := hs1 p m
        have e2 := hcross p q
        split_ifs <;> omega
    · rw [if_neg hc]
      refine ⟨RangeEq.refl k _ _ d, ?_⟩
      intro i j h1 h2 h3
      have e1 := hs1 i j
      have e2 := hs2 i j
      have e3 := hcross i j
      have e4 := hs1 i m
      by_cases ha' : a < m + 1
      · have hle := (lessAt_false_iff k lt hlt d (m + 1) m (by omega) (by omega)).mp
          (by simpa [ha'] using hc)
        by_cases hj : j = m + 1
        · subst hj
          by_cases hi' : i = m
          · subst hi'; exact hle
          · omega
        · omega
      · omega

/-- The outer loop of insertion sort, with `[a, i)` sorted, sorts `[a, i + n)`. -/
theorem insertionOuter_spec (hlt : ∀ x y, lt x y = decide (k y < k x)) (a : Nat) :
    ∀ (n i : Nat) (d : List α), a ≤ i → i + n ≤ d.length → (n = 0 ∨ a < i) →
      SortedRange k d a i →
      RangeEq k a (i + n) d (insertionOuter lt a n i d) ∧
        SortedRange k (insertionOuter lt a n i d) a (i + n) := by
  intro n
  induction n with
  | zero =>
    intro i d _ _ _ hs
    exact ⟨RangeEq.refl k _ _ d, hs⟩
  | succ n ih =>
    intro i d ha hlen hai hs
    unfold insertionOuter
    have hinner := insertionInner_spec k lt hlt a i i d ha (Nat.le_refl i) (by omega) hs
      (fun p q h1 h2 h3 => by omega) (fun p q h1 h2 h3 h4 => by omega)
    have hrec := ih (i + 1) (insertionInner lt a i d) (by omega)
      (by rw [hinner.1.1]; omega) (by omega) hinner.2
    have e : i + 1 + n = i + (n + 1) := by omega
    rw [e] at hrec
    exact ⟨(hinner.1.mono k (Nat.le_refl a) (by omega)).trans k hrec.1, hrec.2⟩

/-- `insertionSort_func` sorts `data[a:b]` and touches nothing else. -/
theorem insertionSort_func_spec (hlt : ∀ x y, lt x y = decide (k y < k x)) (d : List α)
    (a b : Nat) (hab : a ≤ b) (hb : b ≤ d.length) :
    RangeEq k a b d (insertionSort_func lt d a b) ∧
      SortedRange k (insertionSort_func lt d a b) a b := by
  unfold insertionSort_func
  by_cases h : a + 1 ≤ b
  · have := insertionOuter_spec k lt hlt a (b - (a + 1)) (a + 1) d (by omega) (by omega)
      (by omega) (fun i j h1 h2 h3 => by omega)
    have e : a + 1 + (b - (a + 1)) = b := by omega
    rw [e] at this
    exact this
  · have e : b - (a + 1) = 0 := by omega
    rw [e]
    exact ⟨RangeEq.refl k _ _ d, fun i j h1 h2 h3 => by omega⟩

end InsertionSort

section Partition

variable {α : Type} (k : α → Int) (lt : α → α → Bool)

/-- The upward scan stops at the first index that fails the test, or past `j`. -/
theorem scanUp_spec (p : Nat → Bool) (j : Nat) :
    ∀ (fuel i : Nat), j + 1 - i ≤ fuel → i ≤ j + 1 →
      i ≤ scanUp p j fuel i ∧ scanUp p j fuel i ≤ j + 1 ∧
        (∀ x, i ≤ x → x < scanUp p j fuel i → p x = true) ∧
        (scanUp p j fuel i ≤ j → p (scanUp p j fuel i) = false) := by
  intro fuel
  induction fuel with
  | zero =>
    intro i h1 h2
    unfold scanUp
    exact ⟨Nat.le_refl i, h2, fun x hx1 hx2 => by omega, fun h => by omega⟩
  | succ fuel ih =>
    intro i h1 h2
    unfold scanUp
    by_cases hc : i ≤ j ∧ p i = true
    · rw [if_pos hc]
      obtain ⟨r1, r2, r3, r4⟩ := ih (i + 1) (by omega) (by omega)
      refine ⟨by omega, r2, fun x hx1 hx2 => ?_, r4⟩
      by_cases hx : x = i
      · subst hx; exact hc.2
      · exact r3 x (by omega) hx2
    · rw [if_neg hc]
      refine ⟨Nat.le_refl i, h2, fun x hx1 hx2 => by omega, fun h => ?_⟩
      cases hp : p i
      · rfl
      · exact absurd ⟨h, hp⟩ hc

/-- The downward scan stops at the last index that fails the test, or just
below `i`. -/
theorem scanDown_spec (p : Nat → Bool) (i : Nat) (hi : 1 ≤ i) :
    ∀ (j : Nat), i ≤ j + 1 →
      scanDown p i j ≤ j ∧ i ≤ scanDown p i j + 1 ∧
        (∀ x, scanDown p i j < x → x ≤ j → p x = true) ∧
        (i ≤ scanDown p i j → p (scanDown p i j) = false) := by
  intro j
  induction j with
  | zero =>
    intro h
    unfold scanDown
    exact ⟨Nat.le_refl 0, h, fun x hx1 hx2 => by omega, fun h' => by omega⟩
  | succ j ih =>
    intro h
    unfold scanDown
    by_cases hc : i ≤ j + 1 ∧ p (j + 1) = true
    · rw [if_pos hc]
      obtain ⟨r1, r2, r3, r4⟩ := ih (by omega)
      refine ⟨by omega, r2, fun x hx1 hx2 => ?_, r4⟩
      by_cases hx : x = j + 1
      · subst hx; exact hc.2
      · exact r3 x hx1 (by omega)
    · rw [if_neg hc]
      refine ⟨Nat.le_refl _, by omega, fun x hx1 hx2 => by omega, fun h' => ?_⟩
      cases hp : p (j + 1)
      · rfl
      · exact absurd ⟨h', hp⟩ hc

/-- The main loop of `partition_func`: with the keys before `i` above the
pivot's and the keys after `j` at most the pivot's, it ends with a `j` that
splits the whole range so. -/
theorem partitionLoop_spec (hlt : ∀ x y, lt x y = decide (k y < k x)) (a b : Nat) :
    ∀ (fuel : Nat) (d : List α) (i j : Nat), j + 1 - i ≤ fuel → a + 1 ≤ i → i ≤ j + 1 →
      j + 1 ≤ b → b ≤ d.length →
      (∀ x, a + 1 ≤ x → x < i → keyAt k d a < keyAt k d x) →
      (∀ x, j < x → x < b → keyAt k d x ≤ keyAt k d a) →
      RangeEq k (a + 1) b d (partitionLoop lt a fuel d i j).1 ∧
        a ≤ (partitionLoop lt a fuel d i j).2 ∧ (partitionLoop lt a fuel d i j).2 < b ∧
        (∀ x, a + 1 ≤ x → x ≤ (partitionLoop lt a fuel d i j).2 →
          keyAt k d a < keyAt k (partitionLoop lt a fuel d i j).1 x) ∧
        (∀ x, (partitionLoop lt a fuel d i j).2 < x → x < b →
          keyAt k (partitionLoop lt a fuel d i j).1 x ≤ keyAt k d a) := by
  intro fuel
  induction fuel with
  | zero =>
    intro d i j hf hi hij hjb hb hlo hhi
    unfold partitionLoop
    exact ⟨RangeEq.refl k _ _ d, by omega, by omega, fun x h1 h2 => hlo x h1 (by omega), hhi⟩
  | succ fuel ih =>
    intro d i j hf hi hij hjb hb hlo hhi
    unfold partitionLoop
    dsimp only
    obtain ⟨u1, u2, u3, u4⟩ := scanUp_spec (fun i => lessAt lt d i a) j (j + 1 - i) i
      (Nat.le_refl _) hij
    generalize scanUp (fun i => lessAt lt d i a) j (j + 1 - i) i = i' at u1 u2 u3 u4 ⊢
    obtain ⟨v1, v2, v3, v4⟩ := scanDown_spec (fun j => !lessAt lt d j a) i' (by omega) j u2
    generalize scanDown (fun j => !lessAt lt d j a) i' j = j' at v1 v2 v3 v4 ⊢
    have hlo' : ∀ x, a + 1 ≤ x → x < i' → keyAt k d a < keyAt k d x := by
      intro x h1 h2
      by_cases hx : x < i
      · exact hlo x h1 hx
      · exact (lessAt_iff k lt hlt d x a (by omega) (by omega)).mp (u3 x (by omega) h2)
    have hhi' : ∀ x, j' < x → x < b → keyAt k d x ≤ keyAt k d a := by
      intro x h1 h2
      by_cases hx : j < x
      · exact hhi x hx h2
      · have := v3 x h1 (by omega)
        simp only [Bool.not_eq_true'] at this
        exact (lessAt_false_iff k lt hlt d x a (by omega) (by omega)).mp this
    by_cases hc : j' < i'
    · rw [if_pos hc]
      exact ⟨RangeEq.refl k _ _ d, by omega, by omega, fun x h1 h2 => hlo' x h1 (by omega), hhi'⟩
    · rw [if_neg hc]
      have hi'le : keyAt k d i' ≤ keyAt k d a :=
        (lessAt_false_iff k lt hlt d i' a (by omega) (by omega)).mp (u4 (by omega))
      have hj'gt : keyAt k d a < keyAt k d j' := by
        have := v4 (by omega)
        simp only [Bool.not_eq_false'] at this
        exact (lessAt_iff k lt hlt d j' a (by omega) (by omega)).mp this
      have hne : i' ≠ j' := by
        intro e; subst e; omega
      have hkey : ∀ x, keyAt k (swapAt d i' j') x =
          if x = j' then keyAt k d i' else if x = i' then keyAt k d j' else keyAt k d x :=
        fun x => keyAt_swapAt k d i' j' x (by omega) (by omega)
      have hrec := ih (swapAt d i' j') (i' + 1) (j' - 1) (by omega) (by omega) (by omega)
        (by omega) (by rw [length_swapAt]; exact hb) ?_ ?_
      · obtain ⟨r1, r2, r3, r4, r5⟩ := hrec
        have ha : keyAt k (swapAt d i' j') a = keyAt k d a := by
          rw [hkey a]; split_ifs <;> first | rfl | omega
        rw [ha] at r4 r5
        exact ⟨(RangeEq.swap k (a + 1) b d i' j' (by omega) (by omega) (by omega) (by omega)
          hb).trans k r1, r2, r3, r4, r5⟩
      · intro x h1 h2
        rw [hkey x, hkey a]
        have e1 := hlo' x
        split_ifs <;> omega
      · intro x h1 h2
        rw [hkey x, hkey a]
        have e1 := hhi' x
        split_ifs <;> omega

/-- The last swap of `partition_func` puts the pivot between the two parts. -/
theorem partition_finish (d : List α) (a b j : Nat) (haj : a ≤ j) (hjb : j < b)
    (hb : b ≤ d.length)
    (hlo : ∀ x, a + 1 ≤ x → x ≤ j → keyAt k d a < keyAt k d x)
    (hhi : ∀ x, j < x → x < b → keyAt k d x ≤ keyAt k d a) :
    RangeEq k a b d (swapAt d j a) ∧
      (∀ x, a ≤ x → x < j → keyAt k (swapAt d j a) j < keyAt k (swapAt d j a) x) ∧
      (∀ x, j < x → x < b → keyAt k (swapAt d j a) x ≤ keyAt k (swapAt d j a) j) := by
  have hkey : ∀ x, keyAt k (swapAt d j a) x =
      if x = a then keyAt k d j else if x = j then keyAt k d a else keyAt k d x :=
    fun x => keyAt_swapAt k d j a x (by omega) (by omega)
  refine ⟨RangeEq.swap k a b d j a haj hjb (Nat.le_refl a) (by omega) hb, ?_, ?_⟩
  · intro x h1 h2
    rw [hkey x, hkey j]
    have e1 := hlo x
    have e2 := hlo j
    split_ifs <;> omega
  · intro x h1 h2
    rw [hkey x, hkey j]
    have e1 := hhi x
    by_cases hja : j = a
    · subst hja
      rw [if_neg (by omega), if_neg (by omega), if_pos rfl]
      exact e1 h1 h2
    · split_ifs <;> omega

/-- `partition_func` splits `data[a:b]` around the pivot: keys above the
pivot's before it, keys at most the pivot's after it. -/
theorem partition_func_spec (hlt : ∀ x y, lt x y = decide (k y < k x)) (d : List α)
    (a b pivot : Nat) (hp1 : a ≤ pivot) (hp2 : pivot < b) (hb : b ≤ d.length) :
    RangeEq k a b d (partition_func lt d a b pivot).1 ∧
      a ≤ (partition_func lt d a b pivot).2.1 ∧ (partition_func lt d a b pivot).2.1 < b ∧
      (∀ x, a ≤ x → x < (partition_func lt d a b pivot).2.1 →
        keyAt k (partition_func lt d a b pivot).1 (partition_func lt d a b pivot).2.1 <
          keyAt k (partition_func lt d a b pivot).1 x) ∧
      (∀ x, (partition_func lt d a b pivot).2.1 < x → x < b →
        keyAt k (partition_func lt d a b pivot).1 x ≤
          keyAt k (partition_func lt d a b pivot).1 (partition_func lt d a b pivot).2.1) := by
  unfold partition_func
  dsimp only
  have h0 := RangeEq.swap k a b d a pivot (Nat.le_refl a) (by omega) hp1 hp2 hb
  have hb0 : b ≤ (swapAt d a pivot).length := by rw [length_swapAt]; exact hb
  generalize swapAt d a pivot = d0 at h0 hb0 ⊢
  obtain ⟨u1, u2, u3, u4⟩ := scanUp_spec (fun i => lessAt lt d0 i a) (b - 1)
    (b - 1 + 1 - (a + 1)) (a + 1) (Nat.le_refl _) (by omega)
  generalize scanUp (fun i => lessAt lt d0 i a) (b - 1) (b - 1 + 1 - (a + 1)) (a + 1) = i1
    at u1 u2 u3 u4 ⊢
  obtain ⟨v1, v2, v3, v4⟩ := scanDown_spec (fun j => !lessAt lt d0 j a) i1 (by omega) (b - 1) u2
  generalize scanDown (fun j => !lessAt lt d0 j a) i1 (b - 1) = j1 at v1 v2 v3 v4 ⊢
  have hlo : ∀ x, a + 1 ≤ x → x < i1 → keyAt k d0 a < keyAt k d0 x := fun x h1 h2 =>
    (lessAt_iff k lt hlt d0 x a (by omega) (by omega)).mp (u3 x h1 h2)
  have hhi : ∀ x, j1 < x → x < b → keyAt k d0 x ≤ keyAt k d0 a := by
    intro x h1 h2
    have := v3 x h1 (by omega)
    simp only [Bool.not_eq_true'] at this
    exact (lessAt_false_iff k lt hlt d0 x a (by omega) (by omega)).mp this
  by_cases hc : j1 < i1
  · rw [if_pos hc]
    dsimp only
    obtain ⟨f1, f2, f3⟩ := partition_finish k d0 a b j1 (by omega) (by omega) hb0
      (fun x h1 h2 => hlo x h1 (by omega)) hhi
    exact ⟨h0.trans k f1, by omega, by omega, f2, f3⟩
  · rw [if_neg hc]
    dsimp only
    have hi1le : keyAt k d0 i1 ≤ keyAt k d0 a :=
      (lessAt_false_iff k lt hlt d0 i1 a (by omega) (by omega)).mp (u4 (by omega))
    have hj1gt : keyAt k d0 a < keyAt k d0 j1 := by
      have := v4 (by omega)
      simp only [Bool.not_eq_false'] at this
      exact (lessAt_iff k lt hlt d0 j1 a (by omega) (by omega)).mp this
    have hne : i1 ≠ j1 := by
      intro e; subst e; omega
    have hkey : ∀ x, keyAt k (swapAt d0 i1 j1) x =
        if x = j1 then keyAt k d0 i1 else if x = i1 then keyAt k d0 j1 else keyAt k d0 x :=
      fun x => keyAt_swapAt k d0 i1 j1 x (by omega) (by omega)
    have h1 := RangeEq.swap k a b d0 i1 j1 (by omega) (by omega) (by omega) (by omega) hb0
    have hb1 : b ≤ (swapAt d0 i1 j1).length := by rw [length_swapAt]; exact hb0
    have hloop := partitionLoop_spec k lt hlt a b (b - a) (swapAt d0 i1 j1) (i1 + 1) (j1 - 1)
      (by omega) (by omega) (by omega) (by omega) hb1 ?_ ?_
    · obtain ⟨r1, r2, r3, r4, r5⟩ := hloop
      generalize partitionLoop lt a (b - a) (swapAt d0 i1 j1) (i1 + 1) (j1 - 1) = r
        at r1 r2 r3 r4 r5 ⊢
      have hbr : b ≤ r.1.length := by rw [r1.1]; exact hb1
      have ha : keyAt k r.1 a = keyAt k (swapAt d0 i1 j1) a := r1.2.1 a (by omega)
      rw [← ha] at r4 r5
      obtain ⟨f1, f2, f3⟩ := partition_finish k r.1 a b r.2 r2 r3 hbr r4 r5
      exact ⟨(h0.trans k h1).trans k ((r1.mono k (by omega) (Nat.le_refl b)).trans k f1),
        r2, r3, f2, f3⟩
    · intro x h1 h2
      rw [hkey x, hkey a]
      have e1 := hlo x
      split_ifs <;> omega
    · intro x h1 h2
      rw [hkey x, hkey a]
      have e1 := hhi x
      split_ifs <;> omega

end Partition

section PartitionEqual

variable {α : Type} (k : α → Int) (lt : α → α → Bool)

/-- The loop of `partitionEqual_func`: keys at least the pivot's end up before
the returned index, smaller keys from it on. -/
theorem partitionEqualLoop_spec (hlt : ∀ x y, lt x y = decide (k y < k x)) (a b : Nat) :
    ∀ (fuel : Nat) (d : List α) (i j : Nat), j + 1 - i ≤ fuel → a + 1 ≤ i → i ≤ j + 1 →
      j + 1 ≤ b → b ≤ d.length →
      (∀ x, a + 1 ≤ x → x < i → keyAt k d a ≤ keyAt k d x) →
      (∀ x, j < x → x < b → keyAt k d x < keyAt k d a) →
      RangeEq k (a + 1) b d (partitionEqualLoop lt a fuel d i j).1 ∧
        a + 1 ≤ (partitionEqualLoop lt a fuel d i j).2 ∧
        (partitionEqualLoop lt a fuel d i j).2 ≤ b ∧
        (∀ x, a + 1 ≤ x → x < (partitionEqualLoop lt a fuel d i j).2 →
          keyAt k d a ≤ keyAt k (partitionEqualLoop lt a fuel d i j).1 x) ∧
        (∀ x, (partitionEqualLoop lt a fuel d i j).2 ≤ x → x < b →
          keyAt k (partitionEqualLoop lt a fuel d i j).1 x < keyAt k d a) := by
  intro fuel
  induction fuel with
  | zero =>
    intro d i j hf hi hij hjb hb hlo hhi
    unfold partitionEqualLoop
    exact ⟨RangeEq.refl k _ _ d, hi, by omega, hlo, fun x h1 h2 => hhi x (by omega) h2⟩
  | succ fuel ih =>
    intro d i j hf hi hij hjb hb hlo hhi
    unfold partitionEqualLoop
    dsimp only
    obtain ⟨u1, u2, u3, u4⟩ := scanUp_spec (fun i => !lessAt lt d a i) j (j + 1 - i) i
      (Nat.le_refl _) hij
    generalize scanUp (fun i => !lessAt lt d a i) j (j + 1 - i) i = i' at u1 u2 u3 u4 ⊢
    obtain ⟨v1, v2, v3, v4⟩ := scanDown_spec (fun j => lessAt lt d a j) i' (by omega) j u2
    generalize scanDown (fun j => lessAt lt d a j) i' j = j' at v1 v2 v3 v4 ⊢
    have hlo' : ∀ x, a + 1 ≤ x → x < i' → keyAt k d a ≤ keyAt k d x := by
      intro x h1 h2
      by_cases hx : x < i
      · exact hlo x h1 hx
      · have := u3 x (by omega) h2
        simp only [Bool.not_eq_true'] at this
        exact (lessAt_false_iff k lt hlt d a x (by omega) (by omega)).mp this
    have hhi' : ∀ x, j' < x → x < b → keyAt k d x < keyAt k d a := by
      intro x h1 h2
      by_cases hx : j < x
      · exact hhi x hx h2
      · exact (lessAt_iff k lt hlt d a x (by omega) (by omega)).mp (v3 x h1 (by omega))
    by_cases hc : j' < i'
    · rw [if_pos hc]
      exact ⟨RangeEq.refl k _ _ d, by omega, by omega, hlo',
        fun x h1 h2 => hhi' x (by omega) h2⟩
    · rw [if_neg hc]
      have hi'lt : keyAt k d i' < keyAt k d a := by
        have := u4 (by omega)
        simp only [Bool.not_eq_false'] at this
        exact (lessAt_iff k lt hlt d a i' (by omega) (by omega)).mp this
      have hj'ge : keyAt k d a ≤ keyAt k d j' :=
        (lessAt_false_iff k lt hlt d a j' (by omega) (by omega)).mp (v4 (by omega))
      have hne : i' ≠ j' := by
        intro e; subst e; omega
      have hkey : ∀ x, keyAt k (swapAt d i' j') x =
          if x = j' then keyAt k d i' else if x = i' then keyAt k d j' else keyAt k d x :=
        fun x => keyAt_swapAt k d i' j' x (by omega) (by omega)
      have hrec := ih (swapAt d i' j') (i' + 1) (j' - 1) (by omega) (by omega) (by omega)
        (by omega) (by rw [length_swapAt]; exact hb) ?_ ?_
      · obtain ⟨r1, r2, r3, r4, r5⟩ := hrec
        have ha : keyAt k (swapAt d i' j') a = keyAt k d a := by
          rw [hkey a]; split_ifs <;> first | rfl | omega
        rw [ha] at r4 r5
        exact ⟨(RangeEq.swap k (a + 1) b d i' j' (by omega) (by omega) (by omega) (by omega)
          hb).trans k r1, r2, r3, r4, r5⟩
      · intro x h1 h2
        rw [hkey x, hkey a]
        have e1 := hlo' x
        split_ifs <;> omega
      · intro x h1 h2
        rw [hkey x, hkey a]
        have e1 := hhi' x
        split_ifs <;> omega

/-- `partitionEqual_func` puts the keys at least the pivot's first, the
smaller ones after them, and returns where the smaller ones start. -/
theorem partitionEqual_func_spec (hlt : ∀ x y, lt x y = decide (k y < k x)) (d : List α)
    (a b pivot : Nat) (hp1 : a ≤ pivot) (hp2 : pivot < b) (hb : b ≤ d.length) :
    RangeEq k a b d (partitionEqual_func lt d a b pivot).1 ∧
      a + 1 ≤ (partitionEqual_func lt d a b pivot).2 ∧
      (partitionEqual_func lt d a b pivot).2 ≤ b ∧
      (∀ x, a ≤ x → x < (partitionEqual_func lt d a b pivot).2 →
        keyAt k d pivot ≤ keyAt k (partitionEqual_func lt d a b pivot).1 x) ∧
      (∀ x, (partitionEqual_func lt d a b pivot).2 ≤ x → x < b →
        keyAt k (partitionEqual_func lt d a b pivot).1 x < keyAt k d pivot) := by
  unfold partitionEqual_func
  have h0 := RangeEq.swap k a b d a pivot (Nat.le_refl a) (by omega) hp1 hp2 hb
  have hb0 : b ≤ (swapAt d a pivot).length := by rw [length_swapAt]; exact hb
  have hP : keyAt k (swapAt d a pivot) a = keyAt k d pivot := by
    rw [keyAt_swapAt k d a pivot a (by omega) (by omega)]
    by_cases e : a = pivot
    · subst e; rw [if_pos rfl]
    · rw [if_neg e, if_pos rfl]
  generalize swapAt d a pivot = d0 at h0 hb0 hP ⊢
  obtain ⟨r1, r2, r3, r4, r5⟩ := partitionEqualLoop_spec k lt hlt a b (b - a) d0 (a + 1)
    (b - 1) (by omega) (Nat.le_refl _) (by omega) (by omega) hb0
    (fun x h1 h2 => by omega) (fun x h1 h2 => by omega)
  generalize partitionEqualLoop lt a (b - a) d0 (a + 1) (b - 1) = r at r1 r2 r3 r4 r5 ⊢
  rw [hP] at r4 r5
  refine ⟨h0.trans k (r1.mono k (by omega) (Nat.le_refl b)), r2, r3, ?_, r5⟩
  intro x h1 h2
  by_cases hx : x = a
  · subst hx
    rw [r1.2.1 x (by omega), hP]
  · exact r4 x (by omega) h2

end PartitionEqual

section Frames

variable {α : Type} (k : α → Int) (lt : α → α → Bool)

/-- `reverseRange_func` stays inside `data[a:b]`. -/
theorem reverseLoop_frame (a b : Nat) :
    ∀ (fuel i j : Nat) (d : List α), a ≤ i → j < b → b ≤ d.length →
      RangeEq k a b d (reverseLoop fuel i j d) := by
  intro fuel
  induction fuel with
  | zero => intro i j d _ _ _; exact RangeEq.refl k _ _ d
  | succ fuel ih =>
    intro i j d hi hj hb
    unfold reverseLoop
    by_cases hc : i < j
    · rw [if_pos hc]
      exact (RangeEq.swap k a b d i j hi (by omega) (by omega) hj hb).trans k
        (ih (i + 1) (j - 1) _ (by omega) (by omega) (by rw [length_swapAt]; exact hb))
    · rw [if_neg hc]
      exact RangeEq.refl k _ _ d

theorem reverseRange_func_frame (d : List α) (a b : Nat) (hab : a < b) (hb : b ≤ d.length) :
    RangeEq k a b d (reverseRange_func d a b) :=
  reverseLoop_frame k a b _ a (b - 1) d (Nat.le_refl a) (by omega) hb

/-- The swaps of `breakPatterns_func` stay inside `data[a:b]`. -/
theorem breakPatternsLoop_frame (a length idx modulus : Nat) (hlen : 1 ≤ length)
    (hmod : modulus ≤ 2 * length) (hidx1 : a ≤ idx) (hidx2 : idx + 2 < a + length) :
    ∀ (n i random : Nat) (d : List α), i + n ≤ 3 → a + length ≤ d.length →
      RangeEq k a (a + length) d (breakPatternsLoop a length idx modulus n i random d) := by
  intro n
  induction n with
  | zero => intro i random d _ _; exact RangeEq.refl k _ _ d
  | succ n ih =>
    intro i random d hin hb
    unfold breakPatternsLoop
    dsimp only
    have hand : xorshiftNext random &&& (modulus - 1) ≤ modulus - 1 := Nat.and_le_right
    generalize xorshiftNext random &&& (modulus - 1) = other at hand ⊢
    have hother : (if length ≤ other then other - length else other) < length := by
      split_ifs <;> omega
    generalize (if length ≤ other then other - length else other) = other' at hother ⊢
    exact (RangeEq.swap k a (a + length) d (idx + i) (a + other') (by omega) (by omega)
      (by omega) (by omega) hb).trans k
      (ih (i + 1) _ _ (by omega) (by rw [length_swapAt]; exact hb))

theorem two_pow_bitsLen_le (n : Nat) (hn : 1 ≤ n) : 2 ^ bitsLen n ≤ 2 * n := by
  unfold bitsLen
  rw [if_neg (by omega), Nat.pow_succ]
  have := Nat.log2_self_le (n := n) (by omega)
  omega

theorem breakPatterns_func_frame (d : List α) (a b : Nat) (hab : a ≤ b) (hb : b ≤ d.length) :
    RangeEq k a b d (breakPatterns_func d a b) := by
  unfold breakPatterns_func
  dsimp only
  by_cases hc : 8 ≤ b - a
  · rw [if_pos hc]
    have h4 : 2 ≤ (b - a) / 4 := by omega
    have := breakPatternsLoop_frame k a (b - a) (a + (b - a) / 4 * 2 - 1) (2 ^ bitsLen (b - a))
      (by omega) (two_pow_bitsLen_le (b - a) (by omega)) (by omega) (by omega) 3 0 (b - a) d
      (by omega) (by omega)
    have e : a + (b - a) = b := by omega
    rw [e] at this
    exact this
  · rw [if_neg hc]
    exact RangeEq.refl k _ _ d

/-- `median_func` returns one of the three indices it is given. -/
theorem median_func_mem (d : List α) (x y z s : Nat) :
    (median_func lt d x y z s).1 = x ∨ (median_func lt d x y z s).1 = y ∨
      (median_func lt d x y z s).1 = z := by
  unfold median_func order2_func
  dsimp only
  split_ifs <;> simp

/-- The pivot `choosePivot_func` chooses is inside the range. -/
theorem choosePivot_func_range (d : List α) (a b : Nat) (hab : 8 ≤ b - a) :
    a ≤ (choosePivot_func lt d a b).1 ∧ (choosePivot_func lt d a b).1 < b := by
  have hr : ∀ r : Nat × Nat, ((if r.2 = 0 then (r.1, sortedHint.increasingHint)
      else if r.2 = 12 then (r.1, sortedHint.decreasingHint)
      else (r.1, sortedHint.unknownHint)) : Nat × sortedHint).1 = r.1 := by
    intro r; split_ifs <;> rfl
  unfold choosePivot_func
  dsimp only
  rw [hr, if_pos hab]
  have h4 : 2 ≤ (b - a) / 4 := by omega
  by_cases h50 : 50 ≤ b - a
  · rw [if_pos h50]
    have h12 : 12 ≤ (b - a) / 4 := by omega
    unfold medianAdjacent_func
    have m1 := median_func_mem lt d (a + (b - a) / 4 * 1 - 1) (a + (b - a) / 4 * 1)
      (a + (b - a) / 4 * 1 + 1) 0
    generalize median_func lt d (a + (b - a) / 4 * 1 - 1) (a + (b - a) / 4 * 1)
      (a + (b - a) / 4 * 1 + 1) 0 = ri at m1 ⊢
    have m2 := median_func_mem lt d (a + (b - a) / 4 * 2 - 1) (a + (b - a) / 4 * 2)
      (a + (b - a) / 4 * 2 + 1) ri.2
    generalize median_func lt d (a + (b - a) / 4 * 2 - 1) (a + (b - a) / 4 * 2)
      (a + (b - a) / 4 * 2 + 1) ri.2 = rj at m2 ⊢
    have m3 := median_func_mem lt d (a + (b - a) / 4 * 3 - 1) (a + (b - a) / 4 * 3)
      (a + (b - a) / 4 * 3 + 1) rj.2
    generalize median_func lt d (a + (b - a) / 4 * 3 - 1) (a + (b - a) / 4 * 3)
      (a + (b - a) / 4 * 3 + 1) rj.2 = rk at m3 ⊢
    have m4 := median_func_mem lt d ri.1 rj.1 rk.1 rk.2
    generalize median_func lt d ri.1 rj.1 rk.1 rk.2 = r at m4 ⊢
    omega
  · rw [if_neg h50]
    have m := median_func_mem lt d (a + (b - a) / 4 * 1) (a + (b - a) / 4 * 2)
      (a + (b - a) / 4 * 3) 0
    generalize median_func lt d (a + (b - a) / 4 * 1) (a + (b - a) / 4 * 2)
      (a + (b - a) / 4 * 3) 0 = r at m ⊢
    omega

end Frames

section PartialInsertion

variable {α : Type} (k : α → Int) (lt : α → α → Bool)

/-- A range whose neighbours are in order is sorted. -/
theorem sortedRange_of_adjacent (d : List α) (a b : Nat)
    (h : ∀ x, a < x → x < b → keyAt k d x ≤ keyAt k d (x - 1)) : SortedRange k d a b := by
  intro i j h1 h2 h3
  induction j with
  | zero => omega
  | succ j ih =>
    by_cases hij : i = j
    · subst hij
      exact h (i + 1) (by omega) h3
    · have e1 := ih (by omega) (by omega)
      have e2 := h (j + 1) (by omega) h3
      simp only [Nat.add_sub_cancel] at e2
      omega

theorem shiftLeft_eq (d : List α) (j : Nat) : shiftLeft lt j d = insertionInner lt 0 j d := by
  induction j generalizing d with
  | zero => rfl
  | succ j ih =>
    unfold shiftLeft insertionInner
    by_cases hc : lessAt lt d (j + 1) j = true
    · rw [if_pos hc, if_pos ⟨Nat.succ_pos j, hc⟩]
      exact ih _
    · rw [if_neg hc, if_neg (fun h => hc h.2)]

/-- The insertion loop does not go below `a` when the element before `a` is
not below any element of the range. -/
theorem insertionInner_lower (hlt : ∀ x y, lt x y = decide (k y < k x)) (a : Nat) :
    ∀ (m : Nat) (d : List α), a ≤ m → m < d.length →
      (0 < a → ∀ x, a ≤ x → x ≤ m → keyAt k d x ≤ keyAt k d (a - 1)) →
      insertionInner lt 0 m d = insertionInner lt a m d := by
  intro m
  induction m with
  | zero => intro d ha _ _; have : a = 0 := by omega
            subst this; rfl
  | succ m ih =>
    intro d ha hlen hpred
    unfold insertionInner
    by_cases ham : a < m + 1
    · by_cases hc : lessAt lt d (m + 1) m = true
      · rw [if_pos ⟨Nat.succ_pos m, hc⟩, if_pos ⟨ham, hc⟩]
        refine ih _ (by omega) (by rw [length_swapAt]; omega) ?_
        intro ha0 x h1 h2
        rw [keyAt_swapAt k d (m + 1) m x (by omega) (by omega),
          keyAt_swapAt k d (m + 1) m (a - 1) (by omega) (by omega)]
        have e1 := hpred ha0 x
        have e2 := hpred ha0 (m + 1)
        have e3 := hpred ha0 m
        split_ifs <;> omega
      · rw [if_neg (fun h => hc h.2), if_neg (fun h => hc h.2)]
    · have e : a = m + 1 := by omega
      subst e
      have hle := hpred (Nat.succ_pos m) (m + 1) (Nat.le_refl _) (Nat.le_refl _)
      simp only [Nat.add_sub_cancel] at hle
      have hno : ¬ lessAt lt d (m + 1) m = true := by
        rw [lessAt_iff k lt hlt d (m + 1) m (by omega) (by omega)]
        omega
      rw [if_neg (fun h => hno h.2), if_neg (fun h => hno h.2)]

/-- Shifting the greater one to the right only touches indices from `j - 1` on. -/
theorem shiftRight_frame (lo b : Nat) :
    ∀ (fuel j : Nat) (d : List α), lo + 1 ≤ j → j + fuel ≤ b → b ≤ d.length →
      RangeEq k lo b d (shiftRight lt fuel j d) := by
  intro fuel
  induction fuel with
  | zero => intro j d _ _ _; exact RangeEq.refl k _ _ d
  | succ fuel ih =>
    intro j d hj hjb hb
    unfold shiftRight
    by_cases hc : lessAt lt d j (j - 1) = true
    · rw [if_pos hc]
      exact (RangeEq.swap k lo b d j (j - 1) (by omega) (by omega) (by omega) (by omega)
        hb).trans k (ih (j + 1) _ (by omega) (by omega) (by rw [length_swapAt]; exact hb))
    · rw [if_neg hc]
      exact RangeEq.refl k _ _ d

/-- Bounds on the keys of a range carry over to any rearrangement of it. -/
theorem RangeEq.pred_bound {a b : Nat} {d d' : List α} (h : RangeEq k a b d d')
    (hpred : 0 < a → ∀ x, a ≤ x → x < b → keyAt k d x ≤ keyAt k d (a - 1)) :
    0 < a → ∀ x, a ≤ x → x < b → keyAt k d' x ≤ keyAt k d' (a - 1) := by
  intro ha x h1 h2
  obtain ⟨j, hj1, hj2, e⟩ := h.2.2 x h1 h2
  rw [e, h.2.1 (a - 1) (by omega)]
  exact hpred ha j hj1 hj2

/-- The loop of `partialInsertionSort_func` stays inside the range, and when
it answers true the range is sorted. -/
theorem partialInsertionLoop_spec (hlt : ∀ x y, lt x y = decide (k y < k x)) (a b : Nat) :
    ∀ (steps i : Nat) (d : List α), a + 1 ≤ i → i ≤ b → b ≤ d.length →
      SortedRange k d a i →
      (0 < a → ∀ x, a ≤ x → x < b → keyAt k d x ≤ keyAt k d (a - 1)) →
      RangeEq k a b d (partialInsertionLoop lt a b steps i d).1 ∧
        ((partialInsertionLoop lt a b steps i d).2 = true →
          SortedRange k (partialInsertionLoop lt a b steps i d).1 a b) := by
  intro steps
  induction steps with
  | zero =>
    intro i d _ _ _ _ _
    exact ⟨RangeEq.refl k _ _ d, fun h => by simp [partialInsertionLoop] at h⟩
  | succ steps ih =>
    intro i d hai hib hb hs hpred
    unfold partialInsertionLoop
    dsimp only
    obtain ⟨u1, u2, u3, u4⟩ := scanUp_spec (fun i => !lessAt lt d i (i - 1)) (b - 1) (b - i) i
      (by omega) (by omega)
    generalize scanUp (fun i => !lessAt lt d i (i - 1)) (b - 1) (b - i) i = i' at u1 u2 u3 u4 ⊢
    have hs' : SortedRange k d a i' := by
      apply sortedRange_of_adjacent
      intro x h1 h2
      by_cases hx : x < i
      · exact hs (x - 1) x (by omega) (by omega) hx
      · have := u3 x (by omega) h2
        simp only [Bool.not_eq_true'] at this
        exact (lessAt_false_iff k lt hlt d x (x - 1) (by omega) (by omega)).mp this
    by_cases he : i' = b
    · rw [if_pos he]
      subst he
      exact ⟨RangeEq.refl k _ _ d, fun _ => hs'⟩
    · rw [if_neg he]
      by_cases h50 : b - a < 50
      · rw [if_pos h50]
        exact ⟨RangeEq.refl k _ _ d, fun h => by simp at h⟩
      · rw [if_neg h50]
        have hsw := RangeEq.swap k a b d i' (i' - 1) (by omega) (by omega) (by omega) (by omega) hb
        have hlen1 : b ≤ (swapAt d i' (i' - 1)).length := by rw [length_swapAt]; exact hb
        have hkey : ∀ x, keyAt k (swapAt d i' (i' - 1)) x =
            if x = i' - 1 then keyAt k d i' else if x = i' then keyAt k d (i' - 1)
            else keyAt k d x :=
          fun x => keyAt_swapAt k d i' (i' - 1) x (by omega) (by omega)
        have hs1 : SortedRange k (swapAt d i' (i' - 1)) a (i' - 1) := by
          intro x y h1 h2 h3
          rw [hkey x, hkey y]
          have := hs' x y
          split_ifs <;> omega
        have hpred1 := hsw.pred_bound k hpred
        generalize swapAt d i' (i' - 1) = d1 at hsw hlen1 hs1 hpred1 ⊢
        -- shift the smaller one to the left
        have hleft : RangeEq k a b d1 (if 2 ≤ i' - a then shiftLeft lt (i' - 1) d1 else d1) ∧
            SortedRange k (if 2 ≤ i' - a then shiftLeft lt (i' - 1) d1 else d1) a i' := by
          by_cases h2 : 2 ≤ i' - a
          · rw [if_pos h2, shiftLeft_eq,
              insertionInner_lower k lt hlt a (i' - 1) d1 (by omega) (by omega)
                (fun ha x h1 h2 => hpred1 ha x h1 (by omega))]
            have := insertionInner_spec k lt hlt a (i' - 1) (i' - 1) d1 (by omega)
              (Nat.le_refl _) (by omega) hs1 (fun x y h1 h2 h3 => by omega)
              (fun p q h1 h2 h3 h4 => by omega)
            have e : i' - 1 + 1 = i' := by omega
            rw [e] at this
            exact ⟨this.1.mono k (Nat.le_refl a) (by omega), this.2⟩
          · rw [if_neg h2]
            exact ⟨RangeEq.refl k _ _ d1, fun x y h1 h2 h3 => by omega⟩
        have hlen2 : b ≤ (if 2 ≤ i' - a then shiftLeft lt (i' - 1) d1 else d1).length := by
          rw [hleft.1.1]; exact hlen1
        generalize (if 2 ≤ i' - a then shiftLeft lt (i' - 1) d1 else d1) = d2
          at hleft hlen2 ⊢
        -- shift the greater one to the right
        have hright : RangeEq k i' b d2
            (if 2 ≤ b - i' then shiftRight lt (b - (i' + 1)) (i' + 1) d2 else d2) := by
          by_cases h2 : 2 ≤ b - i'
          · rw [if_pos h2]
            exact shiftRight_frame k lt i' b _ _ d2 (by omega) (by omega) hlen2
          · rw [if_neg h2]
            exact RangeEq.refl k _ _ d2
        generalize (if 2 ≤ b - i' then shiftRight lt (b - (i' + 1)) (i' + 1) d2 else d2) = d3
          at hright ⊢
        have hall : RangeEq k a b d d3 :=
          (hsw.trans k hleft.1).trans k (hright.mono k (by omega) (Nat.le_refl b))
        have hs3 : SortedRange k d3 a i' := by
          intro x y h1 h2 h3
          rw [hright.2.1 x (by omega), hright.2.1 y (by omega)]
          exact hleft.2 x y h1 h2 h3
        have hrec := ih i' d3 (by omega) (by omega) (by rw [hall.1]; exact hb) hs3
          (hall.pred_bound k hpred)
        exact ⟨hall.trans k hrec.1, hrec.2⟩

/-- `partialInsertionSort_func` stays inside the range, and when it answers
true the range is sorted. -/
theorem partialInsertionSort_func_spec (hlt : ∀ x y, lt x y = decide (k y < k x))
    (d : List α) (a b : Nat) (hab : a < b) (hb : b ≤ d.length)
    (hpred : 0 < a → ∀ x, a ≤ x → x < b → keyAt k d x ≤ keyAt k d (a - 1)) :
    RangeEq k a b d (partialInsertionSort_func lt d a b).1 ∧
      ((partialInsertionSort_func lt d a b).2 = true →
        SortedRange k (partialInsertionSort_func lt d a b).1 a b) :=
  partialInsertionLoop_spec k lt hlt a b 5 (a + 1) d (Nat.le_refl _) (by omega) hb
    (fun x y h1 h2 h3 => by omega) hpred

end PartialInsertion

section HeapSort

variable {α : Type} (k : α → Int) (lt : α → α → Bool)

theorem keyAt_congr (d : List α) {i j : Nat} (h : i = j) : keyAt k d i = keyAt k d j := by
  rw [h]

/-- The loop of `siftDown_func`: a heap that is one only below `root` and
above it becomes one at `root` too. -/
theorem siftDownLoop_spec (hlt : ∀ x y, lt x y = decide (k y < k x)) (hi first lo : Nat) :
    ∀ (fuel root : Nat) (d : List α), hi ≤ root + fuel → lo ≤ root → first + hi ≤ d.length →
      (∀ r c, lo ≤ r → r ≠ root → (c = 2 * r + 1 ∨ c = 2 * r + 2) → c < hi →
        keyAt k d (first + r) ≤ keyAt k d (first + c)) →
      (∀ p c, lo ≤ p → (root = 2 * p + 1 ∨ root = 2 * p + 2) →
        (c = 2 * root + 1 ∨ c = 2 * root + 2) → c < hi →
        keyAt k d (first + p) ≤ keyAt k d (first + c)) →
      HeapFrom k (siftDownLoop lt hi first fuel root d) first lo hi ∧
        RangeEq k (first + root) (first + hi) d (siftDownLoop lt hi first fuel root d) := by
  intro fuel
  induction fuel with
  | zero =>
    intro root d hf hlo hlen H1 H2
    refine ⟨?_, RangeEq.refl k _ _ d⟩
    intro r c h1 h2 h3
    exact H1 r c h1 (by omega) h2 h3
  | succ fuel ih =>
    intro root d hf hlo hlen H1 H2
    unfold siftDownLoop
    dsimp only
    by_cases hch : hi ≤ 2 * root + 1
    · rw [if_pos hch]
      refine ⟨?_, RangeEq.refl k _ _ d⟩
      intro r c h1 h2 h3
      exact H1 r c h1 (by omega) h2 h3
    · rw [if_neg hch]
      -- the child with the smaller key
      have hchild : ∃ c', (if 2 * root + 1 + 1 < hi ∧
            lessAt lt d (first + (2 * root + 1)) (first + (2 * root + 1) + 1) = true
          then 2 * root + 1 + 1 else 2 * root + 1) = c' ∧
          (c' = 2 * root + 1 ∨ c' = 2 * root + 2) ∧ c' < hi ∧
          keyAt k d (first + c') ≤ keyAt k d (first + (2 * root + 1)) ∧
          (2 * root + 2 < hi → keyAt k d (first + c') ≤ keyAt k d (first + (2 * root + 2))) := by
        by_cases hc : 2 * root + 1 + 1 < hi ∧
            lessAt lt d (first + (2 * root + 1)) (first + (2 * root + 1) + 1) = true
        · rw [if_pos hc]
          have := (lessAt_iff k lt hlt d _ _ (by omega) (by omega)).mp hc.2
          exact ⟨_, rfl, Or.inr rfl, by omega, by
            have e := keyAt_congr k d (show first + (2 * root + 1 + 1) = first + (2 * root + 1) + 1
              by omega)
            omega, fun _ => by
            have e := keyAt_congr k d (show first + (2 * root + 1 + 1) = first + (2 * root + 2)
              by omega)
            omega⟩
        · rw [if_neg hc]
          refine ⟨_, rfl, Or.inl rfl, by omega, Int.le_refl _, fun h2 => ?_⟩
          have hno : lessAt lt d (first + (2 * root + 1)) (first + (2 * root + 1) + 1) = false := by
            cases hl : lessAt lt d (first + (2 * root + 1)) (first + (2 * root + 1) + 1)
            · rfl
            · exact absurd ⟨by omega, hl⟩ hc
          have := (lessAt_false_iff k lt hlt d _ _ (by omega) (by omega)).mp hno
          have e := keyAt_congr k d (show first + (2 * root + 1) + 1 = first + (2 * root + 2)
            by omega)
          omega
      obtain ⟨c', hc'eq, hc'1, hc'2, hc'3, hc'4⟩ := hchild
      rw [hc'eq]
      by_cases hless : lessAt lt d (first + root) (first + c') = true
      · rw [if_pos hless]
        have hkroot := (lessAt_iff k lt hlt d _ _ (by omega) (by omega)).mp hless
        have hkey : ∀ x, keyAt k (swapAt d (first + root) (first + c')) x =
            if x = first + c' then keyAt k d (first + root)
            else if x = first + root then keyAt k d (first + c') else keyAt k d x :=
          fun x => keyAt_swapAt k d (first + root) (first + c') x (by omega) (by omega)
        have hrec := ih c' (swapAt d (first + root) (first + c')) (by omega) (by omega)
          (by rw [length_swapAt]; exact hlen) ?_ ?_
        · refine ⟨hrec.1, ?_⟩
          exact (RangeEq.swap k (first + root) (first + hi) d (first + root) (first + c')
            (Nat.le_refl _) (by omega) (by omega) (by omega) hlen).trans k
            (hrec.2.mono k (by omega) (Nat.le_refl _))
        · intro r c h1 h2 h3 h4
          rw [hkey (first + r), hkey (first + c)]
          rw [if_neg (show ¬ first + r = first + c' by omega)]
          by_cases hr : r = root
          · subst hr
            rw [if_pos rfl]
            by_cases hcc : c = c'
            · subst hcc
              rw [if_pos rfl]
              omega
            · rw [if_neg (show ¬ first + c = first + c' by omega),
                if_neg (show ¬ first + c = first + r by omega)]
              rcases h3 with h3 | h3
              · subst h3; exact hc'3
              · subst h3; exact hc'4 h4
          · rw [if_neg (show ¬ first + r = first + root by omega),
              if_neg (show ¬ first + c = first + c' by omega)]
            by_cases hcr : c = root
            · subst hcr
              rw [if_pos rfl]
              exact H2 r c' h1 (by omega) hc'1 hc'2
            · rw [if_neg (show ¬ first + c = first + root by omega)]
              exact H1 r c h1 hr h3 h4
        · intro p c h1 h2 h3 h4
          have hp : p = root := by omega
          subst hp
          rw [hkey (first + p), hkey (first + c)]
          rw [if_neg (show ¬ first + p = first + c' by omega), if_pos rfl,
            if_neg (show ¬ first + c = first + c' by omega),
            if_neg (show ¬ first + c = first + p by omega)]
          exact H1 c' c (by omega) (by omega) h3 h4
      · rw [if_neg hless]
        have hno : lessAt lt d (first + root) (first + c') = false := by
          cases hl : lessAt lt d (first + root) (first + c')
          · rfl
          · exact absurd hl hless
        have hkroot := (lessAt_false_iff k lt hlt d _ _ (by omega) (by omega)).mp hno
        refine ⟨?_, RangeEq.refl k _ _ d⟩
        intro r c h1 h2 h3
        by_cases hr : r = root
        · subst hr
          rcases h2 with h2 | h2
          · subst h2; omega
          · subst h2
            have := hc'4 h3
            omega
        · exact H1 r c h1 hr h2 h3

end HeapSort

section HeapSort2

variable {α : Type} (k : α → Int) (lt : α → α → Bool)

/-- `siftDown_func` makes `root` a heap node when every node after it is one. -/
theorem siftDown_func_spec (hlt : ∀ x y, lt x y = decide (k y < k x)) (d : List α)
    (root hi first : Nat) (hlen : first + hi ≤ d.length)
    (H : HeapFrom k d first (root + 1) hi) :
    HeapFrom k (siftDown_func lt d root hi first) first root hi ∧
      RangeEq k (first + root) (first + hi) d (siftDown_func lt d root hi first) :=
  siftDownLoop_spec k lt hlt hi first root (hi + 1) root d (by omega) (Nat.le_refl _) hlen
    (fun r c h1 h2 h3 h4 => H r c (by omega) h3 h4)
    (fun p c h1 h2 h3 h4 => by omega)

/-- Building the heap from node `i` down to the top. -/
theorem heapBuild_spec (hlt : ∀ x y, lt x y = decide (k y < k x)) (hi first : Nat) :
    ∀ (i : Nat) (d : List α), first + hi ≤ d.length → HeapFrom k d first (i + 1) hi →
      HeapFrom k (heapBuild lt hi first i d) first 0 hi ∧
        RangeEq k first (first + hi) d (heapBuild lt hi first i d) := by
  intro i
  induction i with
  | zero =>
    intro d hlen H
    unfold heapBuild
    have := siftDown_func_spec k lt hlt d 0 hi first hlen H
    exact ⟨this.1, this.2.mono k (by omega) (Nat.le_refl _)⟩
  | succ i ih =>
    intro d hlen H
    unfold heapBuild
    have h1 := siftDown_func_spec k lt hlt d (i + 1) hi first hlen H
    have h2 := ih (siftDown_func lt d (i + 1) hi first) (by rw [h1.2.1]; exact hlen) h1.1
    exact ⟨h2.1, (h1.2.mono k (by omega) (Nat.le_refl _)).trans k h2.2⟩

/-- The top of a heap has the least key. -/
theorem heap_root_min (d : List α) (first m : Nat) (H : HeapFrom k d first 0 m) :
    ∀ x, x < m → keyAt k d first ≤ keyAt k d (first + x) := by
  intro x
  induction x using Nat.strong_induction_on with
  | _ x ih =>
    intro hx
    by_cases h0 : x = 0
    · subst h0; exact Int.le_refl _
    · have hp := ih ((x - 1) / 2) (by omega) (by omega)
      have hc := H ((x - 1) / 2) x (Nat.zero_le _) (by omega) hx
      omega

/-- Popping the heap: with a heap in `[first, first + i]`, the rest of the
range sorted and below the heap, the whole range ends up sorted. -/
theorem heapPop_spec (hlt : ∀ x y, lt x y = decide (k y < k x)) (first n : Nat) :
    ∀ (i : Nat) (d : List α), first + n ≤ d.length → i < n →
      HeapFrom k d first 0 (i + 1) → SortedRange k d (first + i + 1) (first + n) →
      (∀ x y, x ≤ i → i < y → y < n → keyAt k d (first + y) ≤ keyAt k d (first + x)) →
      RangeEq k first (first + n) d (heapPop lt first i d) ∧
        SortedRange k (heapPop lt first i d) first (first + n) := by
  intro i
  induction i with
  | zero =>
    intro d hlen hin H hs hcross
    have hres : heapPop lt first 0 d = swapAt d first first := by
      simp [heapPop, siftDown_func, siftDownLoop]
    rw [hres]
    have hkey : ∀ x, keyAt k (swapAt d first first) x = keyAt k d x := by
      intro x
      rw [keyAt_swapAt k d first first x (by omega) (by omega)]
      split_ifs with h1
      · rw [h1]
      · rfl
    refine ⟨RangeEq.swap k first (first + n) d first first (Nat.le_refl _) (by omega)
      (Nat.le_refl _) (by omega) hlen, ?_⟩
    intro x y h1 h2 h3
    rw [hkey x, hkey y]
    by_cases hx : x = first
    · subst hx
      have := hcross 0 (y - x) (Nat.le_refl _) (by omega) (by omega)
      have g1 := @keyAt_congr α k d (x + (y - x)) y (by omega)
      have g2 := @keyAt_congr α k d (x + 0) x (by omega)
      omega
    · exact hs x y (by omega) h2 h3
  | succ i ih =>
    intro d hlen hin H hs hcross
    unfold heapPop
    have hkey : ∀ x, keyAt k (swapAt d first (first + (i + 1))) x =
        if x = first + (i + 1) then keyAt k d first
        else if x = first then keyAt k d (first + (i + 1)) else keyAt k d x :=
      fun x => keyAt_swapAt k d first (first + (i + 1)) x (by omega) (by omega)
    have hmin := heap_root_min k d first (i + 1 + 1) H
    have hsw := RangeEq.swap k first (first + n) d first (first + (i + 1)) (Nat.le_refl _)
      (by omega) (by omega) (by omega) hlen
    have hlen1 : first + n ≤ (swapAt d first (first + (i + 1))).length := by
      rw [length_swapAt]; exact hlen
    have H1 : HeapFrom k (swapAt d first (first + (i + 1))) first (0 + 1) (i + 1) := by
      intro r c h1 h2 h3
      rw [hkey (first + r), hkey (first + c)]
      rw [if_neg (by omega), if_neg (by omega), if_neg (by omega), if_neg (by omega)]
      exact H r c (Nat.zero_le _) h2 (by omega)
    -- the old heap elements and the old top
    have hold : ∀ x, x ≤ i → keyAt k d first ≤ keyAt k (swapAt d first (first + (i + 1))) (first + x) ∧
        ∀ y, i + 1 < y → y < n →
          keyAt k d (first + y) ≤ keyAt k (swapAt d first (first + (i + 1))) (first + x) := by
      intro x hx
      rw [hkey (first + x), if_neg (by omega)]
      by_cases hx0 : x = 0
      · subst hx0
        rw [if_pos (by omega)]
        exact ⟨hmin (i + 1) (by omega), fun y h1 h2 => hcross (i + 1) y (Nat.le_refl _) h1 h2⟩
      · rw [if_neg (by omega)]
        exact ⟨hmin x (by omega), fun y h1 h2 => hcross x y (by omega) (by omega) h2⟩
    have htop : keyAt k (swapAt d first (first + (i + 1))) (first + (i + 1)) = keyAt k d first := by
      rw [hkey, if_pos rfl]
    have htail : ∀ y, i + 1 < y → y < n →
        keyAt k (swapAt d first (first + (i + 1))) (first + y) = keyAt k d (first + y) := by
      intro y h1 h2
      rw [hkey, if_neg (by omega), if_neg (by omega)]
    have htoptail : ∀ y, i + 1 < y → y < n → keyAt k d (first + y) ≤ keyAt k d first := by
      intro y h1 h2
      have := hcross 0 y (Nat.zero_le _) (by omega) h2
      have g := @keyAt_congr α k d (first + 0) first (by omega)
      omega
    generalize swapAt d first (first + (i + 1)) = d1 at hsw hlen1 H1 hold htop htail
    have hsd := siftDown_func_spec k lt hlt d1 0 (i + 1) first (by omega) H1
    have hfrom : ∀ x, x ≤ i → ∃ x', x' ≤ i ∧
        keyAt k (siftDown_func lt d1 0 (i + 1) first) (first + x) = keyAt k d1 (first + x') := by
      intro x hx
      obtain ⟨j, hj1, hj2, e⟩ := hsd.2.2.2 (first + x) (by omega) (by omega)
      refine ⟨j - first, by omega, ?_⟩
      rw [e]
      exact keyAt_congr k d1 (by omega)
    have hout : ∀ y, i < y → keyAt k (siftDown_func lt d1 0 (i + 1) first) (first + y) =
        keyAt k d1 (first + y) := fun y hy => hsd.2.2.1 (first + y) (by omega)
    have hlen2 : first + n ≤ (siftDown_func lt d1 0 (i + 1) first).length := by
      rw [hsd.2.1]; exact hlen1
    have hheap := hsd.1
    generalize siftDown_func lt d1 0 (i + 1) first = d2 at hsd hfrom hout hlen2 hheap ⊢
    have hrec := ih d2 hlen2 (by omega) hheap ?_ ?_
    · refine ⟨(hsw.trans k (hsd.2.mono k (by omega) (by omega))).trans k hrec.1, hrec.2⟩
    · intro x y h1 h2 h3
      have ex := hout (x - first) (by omega)
      have ey := hout (y - first) (by omega)
      rw [show first + (x - first) = x by omega] at ex
      rw [show first + (y - first) = y by omega] at ey
      rw [ex, ey]
      by_cases hx : x = first + (i + 1)
      · subst hx
        rw [htop]
        have := htail (y - first) (by omega) (by omega)
        rw [show first + (y - first) = y by omega] at this
        rw [this]
        have := htoptail (y - first) (by omega) (by omega)
        rw [show first + (y - first) = y by omega] at this
        exact this
      · have e1 := htail (x - first) (by omega) (by omega)
        have e2 := htail (y - first) (by omega) (by omega)
        rw [show first + (x - first) = x by omega] at e1
        rw [show first + (y - first) = y by omega] at e2
        rw [e1, e2]
        exact hs x y (by omega) h2 h3
    · intro x y h1 h2 h3
      obtain ⟨x', hx', e⟩ := hfrom x h1
      rw [e, hout y h2]
      by_cases hy : y = i + 1
      · subst hy
        rw [htop]
        exact (hold x' hx').1
      · rw [htail y (by omega) h3]
        exact (hold x' hx').2 y (by omega) h3

/-- `heapSort_func` sorts a non-empty `data[a:b]` and touches nothing else. -/
theorem heapSort_func_spec (hlt : ∀ x y, lt x y = decide (k y < k x)) (d : List α)
    (a b : Nat) (hab : a < b) (hb : b ≤ d.length) :
    RangeEq k a b d (heapSort_func lt d a b) ∧ SortedRange k (heapSort_func lt d a b) a b := by
  unfold heapSort_func
  dsimp only
  have hbuild := heapBuild_spec k lt hlt (b - a) a ((b - a - 1) / 2) d (by omega)
    (fun r c h1 h2 h3 => by omega)
  have hlen1 : a + (b - a) ≤ (heapBuild lt (b - a) a ((b - a - 1) / 2) d).length := by
    rw [hbuild.2.1]; omega
  have hheap : HeapFrom k (heapBuild lt (b - a) a ((b - a - 1) / 2) d) a 0 (b - a - 1 + 1) := by
    rw [show b - a - 1 + 1 = b - a by omega]
    exact hbuild.1
  have hpop := heapPop_spec k lt hlt a (b - a) (b - a - 1) _ hlen1 (by omega) hheap
    (fun x y h1 h2 h3 => by omega) (fun x y h1 h2 h3 => by omega)
  rw [show a + (b - a) = b by omega] at hpop hbuild
  exact ⟨hbuild.2.trans k hpop.1, hpop.2⟩

end HeapSort2

section Pdqsort

variable {α : Type} (k : α → Int) (lt : α → α → Bool)

/-- The first half of a pass stays inside the range, chooses a pivot inside
it, and reports the range sorted only when it is. -/
theorem pdqPass_spec (hlt : ∀ x y, lt x y = decide (k y < k x)) (d : List α)
    (a b limit : Nat) (wb wp : Bool) (hab : 12 < b - a) (hb : b ≤ d.length)
    (hpred : 0 < a → ∀ x, a ≤ x → x < b → keyAt k d x ≤ keyAt k d (a - 1)) :
    RangeEq k a b d (pdqPass lt d a b limit wb wp).data ∧
      a ≤ (pdqPass lt d a b limit wb wp).pivot ∧ (pdqPass lt d a b limit wb wp).pivot < b ∧
      ((pdqPass lt d a b limit wb wp).sorted = true →
        SortedRange k (pdqPass lt d a b limit wb wp).data a b) := by
  unfold pdqPass
  dsimp only
  have h1 : RangeEq k a b d (if wb = true then d else breakPatterns_func d a b) := by
    split_ifs
    · exact RangeEq.refl k _ _ d
    · exact breakPatterns_func_frame k d a b (by omega) hb
  generalize (if wb = true then d else breakPatterns_func d a b) = d1 at h1 ⊢
  have hb1 : b ≤ d1.length := by rw [h1.1]; exact hb
  have hpiv := choosePivot_func_range lt d1 a b (by omega)
  generalize choosePivot_func lt d1 a b = ph at hpiv ⊢
  have h2 : RangeEq k a b d1
      (if ph.2 = sortedHint.decreasingHint then reverseRange_func d1 a b else d1) := by
    split_ifs
    · exact reverseRange_func_frame k d1 a b (by omega) hb1
    · exact RangeEq.refl k _ _ d1
  generalize (if ph.2 = sortedHint.decreasingHint then reverseRange_func d1 a b else d1) = d2
    at h2 ⊢
  have hb2 : b ≤ d2.length := by rw [h2.1]; exact hb1
  have h12 := h1.trans k h2
  have hpivot : a ≤ (if ph.2 = sortedHint.decreasingHint then b - 1 - (ph.1 - a) else ph.1) ∧
      (if ph.2 = sortedHint.decreasingHint then b - 1 - (ph.1 - a) else ph.1) < b := by
    split_ifs <;> omega
  generalize (if ph.2 = sortedHint.decreasingHint then sortedHint.increasingHint else ph.2)
    = hint
  have hpis := partialInsertionSort_func_spec k lt hlt d2 a b (by omega) hb2
    (h12.pred_bound k hpred)
  by_cases hc : wb = true ∧ wp = true ∧ hint = sortedHint.increasingHint
  · rw [if_pos hc]
    exact ⟨h12.trans k hpis.1, hpivot.1, hpivot.2, hpis.2⟩
  · rw [if_neg hc]
    exact ⟨h12, hpivot.1, hpivot.2, fun h => by simp at h⟩

/-- Two sorted halves around a pivot that separates them make a sorted range. -/
theorem sortedRange_join (d d' : List α) (a mid b : Nat)
    (hL : ∀ x, a ≤ x → x < mid → ∃ x', a ≤ x' ∧ x' < mid ∧ keyAt k d' x = keyAt k d x')
    (hM : keyAt k d' mid = keyAt k d mid)
    (hR : ∀ y, mid < y → y < b → ∃ y', mid < y' ∧ y' < b ∧ keyAt k d' y = keyAt k d y')
    (hlo : ∀ x, a ≤ x → x < mid → keyAt k d mid < keyAt k d x)
    (hhi : ∀ y, mid < y → y < b → keyAt k d y ≤ keyAt k d mid)
    (hsL : SortedRange k d' a mid) (hsR : SortedRange k d' (mid + 1) b) :
    SortedRange k d' a b := by
  intro i j h1 h2 h3
  have keyL : ∀ x, a ≤ x → x < mid → keyAt k d mid < keyAt k d' x := by
    intro x hx1 hx2
    obtain ⟨x', e1, e2, e3⟩ := hL x hx1 hx2
    rw [e3]; exact hlo x' e1 e2
  have keyR : ∀ y, mid < y → y < b → keyAt k d' y ≤ keyAt k d mid := by
    intro y hy1 hy2
    obtain ⟨y', e1, e2, e3⟩ := hR y hy1 hy2
    rw [e3]; exact hhi y' e1 e2
  have gi := @keyAt_congr α k d' i mid
  have gj := @keyAt_congr α k d' j mid
  have e1 := hsL i j h1 h2
  have e2 := hsR i j
  have e3 := keyL i h1
  have e4 := keyR j
  have e5 := keyL j (by omega)
  have e6 := keyR i
  omega

/-- `pdqsort_func` sorts `data[a:b]` and touches nothing else, whatever the
limit and the flags, given a pass of fuel for every element of the range and
one more. -/
theorem pdqsort_func_spec (hlt : ∀ x y, lt x y = decide (k y < k x)) :
    ∀ (fuel : Nat) (d : List α) (a b limit : Nat) (wb wp : Bool), a ≤ b → b ≤ d.length →
      b - a < fuel →
      (0 < a → ∀ x, a ≤ x → x < b → keyAt k d x ≤ keyAt k d (a - 1)) →
      RangeEq k a b d (pdqsort_func lt fuel d a b limit wb wp) ∧
        SortedRange k (pdqsort_func lt fuel d a b limit wb wp) a b := by
  intro fuel
  induction fuel with
  | zero => intro d a b limit wb wp _ _ h _; omega
  | succ fuel ih =>
    intro d a b limit wb wp hab hb hfuel hpred
    unfold pdqsort_func
    by_cases h12 : b - a ≤ 12
    · rw [if_pos h12]
      exact insertionSort_func_spec k lt hlt d a b hab hb
    rw [if_neg h12]
    by_cases hlim : limit = 0
    · rw [if_pos hlim]
      exact heapSort_func_spec k lt hlt d a b (by omega) hb
    rw [if_neg hlim]
    obtain ⟨s1, s2, s3, s4⟩ := pdqPass_spec k lt hlt d a b limit wb wp (by omega) hb hpred
    generalize pdqPass lt d a b limit wb wp = s at s1 s2 s3 s4 ⊢
    dsimp only
    have hbs : b ≤ s.data.length := by rw [s1.1]; exact hb
    have hpreds := s1.pred_bound k hpred
    by_cases hsorted : s.sorted = true
    · rw [if_pos hsorted]
      exact ⟨s1, s4 hsorted⟩
    rw [if_neg hsorted]
    by_cases heq : 0 < a ∧ lessAt lt s.data (a - 1) s.pivot = false
    · rw [if_pos heq]
      have hle := (lessAt_false_iff k lt hlt s.data (a - 1) s.pivot (by omega) (by omega)).mp heq.2
      obtain ⟨r1, r2, r3, r4, r5⟩ := partitionEqual_func_spec k lt hlt s.data a b s.pivot s2 s3 hbs
      generalize partitionEqual_func lt s.data a b s.pivot = r at r1 r2 r3 r4 r5 ⊢
      have hbr : b ≤ r.1.length := by rw [r1.1]; exact hbs
      have hrec := ih r.1 r.2 b s.limit wb wp r3 hbr (by omega) ?_
      · refine ⟨(s1.trans k r1).trans k (hrec.1.mono k (by omega) (Nat.le_refl b)), ?_⟩
        -- keys before `r.2` equal the pivot's, keys from `r.2` on are smaller
        have hP := hpreds heq.1 s.pivot s2 s3
        have hbefore : ∀ x, a ≤ x → x < r.2 →
            keyAt k (pdqsort_func lt fuel r.1 r.2 b s.limit wb wp) x = keyAt k s.data s.pivot := by
          intro x h1 h2
          rw [hrec.1.2.1 x (by omega)]
          obtain ⟨j, hj1, hj2, e⟩ := r1.2.2 x h1 (by omega)
          have e1 := r4 x h1 h2
          have e2 := hpreds heq.1 j hj1 hj2
          omega
        have hafter : ∀ x, r.2 ≤ x → x < b →
            keyAt k (pdqsort_func lt fuel r.1 r.2 b s.limit wb wp) x < keyAt k s.data s.pivot := by
          intro x h1 h2
          obtain ⟨j, hj1, hj2, e⟩ := hrec.1.2.2 x h1 h2
          rw [e]
          exact r5 j hj1 hj2
        intro i j h1 h2 h3
        by_cases hi : i < r.2
        · by_cases hj : j < r.2
          · rw [hbefore i h1 hi, hbefore j (by omega) hj]
          · rw [hbefore i h1 hi]
            have := hafter j (by omega) h3
            omega
        · exact hrec.2 i j (by omega) h2 h3
      · intro _ x h1 h2
        have e1 := r4 (r.2 - 1) (by omega) (by omega)
        have e2 := r5 x h1 h2
        omega
    rw [if_neg heq]
    obtain ⟨p1, p2, p3, p4, p5⟩ := partition_func_spec k lt hlt s.data a b s.pivot s2 s3 hbs
    generalize partition_func lt s.data a b s.pivot = r at p1 p2 p3 p4 p5 ⊢
    have hbr : b ≤ r.1.length := by rw [p1.1]; exact hbs
    have hpredr := p1.pred_bound k hpreds
    by_cases hside : r.2.1 - a < b - r.2.1
    · rw [if_pos hside]
      -- the left part first, then the right part
      have hleft := ih r.1 a r.2.1 s.limit true true p2 (by omega) (by omega)
        (fun ha x h1 h2 => hpredr ha x h1 (by omega))
      generalize pdqsort_func lt fuel r.1 a r.2.1 s.limit true true = d1 at hleft ⊢
      have hright := ih d1 (r.2.1 + 1) b s.limit (decide ((b - a) / 8 ≤ r.2.1 - a)) r.2.2
        (by omega) (by rw [hleft.1.1]; exact hbr) (by omega) ?_
      · generalize pdqsort_func lt fuel d1 (r.2.1 + 1) b s.limit
          (decide ((b - a) / 8 ≤ r.2.1 - a)) r.2.2 = d2 at hright ⊢
        refine ⟨(s1.trans k p1).trans k ((hleft.1.mono k (Nat.le_refl a) (by omega)).trans k
          (hright.1.mono k (by omega) (Nat.le_refl b))), ?_⟩
        apply sortedRange_join k r.1 d2 a r.2.1 b ?_ ?_ ?_ p4 p5 ?_ hright.2
        · intro x h1 h2
          obtain ⟨j, hj1, hj2, e⟩ := hleft.1.2.2 x h1 h2
          exact ⟨j, hj1, hj2, by rw [hright.1.2.1 x (by omega), e]⟩
        · rw [hright.1.2.1 _ (by omega), hleft.1.2.1 _ (by omega)]
        · intro y h1 h2
          obtain ⟨j, hj1, hj2, e⟩ := hright.1.2.2 y (by omega) h2
          exact ⟨j, by omega, hj2, by rw [e, hleft.1.2.1 j (by omega)]⟩
        · intro i j h1 h2 h3
          rw [hright.1.2.1 i (by omega), hright.1.2.1 j (by omega)]
          exact hleft.2 i j h1 h2 h3
      · intro _ x h1 h2
        rw [hleft.1.2.1 x (by omega), hleft.1.2.1 _ (by omega)]
        simp only [Nat.add_sub_cancel]
        exact p5 x (by omega) h2
    · rw [if_neg hside]
      -- the right part first, then the left part
      have hright := ih r.1 (r.2.1 + 1) b s.limit true true (by omega) hbr (by omega) ?_
      · generalize pdqsort_func lt fuel r.1 (r.2.1 + 1) b s.limit true true = d1 at hright ⊢
        have hleft := ih d1 a r.2.1 s.limit (decide ((b - a) / 8 ≤ b - r.2.1)) r.2.2
          p2 (by rw [hright.1.1]; omega) (by omega) ?_
        · generalize pdqsort_func lt fuel d1 a r.2.1 s.limit
            (decide ((b - a) / 8 ≤ b - r.2.1)) r.2.2 = d2 at hleft ⊢
          refine ⟨(s1.trans k p1).trans k ((hright.1.mono k (by omega) (Nat.le_refl b)).trans k
            (hleft.1.mono k (Nat.le_refl a) (by omega))), ?_⟩
          apply sortedRange_join k r.1 d2 a r.2.1 b ?_ ?_ ?_ p4 p5 hleft.2 ?_
          · intro x h1 h2
            obtain ⟨j, hj1, hj2, e⟩ := hleft.1.2.2 x h1 h2
            exact ⟨j, hj1, hj2, by rw [e, hright.1.2.1 j (by omega)]⟩
          · rw [hleft.1.2.1 _ (by omega), hright.1.2.1 _ (by omega)]
          · intro y h1 h2
            obtain ⟨j, hj1, hj2, e⟩ := hright.1.2.2 y (by omega) h2
            exact ⟨j, by omega, hj2, by rw [hleft.1.2.1 y (by omega), e]⟩
          · intro i j h1 h2 h3
            rw [hleft.1.2.1 i (by omega), hleft.1.2.1 j (by omega)]
            exact hright.2 i j h1 h2 h3
        · intro ha x h1 h2
          rw [hright.1.2.1 x (by omega), hright.1.2.1 _ (by omega)]
          exact hpredr ha x h1 (by omega)
      · intro _ x h1 h2
        simp only [Nat.add_sub_cancel]
        exact p5 x (by omega) h2

/-- `sort.Slice` leaves the keys in non-increasing order. -/
theorem sortSlice_sortedRange (hlt : ∀ x y, lt x y = decide (k y < k x)) (d : List α) :
    SortedRange k (sortSlice lt d) 0 d.length :=
  (pdqsort_func_spec k lt hlt (d.length + 1) d 0 d.length (bitsLen d.length) true true
    (Nat.zero_le _) (Nat.le_refl _) (by omega) (fun h => by omega)).2

end Pdqsort

section Stable

variable {α : Type} (k : α → Int) (lt : α → α → Bool)

theorem swapAt_cons_succ (x : α) (l : List α) (i j : Nat) :
    swapAt (x :: l) (i + 1) (j + 1) = x :: swapAt l i j := by
  unfold swapAt
  simp only [List.getElem?_cons_succ]
  cases l[i]? with
  | none => rfl
  | some u =>
    cases l[j]? with
    | none => rfl
    | some v => simp

/-- Swapping two neighbours. -/
theorem swapAt_adjacent (pre : List α) (x y : α) (post : List α) :
    swapAt (pre ++ x :: y :: post) (pre.length + 1) pre.length = pre ++ y :: x :: post := by
  induction pre with
  | nil => simp [swapAt]
  | cons u pre ih =>
    simp only [List.cons_append, List.length_cons]
    rw [swapAt_cons_succ, ih]

/-- A slice split at two neighbouring indices. -/
theorem split_adjacent (d : List α) (j : Nat) (h : j + 1 < d.length) :
    ∃ pre x y post, d = pre ++ x :: y :: post ∧ pre.length = j := by
  refine ⟨d.take j, d[j], d[j + 1], d.drop (j + 2), ?_, by simp; omega⟩
  have h1 : d = d.take j ++ d.drop j := (List.take_append_drop j d).symm
  have h2 : d.drop j = d[j] :: d.drop (j + 1) := List.drop_eq_getElem_cons (by omega)
  have h3 : d.drop (j + 1) = d[j + 1] :: d.drop (j + 1 + 1) := List.drop_eq_getElem_cons h
  rw [h3] at h2
  rw [h2] at h1
  exact h1

/-- Swapping two neighbours with different keys keeps, for every key, the
elements with that key in the same order. -/
theorem filter_swapAt_of_less (hlt : ∀ x y, lt x y = decide (k y < k x)) (d : List α) (j : Nat)
    (h : lessAt lt d (j + 1) j = true) (s : Int) :
    (swapAt d (j + 1) j).filter (fun x => decide (k x = s)) =
      d.filter (fun x => decide (k x = s)) := by
  by_cases hlen : j + 1 < d.length
  · obtain ⟨pre, x, y, post, e, hpre⟩ := split_adjacent d j hlen
    subst e
    subst hpre
    have e1 : (pre ++ x :: y :: post)[pre.length + 1]? = some y := by
      rw [List.getElem?_append_right (Nat.le_succ _)]
      simp
    have e0 : (pre ++ x :: y :: post)[pre.length]? = some x := by
      rw [List.getElem?_append_right (Nat.le_refl _)]
      simp
    have hxy : k x < k y := by
      unfold lessAt at h
      rw [e1, e0] at h
      simp only [hlt] at h
      exact of_decide_eq_true h
    rw [swapAt_adjacent]
    simp only [List.filter_append, List.filter_cons]
    by_cases hx : k x = s
    · have hy : ¬ k y = s := by omega
      simp [hx, hy]
    · simp [hx]
  · unfold lessAt at h
    rw [List.getElem?_eq_none (by omega)] at h
    simp at h

theorem insertionInner_filter (hlt : ∀ x y, lt x y = decide (k y < k x)) (a : Nat) (s : Int) :
    ∀ (j : Nat) (d : List α),
      (insertionInner lt a j d).filter (fun x => decide (k x = s)) =
        d.filter (fun x => decide (k x = s)) := by
  intro j
  induction j with
  | zero => intro d; rfl
  | succ j ih =>
    intro d
    unfold insertionInner
    by_cases hc : a < j + 1 ∧ lessAt lt d (j + 1) j = true
    · rw [if_pos hc, ih, filter_swapAt_of_less k lt hlt d j hc.2 s]
    · rw [if_neg hc]

theorem insertionOuter_filter (hlt : ∀ x y, lt x y = decide (k y < k x)) (a : Nat) (s : Int) :
    ∀ (n i : Nat) (d : List α),
      (insertionOuter lt a n i d).filter (fun x => decide (k x = s)) =
        d.filter (fun x => decide (k x = s)) := by
  intro n
  induction n with
  | zero => intro i d; rfl
  | succ n ih =>
    intro i d
    unfold insertionOuter
    rw [ih, insertionInner_filter k lt hlt a s]

/-- Up to twelve elements `sort.Slice` is an insertion sort, which keeps
elements with equal keys in their order. -/
theorem sortSlice_stable_of_short (hlt : ∀ x y, lt x y = decide (k y < k x)) (d : List α)
    (hlen : d.length ≤ 12) (s : Int) :
    (sortSlice lt d).filter (fun x => decide (k x = s)) =
      d.filter (fun x => decide (k x = s)) := by
  unfold sortSlice pdqsort_func
  rw [if_pos (by omega)]
  exact insertionOuter_filter k lt hlt 0 s _ _ d

/-- A slice sorted as a range has its keys pairwise in non-increasing order. -/
theorem pairwise_of_sortedRange (d : List α) (h : SortedRange k d 0 d.length) :
    (d.map k).Pairwise (fun x y => y ≤ x) := by
  rw [List.pairwise_map, List.pairwise_iff_getElem]
  intro i j hi hj hij
  have := h i j (Nat.zero_le _) hij hj
  unfold keyAt at this
  rw [List.getElem?_eq_getElem hi, List.getElem?_eq_getElem hj] at this
  exact this

theorem length_sortSlice (d : List α) : (sortSlice lt d).length = d.length :=
  sortSlice_inv lt (fun l => l.length = d.length)
    (fun l i j h => (length_swapAt l i j).trans h) d rfl

/-- `sort.Slice` with a less function that compares keys leaves the keys in
non-increasing order. -/
theorem sortSlice_pairwise (hlt : ∀ x y, lt x y = decide (k y < k x)) (d : List α) :
    ((sortSlice lt d).map k).Pairwise (fun x y => y ≤ x) := by
  apply pairwise_of_sortedRange
  rw [length_sortSlice]
  exact sortSlice_sortedRange k lt hlt d

end Stable

/-! ## Serialized sizes -/

section Sizes

theorem utf8ByteSize_append (a b : String) :
    (a ++ b).utf8ByteSize = a.utf8ByteSize + b.utf8ByteSize := by
  cases a with
  | mk x =>
    cases b with
    | mk y =>
      show String.utf8ByteSize (String.mk (x ++ y)) = _
      simp [String.utf8ByteSize_mk, String.utf8Len_append]

theorem joinComma_map_len (f : IAMPolicyStatement → String) :
    ∀ (ss : List IAMPolicyStatement), ss ≠ [] →
      (joinComma (ss.map f)).utf8ByteSize + 1 = (ss.map fun t => (f t).utf8ByteSize + 1).sum := by
  intro ss
  induction ss with
  | nil => intro h; exact absurd rfl h
  | cons s rest ih =>
    intro _
    cases rest with
    | nil => simp [joinComma]
    | cons t rest =>
      have := ih (by simp)
      simp only [List.map_cons, joinComma, utf8ByteSize_append, List.sum_cons] at this ⊢
      have h1 : (",": String).utf8ByteSize = 1 := by decide
      omega

/-- The size of a document with at least one statement: the envelope, the
statements, and one separator between two statements. -/
theorem marshalLen_eq (version : String) (id : Option String) (ss : List IAMPolicyStatement)
    (hne : ss ≠ []) :
    marshalLen { Version := version, Statement := ss, Id := id } + 1 =
      envelopeLen version id + (ss.map fun t => statementLen t + 1).sum := by
  have hj := joinComma_map_len encodeStatement ss hne
  have c1 : ("\x7b" : String).utf8ByteSize = 1 := by decide
  have c2 : ("\x7d" : String).utf8ByteSize = 1 := by decide
  have c3 : ("\"" : String).utf8ByteSize = 1 := by decide
  have c4 : (":" : String).utf8ByteSize = 1 := by decide
  have c5 : ("," : String).utf8ByteSize = 1 := by decide
  have c6 : ("[" : String).utf8ByteSize = 1 := by decide
  have c7 : ("]" : String).utf8ByteSize = 1 := by decide
  have c8 : (String.mk (escapeRunes "Version".data)).utf8ByteSize = 7 := by decide
  have c9 : (String.mk (escapeRunes "Statement".data)).utf8ByteSize = 9 := by decide
  have c10 : (String.mk (escapeRunes "Id".data)).utf8ByteSize = 2 := by decide
  cases ss with
  | nil => exact absurd rfl hne
  | cons s rest =>
    cases id with
    | none =>
      simp only [marshalLen, jsonMarshal, encodePolicy, encodeStatements, fieldPointer,
        Option.map_none', List.filterMap_cons_some, List.filterMap_cons_none, List.filterMap_nil,
        id_eq, joinComma, utf8ByteSize_append, encodeString, envelopeLen, statementLen,
        c1, c2, c3, c4, c5, c6, c7, c8, c9] at hj ⊢
      omega
    | some i =>
      simp only [marshalLen, jsonMarshal, encodePolicy, encodeStatements, fieldPointer,
        Option.map_some', List.filterMap_cons_some, List.filterMap_cons_none, List.filterMap_nil,
        id_eq, joinComma, utf8ByteSize_append, encodeString, envelopeLen, statementLen,
        c1, c2, c3, c4, c5, c6, c7, c8, c9, c10] at hj ⊢
      omega

theorem policySize_eq (p : IAMPolicy) (ss : List IAMPolicyStatement) (hne : ss ≠ []) :
    policySize p ss + 1 = envelopeLen p.Version p.Id + (ss.map fun t => statementLen t + 1).sum :=
  marshalLen_eq p.Version p.Id ss hne

/-- A document is at least as long as the document of any sublist of its
statements. -/
theorem policySize_mono (p : IAMPolicy) (ss ts : List IAMPolicyStatement) (hne : ss ≠ [])
    (h : ss.Sublist ts) : policySize p ss ≤ policySize p ts := by
  have hts : ts ≠ [] := by
    intro e; subst e; exact hne (List.sublist_nil.mp h)
  have h1 := policySize_eq p ss hne
  have h2 := policySize_eq p ts hts
  have h3 : (ss.map fun t => statementLen t + 1).sum ≤ (ts.map fun t => statementLen t + 1).sum :=
    List.Sublist.sum_le_sum (h.map _) (fun _ _ => Nat.zero_le _)
  omega

/-- The size of a document does not depend on the order of its statements. -/
theorem policySize_perm (p : IAMPolicy) (ss ts : List IAMPolicyStatement) (h : ss.Perm ts) :
    policySize p ss = policySize p ts := by
  by_cases hne : ss = []
  · subst hne; rw [List.nil_perm.mp h]
  · have hts : ts ≠ [] := by
      intro e; subst e; exact hne (List.perm_nil.mp h)
    have h1 := policySize_eq p ss hne
    have h2 := policySize_eq p ts hts
    have h3 : (ss.map fun t => statementLen t + 1).sum = (ts.map fun t => statementLen t + 1).sum :=
      (h.map _).sum_eq
    omega

end Sizes

/-! ## The first-fit loop -/

section FirstFit

variable (policy : IAMPolicy) (maxChars : Int)

/-- When the inner loop places the statement, it extends exactly one bin: the
first one whose test document fits. -/
theorem tryBins_some (stmt : IAMPolicyStatement) :
    ∀ (bins placed : List policyBin), tryBins policy maxChars stmt bins = some placed →
      ∃ pre bin post, bins = pre ++ bin :: post ∧
        placed = pre ++
          { statements := bin.statements ++ [stmt]
            currentSize := policySize policy (bin.statements ++ [stmt]) } :: post ∧
        (policySize policy (bin.statements ++ [stmt]) : Int) ≤ maxChars ∧
        ∀ c ∈ pre, ¬ (policySize policy (c.statements ++ [stmt]) : Int) ≤ maxChars := by
  intro bins
  induction bins with
  | nil => intro placed h; simp [tryBins] at h
  | cons b rest ih =>
    intro placed h
    unfold tryBins at h
    dsimp only at h
    split at h
    · rename_i hfit
      refine ⟨[], b, rest, rfl, ?_, hfit, by simp⟩
      simpa [policySize] using (Option.some.inj h).symm
    · rename_i hfit
      cases hr : tryBins policy maxChars stmt rest with
      | none => simp [hr] at h
      | some placed' =>
        simp only [hr, Option.map_some', Option.some.injEq] at h
        obtain ⟨pre, bin, post, e1, e2, h3, h4⟩ := ih placed' hr
        refine ⟨b :: pre, bin, post, by simp [e1], by simp [← h, e2], h3, ?_⟩
        intro c hc
        rcases List.mem_cons.mp hc with rfl | hc
        · exact hfit
        · exact h4 c hc

/-- When the inner loop places the statement nowhere, no bin's test document fits. -/
theorem tryBins_none (stmt : IAMPolicyStatement) :
    ∀ (bins : List policyBin), tryBins policy maxChars stmt bins = none →
      ∀ c ∈ bins, ¬ (policySize policy (c.statements ++ [stmt]) : Int) ≤ maxChars := by
  intro bins
  induction bins with
  | nil => intro _ c hc; simp at hc
  | cons b rest ih =>
    intro h c hc
    unfold tryBins at h
    dsimp only at h
    split at h
    · simp at h
    · rename_i hfit
      rcases List.mem_cons.mp hc with rfl | hc
      · exact hfit
      · refine ih ?_ c hc
        cases hr : tryBins policy maxChars stmt rest with
        | none => rfl
        | some _ => simp [hr] at h

/-- The inner loop places the statement as soon as some bin's test document fits. -/
theorem tryBins_isSome_of_fit (stmt : IAMPolicyStatement) :
    ∀ (bins : List policyBin) (c : policyBin), c ∈ bins →
      (policySize policy (c.statements ++ [stmt]) : Int) ≤ maxChars →
      ∃ placed, tryBins policy maxChars stmt bins = some placed := by
  intro bins c hc hfit
  cases hr : tryBins policy maxChars stmt bins with
  | none => exact absurd hfit (tryBins_none policy maxChars stmt bins hr c hc)
  | some placed => exact ⟨placed, rfl⟩

/-- Induction over the outer loop: a property of the statements processed so
far and the bins built from them that holds at the start and is kept by every
pass holds at the end. -/
theorem packBins_induction (sorted : List StatementWithSize)
    (Inv : List StatementWithSize → List policyBin → Prop) (h0 : Inv [] [])
    (hstep : ∀ done x rest bins, sorted = done ++ x :: rest → Inv done bins →
      Inv (done ++ [x]) (placeStatement policy maxChars bins x)) :
    Inv sorted (packBins policy sorted maxChars) := by
  have key : ∀ (todo done : List StatementWithSize) (bins : List policyBin),
      sorted = done ++ todo → Inv done bins →
      Inv sorted (todo.foldl (placeStatement policy maxChars) bins) := by
    intro todo
    induction todo with
    | nil =>
      intro done bins e h
      simp only [List.append_nil] at e
      subst e
      exact h
    | cons x rest ih =>
      intro done bins e h
      simp only [List.foldl_cons]
      exact ih (done ++ [x]) _ (by simp [e]) (hstep done x rest bins e h)
  exact key sorted [] [] rfl h0

/-- The two outcomes of one pass of the outer loop: the statement is appended
to the first bin whose test document fits, or, when none fits, it opens a new
bin at the end. -/
theorem placeStatement_cases (bins : List policyBin) (x : StatementWithSize) :
    (∃ pre bin post, bins = pre ++ bin :: post ∧
        placeStatement policy maxChars bins x = pre ++
          { statements := bin.statements ++ [x.Statement]
            currentSize := policySize policy (bin.statements ++ [x.Statement]) } :: post ∧
        (policySize policy (bin.statements ++ [x.Statement]) : Int) ≤ maxChars ∧
        ∀ c ∈ pre, ¬ (policySize policy (c.statements ++ [x.Statement]) : Int) ≤ maxChars) ∨
    (placeStatement policy maxChars bins x = bins ++
        [{ statements := [x.Statement], currentSize := policySize policy [x.Statement] }] ∧
      ∀ c ∈ bins, ¬ (policySize policy (c.statements ++ [x.Statement]) : Int) ≤ maxChars) := by
  cases hr : tryBins policy maxChars x.Statement bins with
  | none =>
    right
    exact ⟨by simp [placeStatement, hr, policySize], tryBins_none policy maxChars _ bins hr⟩
  | some placed =>
    left
    obtain ⟨pre, bin, post, e1, e2, h3, h4⟩ := tryBins_some policy maxChars _ bins placed hr
    exact ⟨pre, bin, post, e1, by simp [placeStatement, hr, e2], h3, h4⟩

/-- The policies returned are the bins, in order, under the envelope. -/
theorem mem_packStatements (statements : List StatementWithSize) (p : IAMPolicy) :
    p ∈ packStatements policy statements maxChars ↔
      ∃ bin ∈ packBins policy (sortedStatements statements) maxChars,
        p = { Version := policy.Version, Statement := bin.statements, Id := policy.Id } := by
  simp only [packStatements, List.mem_map]
  constructor
  · rintro ⟨b, hb, rfl⟩; exact ⟨b, hb, rfl⟩
  · rintro ⟨b, hb, rfl⟩; exact ⟨b, hb, rfl⟩

theorem sortedStatements_perm (statements : List StatementWithSize) :
    (sortedStatements statements).Perm statements :=
  sortSlice_perm sizeGreater statements

/-- Every bin fits when every statement fits alone. -/
theorem packBins_within_limit (sorted : List StatementWithSize)
    (hsolo : ∀ s ∈ sorted, (policySize policy [s.Statement] : Int) ≤ maxChars) :
    ∀ bin ∈ packBins policy sorted maxChars,
      (policySize policy bin.statements : Int) ≤ maxChars := by
  refine packBins_induction policy maxChars sorted
    (fun _ bins => ∀ bin ∈ bins, (policySize policy bin.statements : Int) ≤ maxChars)
    (by simp) ?_
  intro done x rest bins e inv
  have hx : (policySize policy [x.Statement] : Int) ≤ maxChars := hsolo x (by simp [e])
  rcases placeStatement_cases policy maxChars bins x with
    ⟨pre, bin, post, e1, e2, h3, _⟩ | ⟨e2, _⟩
  · rw [e2]
    intro b hb
    simp only [List.mem_append, List.mem_cons] at hb
    rcases hb with hb | rfl | hb
    · exact inv b (by simp [e1, hb])
    · exact h3
    · exact inv b (by simp [e1, hb])
  · rw [e2]
    intro b hb
    simp only [List.mem_append, List.mem_singleton] at hb
    rcases hb with hb | rfl
    · exact inv b hb
    · exact hx

/-- The bins hold the processed statements, each once. -/
theorem packBins_perm (sorted : List StatementWithSize) :
    ((packBins policy sorted maxChars).map fun bin => bin.statements).flatten.Perm
      (sorted.map fun s => s.Statement) := by
  refine packBins_induction policy maxChars sorted
    (fun done bins => ((bins.map fun bin => bin.statements).flatten).Perm
      (done.map fun s => s.Statement)) (by simp) ?_
  intro done x rest bins _ inv
  rcases placeStatement_cases policy maxChars bins x with
    ⟨pre, bin, post, e1, e2, _, _⟩ | ⟨e2, _⟩
  · rw [e2]
    rw [e1] at inv
    simp only [List.map_append, List.map_cons, List.flatten_append, List.flatten_cons,
      List.map_nil, List.append_assoc, List.singleton_append] at inv ⊢
    have h1 : ((pre.map fun bin => bin.statements).flatten ++
        (bin.statements ++ x.Statement :: (post.map fun bin => bin.statements).flatten)).Perm
        (x.Statement :: ((pre.map fun bin => bin.statements).flatten ++
          (bin.statements ++ (post.map fun bin => bin.statements).flatten))) := by
      rw [← List.append_assoc, ← List.append_assoc]
      exact List.perm_middle
    exact h1.trans ((inv.cons x.Statement).trans (List.perm_append_singleton _ _).symm)
  · rw [e2]
    simp only [List.map_append, List.map_cons, List.flatten_append, List.flatten_cons,
      List.map_nil, List.flatten_nil, List.append_nil]
    exact List.Perm.append_right _ inv

/-- No bin is empty, there are no more bins than statements, and there is a
bin as soon as there is a statement. -/
theorem packBins_count (sorted : List StatementWithSize) :
    (packBins policy sorted maxChars).length ≤ sorted.length ∧
      (sorted ≠ [] → packBins policy sorted maxChars ≠ []) ∧
      ∀ bin ∈ packBins policy sorted maxChars, bin.statements ≠ [] := by
  refine packBins_induction policy maxChars sorted
    (fun done bins => bins.length ≤ done.length ∧ (done ≠ [] → bins ≠ []) ∧
      ∀ bin ∈ bins, bin.statements ≠ []) (by simp) ?_
  intro done x rest bins _ inv
  obtain ⟨i1, _, i3⟩ := inv
  rcases placeStatement_cases policy maxChars bins x with
    ⟨pre, bin, post, e1, e2, _, _⟩ | ⟨e2, _⟩
  · rw [e2]
    refine ⟨?_, by simp, ?_⟩
    · simp only [e1, List.length_append, List.length_cons] at i1 ⊢
      simp only [List.length_nil] at *
      omega
    · intro b hb
      simp only [List.mem_append, List.mem_cons] at hb
      rcases hb with hb | rfl | hb
      · exact i3 b (by simp [e1, hb])
      · simp
      · exact i3 b (by simp [e1, hb])
  · rw [e2]
    refine ⟨by simp; omega, by simp, ?_⟩
    intro b hb
    simp only [List.mem_append, List.mem_singleton] at hb
    rcases hb with hb | rfl
    · exact i3 b hb
    · simp

/-- When the whole list fits in one document, the loop keeps a single bin that
holds the processed statements in processing order. -/
theorem packBins_single (sorted : List StatementWithSize) (hne : sorted ≠ [])
    (hfit : (policySize policy (sorted.map fun s => s.Statement) : Int) ≤ maxChars) :
    ∃ size, packBins policy sorted maxChars =
      [{ statements := sorted.map fun s => s.Statement, currentSize := size }] := by
  have key := packBins_induction policy maxChars sorted
    (fun done bins => (done = [] ∧ bins = []) ∨
      (done ≠ [] ∧ ∃ size, bins =
        [{ statements := done.map fun s => s.Statement, currentSize := size }]))
    (Or.inl ⟨rfl, rfl⟩) ?_
  · rcases key with ⟨h, _⟩ | ⟨_, h⟩
    · exact absurd h hne
    · exact h
  intro done x rest bins e inv
  right
  refine ⟨by simp, ?_⟩
  rcases inv with ⟨hd, hb⟩ | ⟨hd, size, hb⟩
  · subst hd hb
    rcases placeStatement_cases policy maxChars [] x with
      ⟨pre, bin, post, e1, _, _, _⟩ | ⟨e2, _⟩
    · simp at e1
    · exact ⟨_, by simpa using e2⟩
  · have hsub : ((done.map fun s => s.Statement) ++ [x.Statement]).Sublist
        (sorted.map fun s => s.Statement) := by
      rw [e]
      simp only [List.map_append, List.map_cons]
      exact List.Sublist.append_left (List.Sublist.cons₂ _ (List.nil_sublist _)) _
    have hle := policySize_mono policy _ _ (by simp) hsub
    have hfit' : (policySize policy ((done.map fun s => s.Statement) ++ [x.Statement]) : Int)
        ≤ maxChars := le_trans (by exact_mod_cast hle) hfit
    rcases placeStatement_cases policy maxChars bins x with
      ⟨pre, bin, post, e1, e2, _, _⟩ | ⟨_, hno⟩
    · rw [hb] at e1
      cases pre with
      | nil =>
        simp only [List.nil_append, List.cons.injEq] at e1
        obtain ⟨e1, e3⟩ := e1
        subst e3
        rw [e2, ← e1]
        refine ⟨policySize policy ((done.map fun s => s.Statement) ++ [x.Statement]), ?_⟩
        simp
      | cons c pre =>
        have := congrArg List.length e1
        simp at this
    · exact absurd hfit'
        (hno { statements := done.map fun s => s.Statement, currentSize := size } (by simp [hb]))

/-- Two statements at different places of a list, one of them equal to `x`'s,
do not fit together when `x` fits with none of the others. -/
theorem pair_unfit (x w y : StatementWithSize) (m others : List StatementWithSize)
    (hperm : (w :: y :: m).Perm (x :: others))
    (hpair : ∀ z ∈ others, maxChars < (policySize policy [x.Statement, z.Statement] : Int))
    (hone : y.Statement = x.Statement ∨ w.Statement = x.Statement) :
    maxChars < (policySize policy [y.Statement, w.Statement] : Int) := by
  have hswap : ∀ s t : IAMPolicyStatement, policySize policy [s, t] = policySize policy [t, s] :=
    fun s t => policySize_perm policy _ _ (List.Perm.swap t s [])
  have hw : w = x ∨ w ∈ others := List.mem_cons.mp (hperm.subset (by simp))
  have hy : y = x ∨ y ∈ others := List.mem_cons.mp (hperm.subset (by simp))
  by_cases hyo : y ∈ others
  · have h1 := hpair y hyo
    rcases hone with h | h
    · rcases hw with rfl | hwo
      · rw [hswap]; exact h1
      · rw [h]; exact hpair w hwo
    · rw [h, hswap]; exact h1
  · have hyx : y = x := hy.resolve_right hyo
    subst hyx
    rcases hw with rfl | hwo
    · exact absurd ((List.Perm.cons_inv hperm).subset (by simp)) hyo
    · exact hpair w hwo

/-- A bin that holds a statement fitting with no other statement holds nothing else. -/
theorem packBins_isolated (sorted : List StatementWithSize) (xs : IAMPolicyStatement)
    (hunfit : ∀ l1 w l2, sorted = l1 ++ w :: l2 → ∀ y ∈ l1 ++ l2,
      (y.Statement = xs ∨ w.Statement = xs) →
        maxChars < (policySize policy [y.Statement, w.Statement] : Int)) :
    ∀ bin ∈ packBins policy sorted maxChars, xs ∈ bin.statements → bin.statements = [xs] := by
  have key := packBins_induction policy maxChars sorted
    (fun done bins =>
      (∀ b ∈ bins, b.statements ≠ [] ∧ ∀ s ∈ b.statements, ∃ y ∈ done, y.Statement = s) ∧
      (∀ b ∈ bins, xs ∈ b.statements → b.statements = [xs]))
    (by simp) ?_
  · exact key.2
  intro done w rest bins e inv
  obtain ⟨i1, i2⟩ := inv
  have hR : ∀ y ∈ done, (y.Statement = xs ∨ w.Statement = xs) →
      maxChars < (policySize policy [y.Statement, w.Statement] : Int) :=
    fun y hy => hunfit done w rest e y (by simp [hy])
  rcases placeStatement_cases policy maxChars bins w with
    ⟨pre, bin, post, e1, e2, hfit, _⟩ | ⟨e2, _⟩
  · have hbin : bin ∈ bins := by simp [e1]
    rw [e2]
    constructor
    · intro b hb
      simp only [List.mem_append, List.mem_cons] at hb
      have old : ∀ b ∈ bins, b.statements ≠ [] ∧
          ∀ s ∈ b.statements, ∃ y ∈ done ++ [w], y.Statement = s := by
        intro b hb
        refine ⟨(i1 b hb).1, fun s hs => ?_⟩
        obtain ⟨y, hy, rfl⟩ := (i1 b hb).2 s hs
        exact ⟨y, by simp [hy], rfl⟩
      rcases hb with hb | rfl | hb
      · exact old b (by simp [e1, hb])
      · refine ⟨by simp, fun s hs => ?_⟩
        simp only [List.mem_append, List.mem_singleton] at hs
        rcases hs with hs | rfl
        · exact (old bin hbin).2 s hs
        · exact ⟨w, by simp, rfl⟩
      · exact old b (by simp [e1, hb])
    · intro b hb hx
      simp only [List.mem_append, List.mem_cons] at hb
      rcases hb with hb | rfl | hb
      · exact i2 b (by simp [e1, hb]) hx
      · exfalso
        simp only [List.mem_append, List.mem_singleton] at hx
        obtain ⟨hne, hfrom⟩ := i1 bin hbin
        rcases hx with hx | hx
        · have hsingle := i2 bin hbin hx
          obtain ⟨y, hy, hys⟩ := hfrom xs hx
          have := hR y hy (Or.inl hys)
          rw [hsingle, ← hys] at hfit
          simp only [List.singleton_append] at hfit
          omega
        · cases hst : bin.statements with
          | nil => exact hne hst
          | cons s tail =>
            obtain ⟨y, hy, hys⟩ := hfrom s (by simp [hst])
            have h1 := hR y hy (Or.inr hx.symm)
            have hsub : [y.Statement, w.Statement].Sublist (bin.statements ++ [w.Statement]) := by
              rw [hst, hys]
              simp only [List.cons_append]
              exact List.Sublist.cons₂ _ (List.sublist_append_right tail [w.Statement])
            have h2 := policySize_mono policy _ _ (by simp) hsub
            have h3 : (policySize policy [y.Statement, w.Statement] : Int) ≤
                policySize policy (bin.statements ++ [w.Statement]) := by exact_mod_cast h2
            omega
      · exact i2 b (by simp [e1, hb]) hx
  · rw [e2]
    constructor
    · intro b hb
      simp only [List.mem_append, List.mem_singleton] at hb
      rcases hb with hb | rfl
      · refine ⟨(i1 b hb).1, fun s hs => ?_⟩
        obtain ⟨y, hy, rfl⟩ := (i1 b hb).2 s hs
        exact ⟨y, by simp [hy], rfl⟩
      · exact ⟨by simp, fun s hs => ⟨w, by simp, (List.mem_singleton.mp hs).symm⟩⟩
    · intro b hb hx
      simp only [List.mem_append, List.mem_singleton] at hb
      rcases hb with hb | rfl
      · exact i2 b hb hx
      · simp only [List.mem_singleton] at hx
        simp [hx]

end FirstFit

/-! ## The packing engine: what `packStatements` guarantees -/

section Engine

set_option maxRecDepth 100000

/-- C1, limit respected: when every input statement, serialized alone with the
envelope, is within the limit, every policy `packStatements` returns
serializes to at most the limit.  The `Size` fields attached by the caller
play no part: the hypothesis and the conclusion are about serialized
documents only. -/
theorem packStatements_limit_respected (originalPolicy : IAMPolicy)
    (statements : List StatementWithSize) (maxChars : Int)
    (hsolo : ∀ s ∈ statements, (policySize originalPolicy [s.Statement] : Int) ≤ maxChars) :
    ∀ p ∈ packStatements originalPolicy statements maxChars, (marshalLen p : Int) ≤ maxChars := by
  intro p hp
  obtain ⟨bin, hbin, rfl⟩ := (mem_packStatements originalPolicy maxChars statements p).mp hp
  exact packBins_within_limit originalPolicy maxChars (sortedStatements statements)
    (fun s hs => hsolo s ((sortedStatements_perm statements).subset hs)) bin hbin

/-- C1 on the input of `TestPackStatements`: three statements, limit 500. -/
theorem packStatements_limit_respected_witness :
    (∀ s ∈ withSoloSizes unitTestPolicy, (policySize unitTestPolicy [s.Statement] : Int) ≤ 500) ∧
    ∀ p ∈ packStatements unitTestPolicy (withSoloSizes unitTestPolicy) 500,
      (marshalLen p : Int) ≤ 500 :=
  ⟨by decide,
    packStatements_limit_respected unitTestPolicy (withSoloSizes unitTestPolicy) 500 (by decide)⟩

/-- The returned statement lists, put end to end, are a permutation of the
input statements. -/
theorem packStatements_flatten_perm (originalPolicy : IAMPolicy)
    (statements : List StatementWithSize) (maxChars : Int) :
    ((packStatements originalPolicy statements maxChars).map fun p => p.Statement).flatten.Perm
        (statements.map fun s => s.Statement) ∧
      ((packStatements originalPolicy statements maxChars).map fun p => p.Statement.length).sum =
        statements.length := by
  have hmap : ((packStatements originalPolicy statements maxChars).map fun p => p.Statement) =
      (packBins originalPolicy (sortedStatements statements) maxChars).map
        fun bin => bin.statements := by
    simp [packStatements, List.map_map, Function.comp_def]
  have hperm : ((packStatements originalPolicy statements maxChars).map
      fun p => p.Statement).flatten.Perm (statements.map fun s => s.Statement) := by
    rw [hmap]
    exact (packBins_perm originalPolicy maxChars (sortedStatements statements)).trans
      ((sortedStatements_perm statements).map _)
  refine ⟨hperm, ?_⟩
  have hlen := hperm.length_eq
  rw [List.length_flatten, List.map_map, List.length_map] at hlen
  exact hlen

/-- C2, coverage: the statement lists of the returned policies, put end to
end, are a permutation of the input statements, so every input statement is
in exactly one returned policy, unchanged, and the statement counts add up to
the input count.  No assumption on sizes or on the limit. -/
theorem packStatements_coverage (originalPolicy : IAMPolicy)
    (statements : List StatementWithSize) (maxChars : Int) :
    ((packStatements originalPolicy statements maxChars).map fun p => p.Statement).flatten.Perm
        (statements.map fun s => s.Statement) ∧
      ((packStatements originalPolicy statements maxChars).map fun p => p.Statement.length).sum =
        statements.length :=
  packStatements_flatten_perm originalPolicy statements maxChars

/-- C5, no over-splitting: when the one document made of the envelope and all
the input statements is within the limit, `packStatements` returns exactly one
policy, and it holds all the input statements. -/
theorem packStatements_single_policy (originalPolicy : IAMPolicy)
    (statements : List StatementWithSize) (maxChars : Int) (hne : statements ≠ [])
    (hfit : (policySize originalPolicy (statements.map fun s => s.Statement) : Int) ≤ maxChars) :
    ∃ p, packStatements originalPolicy statements maxChars = [p] ∧
      p.Statement.Perm (statements.map fun s => s.Statement) := by
  have hperm := sortedStatements_perm statements
  have hne' : sortedStatements statements ≠ [] := by
    intro e
    rw [e] at hperm
    exact hne (List.nil_perm.mp hperm)
  have hfit' : (policySize originalPolicy ((sortedStatements statements).map fun s => s.Statement)
      : Int) ≤ maxChars := by
    rw [policySize_perm originalPolicy _ _ (hperm.map fun s => s.Statement)]
    exact hfit
  obtain ⟨size, hb⟩ := packBins_single originalPolicy maxChars _ hne' hfit'
  refine ⟨{ Version := originalPolicy.Version
            Statement := (sortedStatements statements).map fun s => s.Statement
            Id := originalPolicy.Id }, ?_, hperm.map _⟩
  simp [packStatements, hb]

/-- C5 on the input of `TestPackStatementsWithLargeLimit`: one statement,
limit 10000. -/
theorem packStatements_single_policy_witness :
    (withSoloSizes largeLimitPolicy ≠ [] ∧
      (policySize largeLimitPolicy ((withSoloSizes largeLimitPolicy).map fun s => s.Statement)
        : Int) ≤ 10000) ∧
    ∃ p, packStatements largeLimitPolicy (withSoloSizes largeLimitPolicy) 10000 = [p] ∧
      p.Statement.Perm ((withSoloSizes largeLimitPolicy).map fun s => s.Statement) :=
  ⟨⟨by simp [withSoloSizes, largeLimitPolicy], by decide⟩,
    packStatements_single_policy largeLimitPolicy (withSoloSizes largeLimitPolicy) 10000
      (by simp [withSoloSizes, largeLimitPolicy]) (by decide)⟩

/-- C8, group count bounds: a non-empty input of `n` statements gives between
one and `n` policies, and no returned policy is empty. -/
theorem packStatements_group_count (originalPolicy : IAMPolicy)
    (statements : List StatementWithSize) (maxChars : Int) (hne : statements ≠ []) :
    1 ≤ (packStatements originalPolicy statements maxChars).length ∧
      (packStatements originalPolicy statements maxChars).length ≤ statements.length ∧
      ∀ p ∈ packStatements originalPolicy statements maxChars, 1 ≤ p.Statement.length := by
  have hperm := sortedStatements_perm statements
  have hne' : sortedStatements statements ≠ [] := by
    intro e
    rw [e] at hperm
    exact hne (List.nil_perm.mp hperm)
  obtain ⟨h1, h2, h3⟩ := packBins_count originalPolicy maxChars (sortedStatements statements)
  have hlen : (packStatements originalPolicy statements maxChars).length =
      (packBins originalPolicy (sortedStatements statements) maxChars).length := by
    simp [packStatements]
  refine ⟨?_, ?_, ?_⟩
  · rw [hlen]
    exact List.length_pos.mpr (h2 hne')
  · rw [hlen, ← hperm.length_eq]
    exact h1
  · intro p hp
    obtain ⟨bin, hbin, rfl⟩ := (mem_packStatements originalPolicy maxChars statements p).mp hp
    exact List.length_pos.mpr (h3 bin hbin)

/-- C8 on the input of `TestPackStatements`. -/
theorem packStatements_group_count_witness :
    withSoloSizes unitTestPolicy ≠ [] ∧
    (1 ≤ (packStatements unitTestPolicy (withSoloSizes unitTestPolicy) 500).length ∧
      (packStatements unitTestPolicy (withSoloSizes unitTestPolicy) 500).length ≤
        (withSoloSizes unitTestPolicy).length ∧
      ∀ p ∈ packStatements unitTestPolicy (withSoloSizes unitTestPolicy) 500,
        1 ≤ p.Statement.length) :=
  ⟨by simp [withSoloSizes, unitTestPolicy],
    packStatements_group_count unitTestPolicy (withSoloSizes unitTestPolicy) 500
      (by simp [withSoloSizes, unitTestPolicy])⟩

/-- In the processing order, two statements at different places, one of them
equal to `x`'s, do not fit together when `x` fits with no other input statement. -/
theorem sorted_unfit (originalPolicy : IAMPolicy) (statements : List StatementWithSize)
    (maxChars : Int) (x : StatementWithSize) (others : List StatementWithSize)
    (hperm : statements.Perm (x :: others))
    (hpair : ∀ y ∈ others,
      maxChars < (policySize originalPolicy [x.Statement, y.Statement] : Int)) :
    ∀ l1 w l2, sortedStatements statements = l1 ++ w :: l2 → ∀ y ∈ l1 ++ l2,
      (y.Statement = x.Statement ∨ w.Statement = x.Statement) →
        maxChars < (policySize originalPolicy [y.Statement, w.Statement] : Int) := by
  intro l1 w l2 e y hy hone
  obtain ⟨a, b, hab⟩ := List.append_of_mem hy
  have h1 : (w :: y :: (a ++ b)).Perm (x :: others) := by
    have h2 : (w :: y :: (a ++ b)).Perm (w :: (l1 ++ l2)) := by
      rw [hab]
      exact (List.perm_middle.symm).cons w
    have h3 : (w :: (l1 ++ l2)).Perm (sortedStatements statements) := by
      rw [e]
      exact List.perm_middle.symm
    exact ((h2.trans h3).trans (sortedStatements_perm statements)).trans hperm
  exact pair_unfit originalPolicy maxChars x w y (a ++ b) others h1 hpair hone

/-- A statement that fits with no other input statement is alone in its policy. -/
theorem packStatements_isolated (originalPolicy : IAMPolicy)
    (statements : List StatementWithSize) (maxChars : Int) (x : StatementWithSize)
    (others : List StatementWithSize) (hperm : statements.Perm (x :: others))
    (hpair : ∀ y ∈ others,
      maxChars < (policySize originalPolicy [x.Statement, y.Statement] : Int)) :
    ∀ p ∈ packStatements originalPolicy statements maxChars,
      x.Statement ∈ p.Statement → p.Statement = [x.Statement] := by
  intro p hp hx
  obtain ⟨bin, hbin, rfl⟩ := (mem_packStatements originalPolicy maxChars statements p).mp hp
  exact packBins_isolated originalPolicy maxChars (sortedStatements statements) x.Statement
    (sorted_unfit originalPolicy statements maxChars x others hperm hpair) bin hbin hx

/-- When no two input statements fit together, every policy has one statement
and there are as many policies as statements. -/
theorem packStatements_all_isolated (originalPolicy : IAMPolicy)
    (statements : List StatementWithSize) (maxChars : Int)
    (hall : ∀ x others, statements.Perm (x :: others) →
      ∀ y ∈ others, maxChars < (policySize originalPolicy [x.Statement, y.Statement] : Int)) :
    (packStatements originalPolicy statements maxChars).length = statements.length ∧
      ∀ p ∈ packStatements originalPolicy statements maxChars, p.Statement.length = 1 := by
  have hcov := packStatements_flatten_perm originalPolicy statements maxChars
  have hone : ∀ p ∈ packStatements originalPolicy statements maxChars,
      p.Statement.length = 1 := by
    intro p hp
    obtain ⟨bin, hbin, rfl⟩ := (mem_packStatements originalPolicy maxChars statements p).mp hp
    have hne := (packBins_count originalPolicy maxChars (sortedStatements statements)).2.2 bin hbin
    cases hst : bin.statements with
    | nil => exact absurd hst hne
    | cons s tail =>
      have hs : s ∈ ((packStatements originalPolicy statements maxChars).map
          fun p => p.Statement).flatten := by
        simp only [List.mem_flatten, List.mem_map]
        exact ⟨bin.statements, ⟨_, hp, rfl⟩, by simp [hst]⟩
      have hs' := hcov.1.subset hs
      simp only [List.mem_map] at hs'
      obtain ⟨x, hx, rfl⟩ := hs'
      obtain ⟨a, b, hab⟩ := List.append_of_mem hx
      have hperm : statements.Perm (x :: (a ++ b)) := by
        rw [hab]
        exact List.perm_middle
      have := packStatements_isolated originalPolicy statements maxChars x (a ++ b) hperm
        (hall x (a ++ b) hperm) _ hp (by simp [hst])
      simp only at this
      rw [← hst, this]
      rfl
  refine ⟨?_, hone⟩
  have hsum := hcov.2
  have hconst : ((packStatements originalPolicy statements maxChars).map
      fun p => p.Statement.length) =
      (packStatements originalPolicy statements maxChars).map fun _ => 1 :=
    List.map_congr_left hone
  rw [hconst] at hsum
  simpa using hsum

/-- C7, isolation of unpairable statements: an input statement `x` that, with
the envelope and any one other input statement, serializes to more than the
limit is the only statement of the policy it ends up in.  In particular, when
this holds of every input statement, there are as many policies as
statements, each with one statement. -/
theorem packStatements_isolates_unpairable (originalPolicy : IAMPolicy)
    (statements : List StatementWithSize) (maxChars : Int) :
    (∀ x others, statements.Perm (x :: others) →
      (∀ y ∈ others, maxChars < (policySize originalPolicy [x.Statement, y.Statement] : Int)) →
      ∀ p ∈ packStatements originalPolicy statements maxChars,
        x.Statement ∈ p.Statement → p.Statement = [x.Statement]) ∧
    ((∀ x others, statements.Perm (x :: others) →
        ∀ y ∈ others, maxChars < (policySize originalPolicy [x.Statement, y.Statement] : Int)) →
      (packStatements originalPolicy statements maxChars).length = statements.length ∧
      ∀ p ∈ packStatements originalPolicy statements maxChars, p.Statement.length = 1) :=
  ⟨packStatements_isolated originalPolicy statements maxChars,
    packStatements_all_isolated originalPolicy statements maxChars⟩

/-- C7 on the five statements of the large acceptance configuration with
`max_chars = 500`: no two of them fit together, so there are five policies of
one statement each, and `Read` saves five split policies. -/
theorem packStatements_isolates_unpairable_witness :
    (withSoloSizes acceptanceLargePolicy).length = 5 ∧
    ((packStatements acceptanceLargePolicy (withSoloSizes acceptanceLargePolicy) 500).length =
        (withSoloSizes acceptanceLargePolicy).length ∧
      ∀ p ∈ packStatements acceptanceLargePolicy (withSoloSizes acceptanceLargePolicy) 500,
        p.Statement.length = 1) ∧
    (Read (unmarshalTo acceptanceLargePolicy) acceptanceLargeConfig).State.map
      (fun st => st.SplitPolicies.length) = some 5 := by
  have hall : ∀ x ∈ withSoloSizes acceptanceLargePolicy,
      ∀ y ∈ withSoloSizes acceptanceLargePolicy,
        (500 : Int) < (policySize acceptanceLargePolicy [x.Statement, y.Statement] : Int) := by
    decide
  exact ⟨rfl, (packStatements_isolates_unpairable acceptanceLargePolicy
    (withSoloSizes acceptanceLargePolicy) 500).2
    (fun x others hperm y hy =>
      hall x (hperm.symm.subset (by simp)) y (hperm.symm.subset (by simp [hy]))), by decide⟩

/-- C4 as the code has it: `packStatements` has no error result.  On an input
with a statement whose solo serialized size exceeds the limit it returns
policies all the same, one of them holding that statement alone and
serializing to more than the limit. -/
theorem packStatements_oversized_alone (originalPolicy : IAMPolicy)
    (statements : List StatementWithSize) (maxChars : Int) (x : StatementWithSize)
    (hx : x ∈ statements)
    (hbig : maxChars < (policySize originalPolicy [x.Statement] : Int)) :
    ∃ p ∈ packStatements originalPolicy statements maxChars,
      p.Statement = [x.Statement] ∧ maxChars < (marshalLen p : Int) := by
  obtain ⟨a, b, hab⟩ := List.append_of_mem hx
  have hperm : statements.Perm (x :: (a ++ b)) := by
    rw [hab]
    exact List.perm_middle
  have hpair : ∀ y ∈ a ++ b,
      maxChars < (policySize originalPolicy [x.Statement, y.Statement] : Int) := by
    intro y _
    have h1 := policySize_mono originalPolicy [x.Statement] [x.Statement, y.Statement]
      (by simp) (List.Sublist.cons₂ _ (List.nil_sublist _))
    have h2 : (policySize originalPolicy [x.Statement] : Int) ≤
        policySize originalPolicy [x.Statement, y.Statement] := by exact_mod_cast h1
    omega
  have hcov := (packStatements_flatten_perm originalPolicy statements maxChars).1
  have hmem : x.Statement ∈ ((packStatements originalPolicy statements maxChars).map
      fun p => p.Statement).flatten :=
    hcov.symm.subset (List.mem_map.mpr ⟨x, hx, rfl⟩)
  simp only [List.mem_flatten, List.mem_map] at hmem
  obtain ⟨l, ⟨p, hp, rfl⟩, hxl⟩ := hmem
  have hsingle := packStatements_isolated originalPolicy statements maxChars
    x (a ++ b) hperm hpair p hp hxl
  refine ⟨p, hp, hsingle, ?_⟩
  obtain ⟨bin, _, rfl⟩ := (mem_packStatements originalPolicy maxChars statements p).mp hp
  simp only at hsingle
  simpa [policySize, hsingle] using hbig

/-- C4 (amended) on the policy of `TestPackStatements` with limit 100: its
third statement measures 122 alone. -/
theorem packStatements_oversized_alone_witness :
    (∃ x ∈ withSoloSizes unitTestPolicy,
      (100 : Int) < (policySize unitTestPolicy [x.Statement] : Int)) ∧
    ∃ p ∈ packStatements unitTestPolicy (withSoloSizes unitTestPolicy) 100,
      p.Statement.length = 1 ∧ (100 : Int) < (marshalLen p : Int) := by
  have hx : (⟨allowStatement none (.array [.string "s3:DeleteObject"])
      (.string "arn:aws:s3:::bucket3/*"), 122⟩ : StatementWithSize) ∈
      withSoloSizes unitTestPolicy := by
    simp only [withSoloSizes, unitTestPolicy, List.map_cons, List.map_nil, List.mem_cons]
    right; right; left
    congr 1
  obtain ⟨p, hp, h1, h2⟩ := packStatements_oversized_alone unitTestPolicy
    (withSoloSizes unitTestPolicy) 100 _ hx (by decide)
  exact ⟨⟨_, hx, by decide⟩, p, hp, by simp [h1], h2⟩

/-- C4 as stated fails: on the policy of `TestPackStatements` with limit 100
every statement is too large alone, and `packStatements` returns three
policies, each over the limit, instead of failing. -/
theorem packStatements_not_defensive :
    (∃ s ∈ withSoloSizes unitTestPolicy,
      (100 : Int) < (policySize unitTestPolicy [s.Statement] : Int)) ∧
    (packStatements unitTestPolicy (withSoloSizes unitTestPolicy) 100).length = 3 ∧
    ∀ p ∈ packStatements unitTestPolicy (withSoloSizes unitTestPolicy) 100,
      (100 : Int) < (marshalLen p : Int) := by
  decide

end Engine
/-! ## The `Read` pipeline -/

section ReadPipeline

set_option maxRecDepth 100000

variable (unmarshal : String → Except String IAMPolicy)

/-- The first loop of `Read` never fails and attaches to each statement its
solo serialized size. -/
theorem measureStatements_eq (policy : IAMPolicy) :
    ∀ (ss : List IAMPolicyStatement) (i : Nat),
      measureStatements policy i ss =
        .ok (ss.map fun stmt => { Statement := stmt, Size := (policySize policy [stmt] : Int) }) := by
  intro ss
  induction ss with
  | nil => intro i; rfl
  | cons s rest ih =>
    intro i
    simp only [measureStatements, jsonMarshal, ih (i + 1), List.map_cons]
    rfl

/-- The last loop of `Read` never fails. -/
theorem marshalSplitPolicies_eq :
    ∀ (ps : List IAMPolicy) (i : Nat), marshalSplitPolicies i ps = .ok (ps.map encodePolicy) := by
  intro ps
  induction ps with
  | nil => intro i; rfl
  | cons p rest ih =>
    intro i
    simp only [marshalSplitPolicies, jsonMarshal, ih (i + 1), List.map_cons]

/-- The second loop of `Read` finds nothing exactly when every size is within
the limit. -/
theorem findTooLarge_eq_none (maxChars : Int) :
    ∀ (l : List StatementWithSize) (i : Nat),
      findTooLarge maxChars i l = none ↔ ∀ s ∈ l, s.Size ≤ maxChars := by
  intro l
  induction l with
  | nil => intro i; simp [findTooLarge]
  | cons s rest ih =>
    intro i
    unfold findTooLarge
    split
    · rename_i h
      simp only [List.mem_cons, forall_eq_or_imp]
      constructor
      · intro h'; exact absurd h' (by simp)
      · intro h'; omega
    · rename_i h
      rw [ih (i + 1)]
      simp only [List.mem_cons, forall_eq_or_imp]
      constructor
      · intro h'; exact ⟨by omega, h'⟩
      · intro h'; exact h'.2

/-- What `Read` does with a well-formed document and a positive limit: it
measures every statement, then either reports the first statement that is too
large or packs and saves the split policies. -/
theorem Read_wellformed (data : IamPolicySplitterDataSourceModel) (policy : IAMPolicy)
    (hpos : 0 < effectiveMaxChars data) (hparse : unmarshal data.PolicyJson = .ok policy)
    (hversion : policy.Version ≠ "") (hstmt : policy.Statement ≠ []) :
    Read unmarshal data =
      match findTooLarge (effectiveMaxChars data) 0 (withSoloSizes policy) with
      | some (i, size) =>
        { Diagnostics := [.statementTooLarge i size (effectiveMaxChars data)], State := none
          Calls := .unmarshal :: measureCalls policy.Statement.length }
      | none =>
        { Diagnostics := []
          State := some
            { SplitPolicies :=
                (packStatements policy (withSoloSizes policy) (effectiveMaxChars data)).map
                  encodePolicy
              Id := "split-" ++ toString policy.Statement.length ++ "-" ++
                toString (effectiveMaxChars data) }
          Calls := (.unmarshal :: measureCalls policy.Statement.length) ++ .packStatements ::
            splitCalls
              (packStatements policy (withSoloSizes policy) (effectiveMaxChars data)).length } := by
  have hlen : ¬ policy.Statement.length = 0 := by
    intro h; exact hstmt (List.length_eq_zero.mp h)
  unfold Read
  simp only [not_le.mpr hpos, if_false, hparse, hversion, hlen, measureStatements_eq,
    marshalSplitPolicies_eq]
  rfl

theorem mem_withSoloSizes (policy : IAMPolicy) (s : StatementWithSize) :
    s ∈ withSoloSizes policy ↔
      ∃ stmt ∈ policy.Statement,
        s = { Statement := stmt, Size := (policySize policy [stmt] : Int) } := by
  simp only [withSoloSizes, List.mem_map]
  constructor
  · rintro ⟨stmt, h, rfl⟩; exact ⟨stmt, h, rfl⟩
  · rintro ⟨stmt, h, rfl⟩; exact ⟨stmt, h, rfl⟩

/-- C3, oversized element rejection: for a parsed policy with a non-empty
`Version` and at least one statement, and a positive limit, `Read` fails with
"Statement Too Large" exactly when some statement, serialized alone with the
envelope, is strictly larger than the limit.  When it does, no state is
set and `packStatements` is not called; when every solo size is at most the
limit (equal included), `Read` adds no error and sets the state. -/
theorem Read_statement_too_large_iff (data : IamPolicySplitterDataSourceModel)
    (policy : IAMPolicy) (hpos : 0 < effectiveMaxChars data)
    (hparse : unmarshal data.PolicyJson = .ok policy)
    (hversion : policy.Version ≠ "") (hstmt : policy.Statement ≠ []) :
    ((∃ e ∈ (Read unmarshal data).Diagnostics, e.summary = "Statement Too Large") ↔
        ∃ s ∈ policy.Statement, effectiveMaxChars data < (policySize policy [s] : Int)) ∧
    ((∃ s ∈ policy.Statement, effectiveMaxChars data < (policySize policy [s] : Int)) →
        (Read unmarshal data).State = none ∧
          Call.packStatements ∉ (Read unmarshal data).Calls) ∧
    ((∀ s ∈ policy.Statement, (policySize policy [s] : Int) ≤ effectiveMaxChars data) →
        (Read unmarshal data).Diagnostics = [] ∧ (Read unmarshal data).State.isSome = true) := by
  have hnone := findTooLarge_eq_none (effectiveMaxChars data) (withSoloSizes policy) 0
  have hall : (∀ s ∈ withSoloSizes policy, s.Size ≤ effectiveMaxChars data) ↔
      ∀ s ∈ policy.Statement, (policySize policy [s] : Int) ≤ effectiveMaxChars data := by
    constructor
    · intro h s hs
      exact h _ ((mem_withSoloSizes policy _).mpr ⟨s, hs, rfl⟩)
    · intro h s hs
      obtain ⟨stmt, hstmt', rfl⟩ := (mem_withSoloSizes policy s).mp hs
      exact h stmt hstmt'
  rw [Read_wellformed unmarshal data policy hpos hparse hversion hstmt]
  cases hf : findTooLarge (effectiveMaxChars data) 0 (withSoloSizes policy) with
  | none =>
    have hle := hall.mp (hnone.mp hf)
    refine ⟨?_, ?_, ?_⟩
    · constructor
      · rintro ⟨e, he, _⟩
        simp at he
      · rintro ⟨s, hs, hlt⟩
        have := hle s hs
        omega
    · rintro ⟨s, hs, hlt⟩
      have := hle s hs
      omega
    · intro _
      exact ⟨rfl, rfl⟩
  | some r =>
    obtain ⟨i, size⟩ := r
    have hex : ∃ s ∈ policy.Statement, effectiveMaxChars data < (policySize policy [s] : Int) := by
      by_contra hcon
      push_neg at hcon
      have := hnone.mpr (hall.mpr hcon)
      rw [hf] at this
      exact absurd this (by simp)
    refine ⟨?_, ?_, ?_⟩
    · constructor
      · intro _; exact hex
      · intro _
        exact ⟨_, List.mem_singleton.mpr rfl, rfl⟩
    · intro _
      refine ⟨rfl, ?_⟩
      simp [measureCalls]
    · intro hle
      obtain ⟨s, hs, hlt⟩ := hex
      have := hle s hs
      omega

/-- C3 on the large acceptance configuration: the five statements measure 335
to 444 characters alone, the limit is 500. -/
theorem Read_statement_too_large_iff_witness :
    (0 < effectiveMaxChars acceptanceLargeConfig ∧
      unmarshalTo acceptanceLargePolicy acceptanceLargeConfig.PolicyJson = .ok acceptanceLargePolicy ∧
      acceptanceLargePolicy.Version ≠ "" ∧ acceptanceLargePolicy.Statement ≠ []) ∧
    (((∃ e ∈ (Read (unmarshalTo acceptanceLargePolicy) acceptanceLargeConfig).Diagnostics,
          e.summary = "Statement Too Large") ↔
        ∃ s ∈ acceptanceLargePolicy.Statement,
          effectiveMaxChars acceptanceLargeConfig < (policySize acceptanceLargePolicy [s] : Int)) ∧
    ((∃ s ∈ acceptanceLargePolicy.Statement,
          effectiveMaxChars acceptanceLargeConfig < (policySize acceptanceLargePolicy [s] : Int)) →
        (Read (unmarshalTo acceptanceLargePolicy) acceptanceLargeConfig).State = none ∧
          Call.packStatements ∉ (Read (unmarshalTo acceptanceLargePolicy) acceptanceLargeConfig).Calls) ∧
    ((∀ s ∈ acceptanceLargePolicy.Statement,
          (policySize acceptanceLargePolicy [s] : Int) ≤ effectiveMaxChars acceptanceLargeConfig) →
        (Read (unmarshalTo acceptanceLargePolicy) acceptanceLargeConfig).Diagnostics = [] ∧
          (Read (unmarshalTo acceptanceLargePolicy) acceptanceLargeConfig).State.isSome = true)) :=
  ⟨⟨by decide, by rfl, by decide, by simp [acceptanceLargePolicy]⟩,
    Read_statement_too_large_iff (unmarshalTo acceptanceLargePolicy) acceptanceLargeConfig
      acceptanceLargePolicy (by decide) (by rfl) (by decide) (by simp [acceptanceLargePolicy])⟩

/-- C9, non-positive limit rejection: when the effective `max_chars` is zero
or negative, `Read` fails with "Invalid Configuration" whatever the policy
text is; it sets no state and makes no call, so nothing is parsed, measured
or packed. -/
theorem Read_rejects_nonpositive_limit (data : IamPolicySplitterDataSourceModel)
    (hlimit : effectiveMaxChars data ≤ 0) :
    Read unmarshal data =
        { Diagnostics := [.invalidConfiguration], State := none, Calls := [] } ∧
      ReadError.invalidConfiguration.summary = "Invalid Configuration" := by
  refine ⟨?_, rfl⟩
  unfold Read
  simp only [hlimit, if_true]

/-- C9 on `max_chars = 0` with a text that is not JSON. -/
theorem Read_rejects_nonpositive_limit_witness :
    effectiveMaxChars { PolicyJson := "not json", MaxChars := .value 0 } ≤ 0 ∧
    (Read unmarshalFails { PolicyJson := "not json", MaxChars := .value 0 } =
        { Diagnostics := [.invalidConfiguration], State := none, Calls := [] } ∧
      ReadError.invalidConfiguration.summary = "Invalid Configuration") :=
  ⟨by decide,
    Read_rejects_nonpositive_limit unmarshalFails
      { PolicyJson := "not json", MaxChars := .value 0 } (by decide)⟩

/-- C10, malformed document rejection: with a positive limit and a policy text
that parses, `Read` fails with "Invalid Policy" exactly when the `Version` is
empty or there is no statement; it then sets no state and its only call is
the parse, so `packStatements` is not invoked. -/
theorem Read_invalid_policy_iff (data : IamPolicySplitterDataSourceModel) (policy : IAMPolicy)
    (hpos : 0 < effectiveMaxChars data) (hparse : unmarshal data.PolicyJson = .ok policy) :
    ((∃ e ∈ (Read unmarshal data).Diagnostics, e.summary = "Invalid Policy") ↔
        (policy.Version = "" ∨ policy.Statement = [])) ∧
    ((policy.Version = "" ∨ policy.Statement = []) →
        (Read unmarshal data).State = none ∧ (Read unmarshal data).Calls = [.unmarshal]) := by
  by_cases hversion : policy.Version = ""
  · have hr : Read unmarshal data =
        { Diagnostics := [.missingVersion], State := none, Calls := [.unmarshal] } := by
      unfold Read
      simp only [not_le.mpr hpos, if_false, hparse, hversion, if_true]
    rw [hr]
    exact ⟨⟨fun _ => Or.inl hversion, fun _ => ⟨_, List.mem_singleton.mpr rfl, rfl⟩⟩,
      fun _ => ⟨rfl, rfl⟩⟩
  · by_cases hstmt : policy.Statement = []
    · have hr : Read unmarshal data =
          { Diagnostics := [.missingStatement], State := none, Calls := [.unmarshal] } := by
        unfold Read
        simp only [not_le.mpr hpos, if_false, hparse, hversion, hstmt, List.length_nil, if_true]
      rw [hr]
      exact ⟨⟨fun _ => Or.inr hstmt, fun _ => ⟨_, List.mem_singleton.mpr rfl, rfl⟩⟩,
        fun _ => ⟨rfl, rfl⟩⟩
    · rw [Read_wellformed unmarshal data policy hpos hparse hversion hstmt]
      refine ⟨⟨?_, fun h => absurd h (by simp [hversion, hstmt])⟩,
        fun h => absurd h (by simp [hversion, hstmt])⟩
      rintro ⟨e, he, hs⟩
      exfalso
      cases hf : findTooLarge (effectiveMaxChars data) 0 (withSoloSizes policy) with
      | none =>
        rw [hf] at he
        simp at he
      | some r =>
        rw [hf] at he
        simp only [List.mem_singleton] at he
        subst he
        simp [ReadError.summary] at hs

/-- C10 on the acceptance configuration. -/
theorem Read_invalid_policy_iff_witness :
    (0 < effectiveMaxChars acceptanceConfig ∧
      unmarshalTo acceptancePolicy acceptanceConfig.PolicyJson = .ok acceptancePolicy) ∧
    (((∃ e ∈ (Read (unmarshalTo acceptancePolicy) acceptanceConfig).Diagnostics,
          e.summary = "Invalid Policy") ↔
        (acceptancePolicy.Version = "" ∨ acceptancePolicy.Statement = [])) ∧
    ((acceptancePolicy.Version = "" ∨ acceptancePolicy.Statement = []) →
        (Read (unmarshalTo acceptancePolicy) acceptanceConfig).State = none ∧
          (Read (unmarshalTo acceptancePolicy) acceptanceConfig).Calls = [.unmarshal])) :=
  ⟨⟨by decide, by rfl⟩,
    Read_invalid_policy_iff (unmarshalTo acceptancePolicy) acceptanceConfig acceptancePolicy
      (by decide) (by rfl)⟩

end ReadPipeline

/-! ## The processing order -/

section ProcessingOrder

set_option maxRecDepth 100000

/-- C6 as the code has it: the order in which `packStatements` processes the
statements is a permutation of the input with the sizes in non-increasing
order.  `sort.Slice` is not a stable sort: statements of equal `Size` keep
their input order when there are at most twelve statements (the sort is then
an insertion sort), and no such promise is made beyond that. -/
theorem sortedStatements_sorted (statements : List StatementWithSize) :
    (sortedStatements statements).Perm statements ∧
      ((sortedStatements statements).map fun s => s.Size).Pairwise (fun x y => y ≤ x) ∧
      (statements.length ≤ 12 → ∀ size : Int,
        (sortedStatements statements).filter (fun s => decide (s.Size = size)) =
          statements.filter (fun s => decide (s.Size = size))) :=
  ⟨sortSlice_perm sizeGreater statements,
    sortSlice_pairwise StatementWithSize.Size sizeGreater (fun _ _ => rfl) statements,
    fun hlen size =>
      sortSlice_stable_of_short StatementWithSize.Size sizeGreater (fun _ _ => rfl) statements
        hlen size⟩

/-- C6 as stated fails on thirteen statements, the first of solo size 103 and
the twelve others of solo size 104: the seventh statement is processed first,
before the second to sixth, which have the same size and come before it in
the input; with a limit that takes them all, the one returned policy lists
them in that order. -/
theorem sortedStatements_not_stable :
    ((withSoloSizes thirteenPolicy).map fun s => s.Size) =
        [103, 104, 104, 104, 104, 104, 104, 104, 104, 104, 104, 104, 104] ∧
    ((withSoloSizes thirteenPolicy).map fun s => s.Statement.Sid) =
        [some "S00", some "S01", some "S02", some "S03", some "S04", some "S05", some "S06",
          some "S07", some "S08", some "S09", some "S10", some "S11", some "S12"] ∧
    ((sortedStatements (withSoloSizes thirteenPolicy)).map fun s => s.Statement.Sid) =
        [some "S06", some "S01", some "S02", some "S03", some "S04", some "S05", some "S07",
          some "S08", some "S09", some "S10", some "S11", some "S12", some "S00"] ∧
    ((packStatements thirteenPolicy (withSoloSizes thirteenPolicy) 6144).map
        fun p => p.Statement.map fun s => s.Sid) =
        [[some "S06", some "S01", some "S02", some "S03", some "S04", some "S05", some "S07",
          some "S08", some "S09", some "S10", some "S11", some "S12", some "S00"]] := by
  decide

/-- The swaps of `breakPatterns_func` on a range of fourteen elements: the
elements at indices 5, 6 and 7 are exchanged with those at indices 0, 9
and 0. -/
theorem breakPatterns_func_fourteen :
    breakPatterns_func [0, 1, 2, 3, 4, 5, 6, 7, 8, 9, 10, 11, 12, 13] 0 14 =
      [7, 1, 2, 3, 4, 0, 9, 5, 8, 6, 10, 11, 12, 13] := by
  decide!

/-- The processing order of fourteen statements, the sixth of solo size 103
and the others of solo size 104: the partition around the first pivot is
unbalanced, the rest goes through `breakPatterns_func`, and with a limit of
370 characters the statements are split into three policies in that order. -/
theorem sortedStatements_fourteen :
    ((withSoloSizes fourteenPolicy).map fun s => s.Size) =
        [104, 104, 104, 104, 104, 103, 104, 104, 104, 104, 104, 104, 104, 104] ∧
    ((sortedStatements (withSoloSizes fourteenPolicy)).map fun s => s.Statement.Sid) =
        [some "S06", some "S12", some "S02", some "S03", some "S04", some "S13", some "S08",
          some "S00", some "S01", some "S09", some "S10", some "S11", some "S07", some "S05"] ∧
    ((packStatements fourteenPolicy (withSoloSizes fourteenPolicy) 370).map
        fun p => p.Statement.map fun s => s.Sid) =
        [[some "S06", some "S12", some "S02", some "S03", some "S04"],
          [some "S13", some "S08", some "S00", some "S01", some "S09"],
          [some "S10", some "S11", some "S07", some "S05"]] := by
  decide!

end ProcessingOrder

/-! ## More on the first-fit loop -/

section FirstFitMore

variable (policy : IAMPolicy) (maxChars : Int)

/-- Two bins never fit together: the later one was opened by a statement the
earlier one did not take, and bins only grow. -/
theorem packBins_no_merge (sorted : List StatementWithSize) :
    (packBins policy sorted maxChars).Pairwise
      (fun b c => maxChars < (policySize policy (b.statements ++ c.statements) : Int)) := by
  have key := packBins_induction policy maxChars sorted
    (fun _ bins => bins.Pairwise
        (fun b c => maxChars < (policySize policy (b.statements ++ c.statements) : Int)) ∧
      ∀ b ∈ bins, b.statements ≠ [])
    (by simp) ?_
  · exact key.1
  intro done x rest bins _ inv
  obtain ⟨hpw, hne⟩ := inv
  have grow_left : ∀ (a b : policyBin), a.statements ≠ [] →
      maxChars < (policySize policy (a.statements ++ b.statements) : Int) →
      maxChars < (policySize policy (a.statements ++ (b.statements ++ [x.Statement])) : Int) := by
    intro a b ha h
    have hsub : (a.statements ++ b.statements).Sublist
        (a.statements ++ (b.statements ++ [x.Statement])) :=
      List.Sublist.append_left (List.sublist_append_left _ _) _
    have := policySize_mono policy _ _ (by simp [ha]) hsub
    have : (policySize policy (a.statements ++ b.statements) : Int) ≤
        policySize policy (a.statements ++ (b.statements ++ [x.Statement])) := by exact_mod_cast this
    omega
  have grow_right : ∀ (b c : policyBin), b.statements ≠ [] →
      maxChars < (policySize policy (b.statements ++ c.statements) : Int) →
      maxChars < (policySize policy ((b.statements ++ [x.Statement]) ++ c.statements) : Int) := by
    intro b c hb h
    have hsub : (b.statements ++ c.statements).Sublist
        ((b.statements ++ [x.Statement]) ++ c.statements) :=
      List.Sublist.append_right (List.sublist_append_left _ _) _
    have := policySize_mono policy _ _ (by simp [hb]) hsub
    have : (policySize policy (b.statements ++ c.statements) : Int) ≤
        policySize policy ((b.statements ++ [x.Statement]) ++ c.statements) := by exact_mod_cast this
    omega
  rcases placeStatement_cases policy maxChars bins x with
    ⟨pre, bin, post, e1, e2, _, _⟩ | ⟨e2, hno⟩
  · rw [e2]
    rw [e1] at hpw hne
    rw [List.pairwise_append, List.pairwise_cons] at hpw ⊢
    obtain ⟨h1, ⟨h2, h3⟩, h4⟩ := hpw
    refine ⟨⟨h1, ⟨fun c hc => ?_, h3⟩, fun a ha c hc => ?_⟩, ?_⟩
    · exact grow_right bin c (hne bin (by simp)) (h2 c hc)
    · rcases List.mem_cons.mp hc with rfl | hc
      · exact grow_left a bin (hne a (by simp [ha])) (h4 a ha bin (by simp))
      · exact h4 a ha c (by simp [hc])
    · intro b hb
      simp only [List.mem_append, List.mem_cons] at hb
      rcases hb with hb | rfl | hb
      · exact hne b (by simp [hb])
      · simp
      · exact hne b (by simp [hb])
  · rw [e2]
    refine ⟨?_, ?_⟩
    · rw [List.pairwise_append]
      refine ⟨hpw, List.pairwise_singleton _ _, fun a ha c hc => ?_⟩
      rw [List.mem_singleton] at hc
      subst hc
      have := hno a ha
      simp only
      omega
    · intro b hb
      simp only [List.mem_append, List.mem_singleton] at hb
      rcases hb with hb | rfl
      · exact hne b hb
      · simp

/-- Every bin lists statements of the processing order, in that order. -/
theorem packBins_sublist (sorted : List StatementWithSize) :
    ∀ bin ∈ packBins policy sorted maxChars,
      ∃ sub : List StatementWithSize, sub.Sublist sorted ∧
        (sub.map fun s => s.Statement) = bin.statements := by
  refine packBins_induction policy maxChars sorted
    (fun done bins => ∀ bin ∈ bins, ∃ sub : List StatementWithSize, sub.Sublist done ∧
      (sub.map fun s => s.Statement) = bin.statements) (by simp) ?_
  intro done x rest bins _ inv
  have old : ∀ b ∈ bins, ∃ sub : List StatementWithSize, sub.Sublist (done ++ [x]) ∧
      (sub.map fun s => s.Statement) = b.statements := by
    intro b hb
    obtain ⟨sub, h1, h2⟩ := inv b hb
    exact ⟨sub, h1.trans (List.sublist_append_left _ _), h2⟩
  rcases placeStatement_cases policy maxChars bins x with
    ⟨pre, bin, post, e1, e2, _, _⟩ | ⟨e2, _⟩
  · rw [e2]
    intro b hb
    simp only [List.mem_append, List.mem_cons] at hb
    rcases hb with hb | rfl | hb
    · exact old b (by simp [e1, hb])
    · obtain ⟨sub, h1, h2⟩ := inv bin (by simp [e1])
      exact ⟨sub ++ [x], List.Sublist.append h1 (List.Sublist.refl _), by simp [h2]⟩
    · exact old b (by simp [e1, hb])
  · rw [e2]
    intro b hb
    simp only [List.mem_append, List.mem_singleton] at hb
    rcases hb with hb | rfl
    · exact old b hb
    · exact ⟨[x], List.sublist_append_right _ _, rfl⟩

/-- The bins are in creation order: their first statements are statements of
the processing order, in that order. -/
theorem packBins_openers (sorted : List StatementWithSize) :
    ∃ openers : List StatementWithSize, openers.Sublist sorted ∧
      ((packBins policy sorted maxChars).map fun bin => bin.statements.head?) =
        openers.map fun s => some s.Statement := by
  refine packBins_induction policy maxChars sorted
    (fun done bins => ∃ openers : List StatementWithSize, openers.Sublist done ∧
      (bins.map fun bin => bin.statements.head?) = openers.map fun s => some s.Statement)
    ⟨[], List.Sublist.refl _, rfl⟩ ?_
  intro done x rest bins _ inv
  obtain ⟨openers, h1, h2⟩ := inv
  rcases placeStatement_cases policy maxChars bins x with
    ⟨pre, bin, post, e1, e2, _, _⟩ | ⟨e2, _⟩
  · refine ⟨openers, h1.trans (List.sublist_append_left _ _), ?_⟩
    rw [e2, ← h2, e1]
    have hne : bin.statements ≠ [] := by
      intro hnil
      have hmem : bin.statements.head? ∈ bins.map fun b => b.statements.head? :=
        List.mem_map.mpr ⟨bin, by simp [e1], rfl⟩
      rw [h2, hnil] at hmem
      simp at hmem
    have hhead : (bin.statements ++ [x.Statement]).head? = bin.statements.head? := by
      cases hst : bin.statements with
      | nil => exact absurd hst hne
      | cons s tail => rfl
    simp [hhead]
  · refine ⟨openers ++ [x], List.Sublist.append h1 (List.Sublist.refl _), ?_⟩
    rw [e2]
    simp [h2]

/-- Processing a list in two parts. -/
theorem packBins_append (done todo : List StatementWithSize) :
    packBins policy (done ++ todo) maxChars =
      todo.foldl (placeStatement policy maxChars) (packBins policy done maxChars) := by
  unfold packBins
  rw [List.foldl_append]

/-- One pass of the loop keeps every bin at its index and only appends to it. -/
theorem placeStatement_grows (bins : List policyBin) (x : StatementWithSize) (j : Nat)
    (b : policyBin) (h : bins[j]? = some b) :
    ∃ b', (placeStatement policy maxChars bins x)[j]? = some b' ∧
      b.statements <+: b'.statements := by
  have hj : j < bins.length := by
    by_contra hc
    rw [List.getElem?_eq_none (by omega)] at h
    simp at h
  rcases placeStatement_cases policy maxChars bins x with
    ⟨pre, bin, post, e1, e2, _, _⟩ | ⟨e2, _⟩
  · rw [e2]
    rw [e1] at h
    by_cases hlt : j < pre.length
    · rw [List.getElem?_append_left hlt] at h ⊢
      exact ⟨b, h, List.prefix_refl _⟩
    · rw [List.getElem?_append_right (by omega)] at h ⊢
      by_cases heq : j - pre.length = 0
      · rw [heq] at h ⊢
        simp only [List.getElem?_cons_zero, Option.some.injEq] at h ⊢
        subst h
        exact ⟨_, rfl, List.prefix_append _ _⟩
      · obtain ⟨m, hm⟩ : ∃ m, j - pre.length = m + 1 := ⟨j - pre.length - 1, by omega⟩
        rw [hm] at h ⊢
        rw [List.getElem?_cons_succ] at h ⊢
        exact ⟨b, h, List.prefix_refl _⟩
  · rw [e2, List.getElem?_append_left hj]
    exact ⟨b, h, List.prefix_refl _⟩

/-- The rest of the loop keeps every bin at its index and only appends to it. -/
theorem foldl_placeStatement_grows :
    ∀ (todo : List StatementWithSize) (bins : List policyBin) (j : Nat) (b : policyBin),
      bins[j]? = some b →
      ∃ b', (todo.foldl (placeStatement policy maxChars) bins)[j]? = some b' ∧
        b.statements <+: b'.statements := by
  intro todo
  induction todo with
  | nil => intro bins j b h; exact ⟨b, h, List.prefix_refl _⟩
  | cons x rest ih =>
    intro bins j b h
    obtain ⟨b1, h1, p1⟩ := placeStatement_grows policy maxChars bins x j b h
    obtain ⟨b2, h2, p2⟩ := ih _ j b1 h1
    exact ⟨b2, h2, p1.trans p2⟩

/-- First fit, on the bins: the statement `x`, processed after `done`, lands in
the first bin whose test document fits, or in a new last bin when none fits;
that bin and the bins before it keep their index to the end and only grow. -/
theorem packBins_first_fit (sorted done rest : List StatementWithSize) (x : StatementWithSize)
    (hsplit : sorted = done ++ x :: rest) :
    ∃ k final, (packBins policy sorted maxChars)[k]? = some final ∧
      ((∃ b, (packBins policy done maxChars)[k]? = some b ∧
          (b.statements ++ [x.Statement]) <+: final.statements ∧
          (policySize policy (b.statements ++ [x.Statement]) : Int) ≤ maxChars) ∨
        ((packBins policy done maxChars).length = k ∧ [x.Statement] <+: final.statements)) ∧
      ∀ j, j < k → ∃ b q, (packBins policy done maxChars)[j]? = some b ∧
        (packBins policy sorted maxChars)[j]? = some q ∧ b.statements <+: q.statements ∧
        maxChars < (policySize policy (b.statements ++ [x.Statement]) : Int) := by
  have hsorted : packBins policy sorted maxChars =
      rest.foldl (placeStatement policy maxChars)
        (placeStatement policy maxChars (packBins policy done maxChars) x) := by
    rw [hsplit, packBins_append]
    rfl
  generalize packBins policy done maxChars = bins at hsorted ⊢
  have hgrow : ∀ (j : Nat) (b : policyBin), bins[j]? = some b →
      ∃ q : policyBin, (packBins policy sorted maxChars)[j]? = some q ∧
        b.statements <+: q.statements := by
    intro j b h
    obtain ⟨b1, h1, p1⟩ := placeStatement_grows policy maxChars bins x j b h
    obtain ⟨b2, h2, p2⟩ := foldl_placeStatement_grows policy maxChars rest _ j b1 h1
    rw [← hsorted] at h2
    exact ⟨b2, h2, p1.trans p2⟩
  rcases placeStatement_cases policy maxChars bins x with
    ⟨pre, bin, post, e1, e2, hfit, hno⟩ | ⟨e2, hno⟩
  · have hk1 : (placeStatement policy maxChars bins x)[pre.length]? =
        some { statements := bin.statements ++ [x.Statement]
               currentSize := policySize policy (bin.statements ++ [x.Statement]) } := by
      rw [e2, List.getElem?_append_right (Nat.le_refl _)]
      simp
    obtain ⟨final, hf1, hf2⟩ := foldl_placeStatement_grows policy maxChars rest _ _ _ hk1
    rw [← hsorted] at hf1
    have hk0 : bins[pre.length]? = some bin := by
      rw [e1, List.getElem?_append_right (Nat.le_refl _)]
      simp
    refine ⟨pre.length, final, hf1, Or.inl ⟨bin, hk0, hf2, hfit⟩, ?_⟩
    intro j hj
    have hjb : bins[j]? = some pre[j] := by
      rw [e1, List.getElem?_append_left hj]
      exact List.getElem?_eq_getElem hj
    obtain ⟨q, hq1, hq2⟩ := hgrow j _ hjb
    have := hno pre[j] (List.getElem_mem hj)
    exact ⟨pre[j], q, hjb, hq1, hq2, by omega⟩
  · have hk1 : (placeStatement policy maxChars bins x)[bins.length]? =
        some { statements := [x.Statement], currentSize := policySize policy [x.Statement] } := by
      rw [e2, List.getElem?_append_right (Nat.le_refl _)]
      simp
    obtain ⟨final, hf1, hf2⟩ := foldl_placeStatement_grows policy maxChars rest _ _ _ hk1
    rw [← hsorted] at hf1
    refine ⟨bins.length, final, hf1, Or.inr ⟨rfl, hf2⟩, ?_⟩
    intro j hj
    have hjb : bins[j]? = some bins[j] := List.getElem?_eq_getElem hj
    obtain ⟨q, hq1, hq2⟩ := hgrow j _ hjb
    have := hno bins[j] (List.getElem_mem hj)
    exact ⟨bins[j], q, hjb, hq1, hq2, by omega⟩

end FirstFitMore

/-! ## Defaults, the envelope and the cost function -/

section EnvelopeAndCost

set_option maxRecDepth 100000

/-- C11, default limit: with `max_chars` null or unknown, `Read` leaves behind
exactly what it leaves behind for the same policy text with `max_chars = 6144`:
the same diagnostics, the same split policies in the same order and the same
id. -/
theorem Read_default_limit (unmarshal : String → Except String IAMPolicy) (policyJson : String) :
    Read unmarshal { PolicyJson := policyJson, MaxChars := .null } =
        Read unmarshal { PolicyJson := policyJson, MaxChars := .value 6144 } ∧
      Read unmarshal { PolicyJson := policyJson, MaxChars := .unknown } =
        Read unmarshal { PolicyJson := policyJson, MaxChars := .value 6144 } :=
  ⟨rfl, rfl⟩

/-- C14, envelope preserved: every returned policy has the `Version` and the
`Id` of the original policy; only the statement lists differ. -/
theorem packStatements_envelope (originalPolicy : IAMPolicy)
    (statements : List StatementWithSize) (maxChars : Int) :
    ∀ p ∈ packStatements originalPolicy statements maxChars,
      p.Version = originalPolicy.Version ∧ p.Id = originalPolicy.Id := by
  intro p hp
  obtain ⟨bin, _, rfl⟩ := (mem_packStatements originalPolicy maxChars statements p).mp hp
  exact ⟨rfl, rfl⟩

/-- C14 on the input of `TestPackStatements`. -/
theorem packStatements_envelope_witness :
    (packStatements unitTestPolicy (withSoloSizes unitTestPolicy) 500).length = 1 ∧
    ∀ p ∈ packStatements unitTestPolicy (withSoloSizes unitTestPolicy) 500,
      p.Version = "2012-10-17" ∧ p.Id = none :=
  ⟨by decide, packStatements_envelope unitTestPolicy (withSoloSizes unitTestPolicy) 500⟩

/-- The envelope alone takes at least 29 characters. -/
theorem envelopeLen_ge (version : String) (id : Option String) : 29 ≤ envelopeLen version id := by
  unfold envelopeLen
  omega

/-- C15, cost is not additive: the document of the envelope with two
statements is never as long as the two solo documents together.  The
envelope is counted once instead of twice and one separator is added: the
two-statement size plus the envelope's length is the sum of the solo sizes
plus one. -/
theorem policySize_not_additive (originalPolicy : IAMPolicy) (a b : IAMPolicyStatement) :
    policySize originalPolicy [a, b] ≠
        policySize originalPolicy [a] + policySize originalPolicy [b] ∧
      policySize originalPolicy [a, b] + envelopeLen originalPolicy.Version originalPolicy.Id =
        policySize originalPolicy [a] + policySize originalPolicy [b] + 1 := by
  have hab := policySize_eq originalPolicy [a, b] (by simp)
  have ha := policySize_eq originalPolicy [a] (by simp)
  have hb := policySize_eq originalPolicy [b] (by simp)
  have he := envelopeLen_ge originalPolicy.Version originalPolicy.Id
  simp only [List.map_cons, List.map_nil, List.sum_cons, List.sum_nil] at hab ha hb
  constructor
  · omega
  · omega

end EnvelopeAndCost

/-! ## The reported index -/

section ReportedIndex

set_option maxRecDepth 100000

/-- What the second loop of `Read` finds is the first statement over the
limit, with its index and its size. -/
theorem findTooLarge_eq_some (maxChars : Int) :
    ∀ (l : List StatementWithSize) (start index : Nat) (size : Int),
      findTooLarge maxChars start l = some (index, size) →
      start ≤ index ∧ ∃ s, l[index - start]? = some s ∧ size = s.Size ∧ maxChars < s.Size ∧
        ∀ j t, j < index - start → l[j]? = some t → t.Size ≤ maxChars := by
  intro l
  induction l with
  | nil => intro start index size h; simp [findTooLarge] at h
  | cons s rest ih =>
    intro start index size h
    unfold findTooLarge at h
    by_cases hc : s.Size > maxChars
    · rw [if_pos hc] at h
      simp only [Option.some.injEq, Prod.mk.injEq] at h
      obtain ⟨h1, h2⟩ := h
      subst h1 h2
      refine ⟨Nat.le_refl _, s, by simp, rfl, hc, fun j t hj => by omega⟩
    · rw [if_neg hc] at h
      obtain ⟨h1, t, h2, h3, h4, h5⟩ := ih (start + 1) index size h
      refine ⟨by omega, t, ?_, h3, h4, ?_⟩
      · have e : index - start = (index - (start + 1)) + 1 := by omega
        rw [e, List.getElem?_cons_succ]
        exact h2
      · intro j u hj hu
        cases j with
        | zero =>
          simp only [List.getElem?_cons_zero, Option.some.injEq] at hu
          subst hu
          omega
        | succ j =>
          rw [List.getElem?_cons_succ] at hu
          exact h5 j u (by omega) hu

/-- The statement at an index with the size `Read` attached to it. -/
theorem getElem?_withSoloSizes (policy : IAMPolicy) (i : Nat) (s : StatementWithSize)
    (h : (withSoloSizes policy)[i]? = some s) :
    policy.Statement[i]? = some s.Statement ∧
      s.Size = (policySize policy [s.Statement] : Int) := by
  unfold withSoloSizes at h
  rw [List.getElem?_map] at h
  cases hst : policy.Statement[i]? with
  | none => simp [hst] at h
  | some stmt =>
    simp only [hst, Option.map_some', Option.some.injEq] at h
    subst h
    exact ⟨rfl, rfl⟩

/-- The values `Read` puts in a "Statement Too Large" diagnostic. -/
theorem Read_statementTooLarge_mem (unmarshal : String → Except String IAMPolicy)
    (data : IamPolicySplitterDataSourceModel) (index : Nat) (size limit : Int)
    (h : ReadError.statementTooLarge index size limit ∈ (Read unmarshal data).Diagnostics) :
    limit = effectiveMaxChars data ∧
      ∃ policy stmt, unmarshal data.PolicyJson = .ok policy ∧
        policy.Statement[index]? = some stmt ∧
        size = (policySize policy [stmt] : Int) ∧ limit < size ∧
        ∀ j s, j < index → policy.Statement[j]? = some s →
          (policySize policy [s] : Int) ≤ limit := by
  by_cases hpos : effectiveMaxChars data ≤ 0
  · have hr : Read unmarshal data =
        { Diagnostics := [.invalidConfiguration], State := none, Calls := [] } := by
      unfold Read
      simp only [hpos, if_true]
    rw [hr] at h
    simp at h
  cases hparse : unmarshal data.PolicyJson with
  | error err =>
    have hr : Read unmarshal data =
        { Diagnostics := [.invalidPolicyJSON err], State := none, Calls := [.unmarshal] } := by
      unfold Read
      simp only [hpos, if_false, hparse]
    rw [hr] at h
    simp at h
  | ok policy =>
    by_cases hversion : policy.Version = ""
    · have hr : Read unmarshal data =
          { Diagnostics := [.missingVersion], State := none, Calls := [.unmarshal] } := by
        unfold Read
        simp only [hpos, if_false, hparse, hversion, if_true]
      rw [hr] at h
      simp at h
    by_cases hstmt : policy.Statement = []
    · have hr : Read unmarshal data =
          { Diagnostics := [.missingStatement], State := none, Calls := [.unmarshal] } := by
        unfold Read
        simp only [hpos, if_false, hparse, hversion, hstmt, List.length_nil, if_true]
      rw [hr] at h
      simp at h
    rw [Read_wellformed unmarshal data policy (by omega) hparse hversion hstmt] at h
    cases hf : findTooLarge (effectiveMaxChars data) 0 (withSoloSizes policy) with
    | none =>
      rw [hf] at h
      simp at h
    | some r =>
      obtain ⟨i, sz⟩ := r
      rw [hf] at h
      simp only [List.mem_singleton, ReadError.statementTooLarge.injEq] at h
      obtain ⟨h1, h2, h3⟩ := h
      subst h1 h2 h3
      obtain ⟨_, s, hs, e1, e2, e3⟩ := findTooLarge_eq_some _ _ 0 index size hf
      simp only [Nat.sub_zero] at hs e3
      obtain ⟨g1, g2⟩ := getElem?_withSoloSizes policy index s hs
      refine ⟨rfl, policy, s.Statement, rfl, g1, by rw [e1, g2], by rw [e1]; exact e2, ?_⟩
      intro j t hj ht
      have hmem : (withSoloSizes policy)[j]? =
          some { Statement := t, Size := (policySize policy [t] : Int) } := by
        unfold withSoloSizes
        rw [List.getElem?_map, ht]
        rfl
      exact e3 j _ hj hmem

/-- C16, offending index reported: when `Read` fails with "Statement Too
Large", the index it reports is the first position of the parsed policy, in
input order, whose statement serialized alone with the envelope exceeds the
limit; the size it reports is that solo size and the limit it reports is the
effective `max_chars`. -/
theorem Read_reports_first_too_large (unmarshal : String → Except String IAMPolicy)
    (data : IamPolicySplitterDataSourceModel) (e : ReadError)
    (he : e ∈ (Read unmarshal data).Diagnostics) (hsummary : e.summary = "Statement Too Large") :
    ∃ index policy stmt, unmarshal data.PolicyJson = .ok policy ∧
      policy.Statement[index]? = some stmt ∧
      e = .statementTooLarge index (policySize policy [stmt] : Int) (effectiveMaxChars data) ∧
      effectiveMaxChars data < (policySize policy [stmt] : Int) ∧
      ∀ j s, j < index → policy.Statement[j]? = some s →
        (policySize policy [s] : Int) ≤ effectiveMaxChars data := by
  cases e with
  | statementTooLarge index size limit =>
    obtain ⟨h1, policy, stmt, h2, h3, h4, h5, h6⟩ :=
      Read_statementTooLarge_mem unmarshal data index size limit he
    subst h1 h4
    exact ⟨index, policy, stmt, h2, h3, rfl, h5, h6⟩
  | invalidConfiguration => simp [ReadError.summary] at hsummary
  | invalidPolicyJSON err => simp [ReadError.summary] at hsummary
  | missingVersion => simp [ReadError.summary] at hsummary
  | missingStatement => simp [ReadError.summary] at hsummary
  | marshalStatement i err => simp [ReadError.summary] at hsummary
  | marshalSplitPolicy i err => simp [ReadError.summary] at hsummary

/-- C16 on the policy of `TestPackStatements` with `max_chars = 120`: the
statement reported is the third of the input (index 2, 122 characters), which
the sort would put first. -/
theorem Read_reports_first_too_large_witness :
    (ReadError.statementTooLarge 2 122 120 ∈
        (Read (unmarshalTo unitTestPolicy) tooLargeConfig).Diagnostics ∧
      (ReadError.statementTooLarge 2 122 120).summary = "Statement Too Large") ∧
    ∃ index policy stmt, unmarshalTo unitTestPolicy tooLargeConfig.PolicyJson = .ok policy ∧
      policy.Statement[index]? = some stmt ∧
      ReadError.statementTooLarge 2 122 120 =
        .statementTooLarge index (policySize policy [stmt] : Int)
          (effectiveMaxChars tooLargeConfig) ∧
      effectiveMaxChars tooLargeConfig < (policySize policy [stmt] : Int) ∧
      ∀ j s, j < index → policy.Statement[j]? = some s →
        (policySize policy [s] : Int) ≤ effectiveMaxChars tooLargeConfig := by
  have h : ReadError.statementTooLarge 2 122 120 ∈
      (Read (unmarshalTo unitTestPolicy) tooLargeConfig).Diagnostics := by
    have e : (Read (unmarshalTo unitTestPolicy) tooLargeConfig).Diagnostics =
        [ReadError.statementTooLarge 2 122 120] := by rfl
    rw [e]
    exact List.mem_singleton.mpr rfl
  exact ⟨⟨h, rfl⟩,
    Read_reports_first_too_large (unmarshalTo unitTestPolicy) tooLargeConfig _ h rfl⟩

end ReportedIndex

/-! ## Placement and order -/

section PlacementAndOrder

set_option maxRecDepth 100000

theorem getElem?_packStatements (originalPolicy : IAMPolicy)
    (statements : List StatementWithSize) (maxChars : Int) (k : Nat) :
    (packStatements originalPolicy statements maxChars)[k]? =
      ((packBins originalPolicy (sortedStatements statements) maxChars)[k]?).map fun bin =>
        { Version := originalPolicy.Version, Statement := bin.statements,
          Id := originalPolicy.Id } := by
  unfold packStatements
  rw [List.getElem?_map]

/-- C12, first-fit placement: let `x` be processed after the statements `done`
of the processing order, and let the bins be those built from `done`.  Then
`x` ends up in an output policy `k` such that every earlier policy `j`, taken
with the statements it held when `x` came, serializes with `x` to more than
the limit; and policy `k`, taken with the statements it held then and `x`,
serializes to at most the limit, unless `x` is the statement that opened it.
The statements a policy held when `x` came are a prefix of its final list. -/
theorem packStatements_first_fit (originalPolicy : IAMPolicy)
    (statements : List StatementWithSize) (maxChars : Int)
    (done rest : List StatementWithSize) (x : StatementWithSize)
    (hsplit : sortedStatements statements = done ++ x :: rest) :
    ∃ k p, (packStatements originalPolicy statements maxChars)[k]? = some p ∧
      ((∃ b, (packBins originalPolicy done maxChars)[k]? = some b ∧
          (b.statements ++ [x.Statement]) <+: p.Statement ∧
          (policySize originalPolicy (b.statements ++ [x.Statement]) : Int) ≤ maxChars) ∨
        ((packBins originalPolicy done maxChars).length = k ∧ [x.Statement] <+: p.Statement)) ∧
      ∀ j, j < k → ∃ b q, (packBins originalPolicy done maxChars)[j]? = some b ∧
        (packStatements originalPolicy statements maxChars)[j]? = some q ∧
        b.statements <+: q.Statement ∧
        maxChars < (policySize originalPolicy (b.statements ++ [x.Statement]) : Int) := by
  obtain ⟨k, final, h1, h2, h3⟩ := packBins_first_fit originalPolicy maxChars
    (sortedStatements statements) done rest x hsplit
  refine ⟨k, { Version := originalPolicy.Version, Statement := final.statements,
               Id := originalPolicy.Id }, ?_, h2, ?_⟩
  · rw [getElem?_packStatements, h1]
    rfl
  · intro j hj
    obtain ⟨b, q, g1, g2, g3, g4⟩ := h3 j hj
    refine ⟨b, { Version := originalPolicy.Version, Statement := q.statements,
                 Id := originalPolicy.Id }, g1, ?_, g3, g4⟩
    rw [getElem?_packStatements, g2]
    rfl

/-- C12 on the policy of `TestPackStatements` with limit 250: the second
statement, processed last, does not fit in the first policy (it would make
284 characters) and opens the second one. -/
theorem packStatements_first_fit_witness :
    sortedStatements (withSoloSizes unitTestPolicy) =
      unitTestProcessedFirst ++ unitTestProcessedLast :: [] ∧
    ∃ k p, (packStatements unitTestPolicy (withSoloSizes unitTestPolicy) 250)[k]? = some p ∧
      ((∃ b, (packBins unitTestPolicy unitTestProcessedFirst 250)[k]? = some b ∧
          (b.statements ++ [unitTestProcessedLast.Statement]) <+: p.Statement ∧
          (policySize unitTestPolicy (b.statements ++ [unitTestProcessedLast.Statement]) : Int)
            ≤ 250) ∨
        ((packBins unitTestPolicy unitTestProcessedFirst 250).length = k ∧
          [unitTestProcessedLast.Statement] <+: p.Statement)) ∧
      ∀ j, j < k → ∃ b q, (packBins unitTestPolicy unitTestProcessedFirst 250)[j]? = some b ∧
        (packStatements unitTestPolicy (withSoloSizes unitTestPolicy) 250)[j]? = some q ∧
        b.statements <+: q.Statement ∧
        (250 : Int) <
          (policySize unitTestPolicy (b.statements ++ [unitTestProcessedLast.Statement]) : Int) :=
  ⟨by rfl,
    packStatements_first_fit unitTestPolicy (withSoloSizes unitTestPolicy) 250
      unitTestProcessedFirst [] unitTestProcessedLast (by rfl)⟩

/-- C13, order inside and across groups: every returned policy lists
statements of the processing order in that order, so the sizes attached to
them are non-increasing along the policy; and the returned policies are in
creation order: their first statements are statements of the processing
order, in that order. -/
theorem packStatements_order (originalPolicy : IAMPolicy)
    (statements : List StatementWithSize) (maxChars : Int) :
    (∀ p ∈ packStatements originalPolicy statements maxChars,
      ∃ sub : List StatementWithSize, sub.Sublist (sortedStatements statements) ∧
        (sub.map fun s => s.Statement) = p.Statement ∧
        (sub.map fun s => s.Size).Pairwise (fun x y => y ≤ x)) ∧
    ∃ openers : List StatementWithSize, openers.Sublist (sortedStatements statements) ∧
      ((packStatements originalPolicy statements maxChars).map fun p => p.Statement.head?) =
        openers.map fun s => some s.Statement := by
  constructor
  · intro p hp
    obtain ⟨bin, hbin, rfl⟩ := (mem_packStatements originalPolicy maxChars statements p).mp hp
    obtain ⟨sub, h1, h2⟩ := packBins_sublist originalPolicy maxChars _ bin hbin
    refine ⟨sub, h1, h2, ?_⟩
    have hsorted := sortSlice_pairwise StatementWithSize.Size sizeGreater (fun _ _ => rfl)
      statements
    exact List.Pairwise.sublist (h1.map _) hsorted
  · obtain ⟨openers, h1, h2⟩ := packBins_openers originalPolicy maxChars
      (sortedStatements statements)
    refine ⟨openers, h1, ?_⟩
    rw [← h2]
    simp [packStatements, List.map_map, Function.comp_def]

/-- C17, no two output groups can be merged: for any two returned policies at
different places, the document of the envelope with the statements of both,
in either order, serializes to more than the limit. -/
theorem packStatements_no_merge (originalPolicy : IAMPolicy)
    (statements : List StatementWithSize) (maxChars : Int) :
    (packStatements originalPolicy statements maxChars).Pairwise
      (fun p q =>
        maxChars < (policySize originalPolicy (p.Statement ++ q.Statement) : Int) ∧
        maxChars < (policySize originalPolicy (q.Statement ++ p.Statement) : Int)) := by
  unfold packStatements
  rw [List.pairwise_map]
  refine (packBins_no_merge originalPolicy maxChars (sortedStatements statements)).imp ?_
  intro b c h
  refine ⟨h, ?_⟩
  rw [policySize_perm originalPolicy _ _ List.perm_append_comm]
  exact h

end PlacementAndOrder

end IamPolicySplitter
